import Mathlib

/-
Verification development for the Serializer repository (binary codec in
binary_serializer.cpp, JSON binding in json_serializer.cpp).

The binary container's data buffer is modelled at byte level: a buffer is a
`List Nat` of bytes and the writer's used prefix is the list itself.  `grow`
copies the used prefix verbatim into the new allocation, so buffer contents
are independent of the capacity bookkeeping; capacity arithmetic
(`c_writer_initial_size`, `grow`, `reserve_bytes`) is modelled separately on
plain numbers.  Strings are modelled as Lean `String`s (the C++ code compares
names with length-plus-strcmp, which agrees with full string equality for the
NUL-free strings the interface is used with).  32-bit floats are carried as
their 4-byte patterns; the float<->integer `static_cast`s are abstracted by a
`FloatRt` parameter since floating-point rounding is outside the embedding.
-/

namespace Ser

/-! ## Byte-level primitives -/

def byteGet (buf : List Nat) (i : Nat) : Nat := buf.getD i 0

def encodeU16 (x : Nat) : List Nat := [x % 256, x / 256 % 256]

def encodeU32 (x : Nat) : List Nat :=
  [x % 256, x / 256 % 256, x / 65536 % 256, x / 16777216 % 256]

def readU16 (buf : List Nat) (i : Nat) : Nat :=
  byteGet buf i + 256 * byteGet buf (i + 1)

def readU32 (buf : List Nat) (i : Nat) : Nat :=
  byteGet buf i + 256 * byteGet buf (i + 1) + 65536 * byteGet buf (i + 2) +
    16777216 * byteGet buf (i + 3)

/-- `ElementHeader` (packed, 6 bytes): `unsigned short` with `m_type : 3`
(low bits) and `m_name : 13`, then the 4-byte `m_size`, little endian. -/
def encodeEH (t name size : Nat) : List Nat :=
  encodeU16 (t % 8 + 8 * (name % 8192)) ++ encodeU32 size

def ehType (buf : List Nat) (i : Nat) : Nat := readU16 buf i % 8

def ehName (buf : List Nat) (i : Nat) : Nat := readU16 buf i / 8

def ehSize (buf : List Nat) (i : Nat) : Nat := readU32 buf (i + 2)

/-- `ArrayHeader` (packed, 4 bytes): `m_inner_type : 3` low bits,
`m_element_num : 29`. -/
def encodeAH (inner count : Nat) : List Nat := encodeU32 (inner % 8 + 8 * count)

def ahInner (buf : List Nat) (i : Nat) : Nat := readU32 buf i % 8

def ahCount (buf : List Nat) (i : Nat) : Nat := readU32 buf i / 8 % 536870912

/-- Element type tags, `ElementHeader::ElementType`. -/
def tInt : Nat := 0
def tUInt : Nat := 1
def tFloat : Nat := 2
def tBool : Nat := 3
def tString : Nat := 4
def tObject : Nat := 5
def tArray : Nat := 6
def tNull : Nat := 7

/-! ## String interning (`map_string_to_integer`)

The C++ function does a linear `std::find` over the container's string
table; on a miss it asserts `idx <= ElementHeader::max_name_idx` and appends
the string. -/

def internFind : List String → String → Option Nat
  | [], _ => none
  | t :: ts, s => if t = s then some 0 else (internFind ts s).map (· + 1)

def mapStringToInteger (tbl : List String) (s : String) : Nat × List String :=
  match internFind tbl s with
  | some i => (i, tbl)
  | none => (tbl.length, tbl ++ [s])

/-- The condition checked by the `SERIALIZER_ASSERT` inside
`map_string_to_integer` (only evaluated when the string is new). -/
def internAssertOk (tbl : List String) (s : String) : Prop :=
  internFind tbl s ≠ none ∨ tbl.length ≤ 8191

instance (tbl : List String) (s : String) : Decidable (internAssertOk tbl s) := by
  unfold internAssertOk; infer_instance

def internAll (tbl : List String) : List String → List String
  | [] => tbl
  | s :: ss => internAll (mapStringToInteger tbl s).2 ss

/-! ## Buffer capacity arithmetic (`c_writer_initial_size`, `grow`,
`reserve_bytes`, the bounds check in `write`)

`grow(data, used, size, needed)` doubles `new_data_size` starting from the
current capacity (or from `c_writer_initial_size = 4098` when the capacity is
zero) until it is at least `used_size + needed_size`; both call sites pass
`needed_size = used_size + n`, so the loop target is `2*used + n`. -/

def cWriterInitialSize : Nat := 4098

/-- One iteration of the `do`-body of `grow`'s loop. -/
def growStep (cap : Nat) : Nat := if 0 < cap then 2 * cap else cWriterInitialSize

theorem growStep_gt (cap : Nat) : cap < growStep cap := by
  unfold growStep cWriterInitialSize; split <;> omega

def growSize (cap target : Nat) : Nat :=
  if growStep cap < target then growSize (growStep cap) target else growStep cap
termination_by target - cap
decreasing_by
  have := growStep_gt cap
  omega

/-- Capacity after `grow` as invoked from `reserve_bytes`/`write` with
`needed_size = used + n`. -/
def growCap (used cap n : Nat) : Nat := growSize cap (used + (used + n))

/-- `write`: bounds check against the capacity, growing as needed, then
append.  Returns `(used', cap')`. -/
def writeCapStep (used cap n : Nat) : Nat × Nat :=
  if used + n > cap then (used + n, growCap used cap n) else (used + n, cap)

/-! ## In-place byte operations on the data buffer -/

def setByte (buf : List Nat) (i v : Nat) : List Nat := buf.set i v

/-- Write a run of bytes at consecutive positions (ascending). -/
def writeAt (buf : List Nat) (dst : Nat) : List Nat → List Nat
  | [] => buf
  | b :: bs => writeAt (buf.set dst b) (dst + 1) bs

/-- A snapshot of `n` bytes starting at `src`. -/
def sliceN (buf : List Nat) (src n : Nat) : List Nat := (buf.drop src).take n

/-! ## `nullify_elements_with_name`

Walks the headers in `[start, stop)`; whenever `m_name` matches, assigns
`m_type = Null` (the low 3 bits of the header's first 16-bit word, i.e. of
its first byte).  `m_size` is untouched, so the walk still advances by
`sizeof(ElementHeader) + m_size`. -/

def nullifyLoop (buf : List Nat) (nameIdx it stop : Nat) : List Nat :=
  if _h : it < stop then
    nullifyLoop
      (if ehName buf it = nameIdx then setByte buf it (byteGet buf it / 8 * 8 + 7) else buf)
      nameIdx (it + 6 + ehSize buf it) stop
  else buf
termination_by stop - it
decreasing_by omega

/-! ## `remove_null_elements`

The in-place compaction run by `BinaryWriter::~BinaryWriter`.  Null-typed
elements are skipped; surviving elements are copied down to `proper_data`.
Disjoint ranges use `memcpy`; overlapping ranges use a loop of 8-byte word
assignments followed by a byte loop whose index runs from
`size_to_copy - vector_size*8` up to `size_to_copy` (sequential, aliasing
reads observe earlier writes, exactly as the C++ does). -/

def wordCopyLoop (buf : List Nat) (dst src : Nat) : Nat → List Nat
  | 0 => buf
  | v + 1 => wordCopyLoop (writeAt buf dst (sliceN buf src 8)) (dst + 8) (src + 8) v

def byteCopyLoop (buf : List Nat) (dst src : Nat) : Nat → List Nat
  | 0 => buf
  | n + 1 => byteCopyLoop (buf.set dst (byteGet buf src)) (dst + 1) (src + 1) n

def overlapCopy (buf : List Nat) (dst src s : Nat) : List Nat :=
  let v := s / 8
  let buf1 := wordCopyLoop buf dst src v
  byteCopyLoop buf1 (dst + (s - 8 * v)) (src + (s - 8 * v)) (s - (s - 8 * v))

def removeNullLoop (buf : List Nat) (subIt properIt stop finalSize : Nat) :
    List Nat × Nat :=
  if _h : subIt < stop then
    if ehType buf subIt = tNull then
      removeNullLoop buf (subIt + 6 + ehSize buf subIt) properIt stop
        (finalSize - (6 + ehSize buf subIt))
    else if properIt = subIt then
      removeNullLoop buf (subIt + 6 + ehSize buf subIt) (subIt + 6 + ehSize buf subIt)
        stop finalSize
    else
      removeNullLoop
        (if properIt + (6 + ehSize buf subIt) ≤ subIt then
          writeAt buf properIt (sliceN buf subIt (6 + ehSize buf subIt))
        else
          overlapCopy buf properIt subIt (6 + ehSize buf subIt))
        (subIt + (6 + ehSize buf subIt)) (properIt + (6 + ehSize buf subIt))
        stop finalSize
  else (buf, finalSize)
termination_by stop - subIt
decreasing_by all_goals omega

def removeNullRun (buf : List Nat) (start size : Nat) : List Nat × Nat :=
  removeNullLoop buf start start (start + size) size

/-! ## Writer state

`BinaryWriter` holds references to the container's string table, buffer and
used size, plus its own `m_first_element_header_start`; the shared part is
the state below and `start` is passed to each operation. -/

structure CState where
  strings : List String
  buf : List Nat
deriving Repr, DecidableEq

/-- `BinaryWriter::~BinaryWriter`: compact `[start, used)` and shrink the
used size by the removed bytes. -/
def binDtor (start : Nat) (st : CState) : CState :=
  let r := removeNullRun st.buf start (st.buf.length - start)
  { st with buf := r.1.take (start + r.2) }

def nullifyName (start nameIdx : Nat) (st : CState) : CState :=
  { st with buf := nullifyLoop st.buf nameIdx start st.buf.length }

/-- Two's-complement 32-bit views used by the `memcpy`-based reads/writes. -/
def toU32 (i : Int) : Nat := (i % 4294967296).toNat

def toI32 (b : Nat) : Int := if b % 4294967296 < 2147483648 then (b % 4294967296 : Nat) else (b % 4294967296 : Nat) - 4294967296

/-! ## `BinaryWriter` serialize operations (scalar and string) -/

def serializeIntBin (start : Nat) (name : String) (v : Int) (st : CState) : CState :=
  match mapStringToInteger st.strings name with
  | (idx, strs) =>
    let st1 := nullifyName start (idx % 65536) { st with strings := strs }
    { st1 with buf := st1.buf ++ encodeEH tInt (idx % 65536) 4 ++ encodeU32 (toU32 v) }

def serializeUIntBin (start : Nat) (name : String) (v : Nat) (st : CState) : CState :=
  match mapStringToInteger st.strings name with
  | (idx, strs) =>
    let st1 := nullifyName start (idx % 65536) { st with strings := strs }
    { st1 with buf := st1.buf ++ encodeEH tUInt (idx % 65536) 4 ++ encodeU32 (v % 4294967296) }

/-- Floats are carried as their 4-byte patterns (the C++ writes them with
`memcpy`). -/
def serializeFloatBin (start : Nat) (name : String) (bits : Nat) (st : CState) : CState :=
  match mapStringToInteger st.strings name with
  | (idx, strs) =>
    let st1 := nullifyName start (idx % 65536) { st with strings := strs }
    { st1 with buf := st1.buf ++ encodeEH tFloat (idx % 65536) 4 ++ encodeU32 (bits % 4294967296) }

def serializeBoolBin (start : Nat) (name : String) (b : Bool) (st : CState) : CState :=
  match mapStringToInteger st.strings name with
  | (idx, strs) =>
    let st1 := nullifyName start (idx % 65536) { st with strings := strs }
    { st1 with buf := st1.buf ++ encodeEH tBool (idx % 65536) 1 ++ [if b then 1 else 0] }

/-- String fields: the value is interned first, then the name
(`BinaryWriter::serialize(name, str, length)`). -/
def serializeStrBin (start : Nat) (name s : String) (st : CState) : CState :=
  match mapStringToInteger st.strings s with
  | (vidx, strs1) =>
    match mapStringToInteger strs1 name with
    | (idx, strs2) =>
      let st1 := nullifyName start (idx % 65536) { st with strings := strs2 }
      { st1 with buf := st1.buf ++ encodeEH tString (idx % 65536) 4 ++ encodeU32 vidx }

/-! ## `BinaryWriter` array operations

`write_array_element` emits the same bytes through the bulk
(`get_all`/`memcpy`) path and the per-element path, so the payload is taken
from the adapter's element list directly. -/

def serializeArrIntBin (start : Nat) (name : String) (xs : List Int) (st : CState) : CState :=
  match mapStringToInteger st.strings name with
  | (idx, strs) =>
    let st1 := nullifyName start (idx % 65536) { st with strings := strs }
    { st1 with buf := st1.buf ++ encodeEH tArray (idx % 65536) (4 + 4 * xs.length) ++
        encodeAH tInt xs.length ++ (xs.map fun i => encodeU32 (toU32 i)).flatten }

def serializeArrUIntBin (start : Nat) (name : String) (xs : List Nat) (st : CState) : CState :=
  match mapStringToInteger st.strings name with
  | (idx, strs) =>
    let st1 := nullifyName start (idx % 65536) { st with strings := strs }
    { st1 with buf := st1.buf ++ encodeEH tArray (idx % 65536) (4 + 4 * xs.length) ++
        encodeAH tUInt xs.length ++ (xs.map fun u => encodeU32 (u % 4294967296)).flatten }

def serializeArrFloatBin (start : Nat) (name : String) (xs : List Nat) (st : CState) : CState :=
  match mapStringToInteger st.strings name with
  | (idx, strs) =>
    let st1 := nullifyName start (idx % 65536) { st with strings := strs }
    { st1 with buf := st1.buf ++ encodeEH tArray (idx % 65536) (4 + 4 * xs.length) ++
        encodeAH tFloat xs.length ++ (xs.map fun f => encodeU32 (f % 4294967296)).flatten }

def serializeArrBoolBin (start : Nat) (name : String) (xs : List Bool) (st : CState) : CState :=
  match mapStringToInteger st.strings name with
  | (idx, strs) =>
    let st1 := nullifyName start (idx % 65536) { st with strings := strs }
    { st1 with buf := st1.buf ++ encodeEH tArray (idx % 65536) (4 + xs.length) ++
        encodeAH tBool xs.length ++ xs.map fun b => if b then 1 else 0 }

def internMany (tbl : List String) : List String → List Nat × List String
  | [] => ([], tbl)
  | s :: ss =>
    match mapStringToInteger tbl s with
    | (i, tbl1) =>
      match internMany tbl1 ss with
      | (is, tbl2) => (i :: is, tbl2)

/-- String arrays: the name is interned before the headers, each element is
interned as its 4-byte index is written. -/
def serializeArrStrBin (start : Nat) (name : String) (xs : List String) (st : CState) : CState :=
  match mapStringToInteger st.strings name with
  | (idx, strs) =>
    let st1 := nullifyName start (idx % 65536) { st with strings := strs }
    match internMany st1.strings xs with
    | (is, strs2) =>
      { strings := strs2
        buf := st1.buf ++ encodeEH tArray (idx % 65536) (4 + 4 * xs.length) ++
          encodeAH tString xs.length ++ (is.map encodeU32).flatten }

/-! ## `BinaryWriter::serialize(name, user_data, SerializeObjFn)` and
`write_object_array`

A callback receives the sub-writer's `m_first_element_header_start` and the
shared container state.  The sub-writer's destructor (null-compaction of its
scope) runs when the callback's block ends, before the elision check.  The
C++ `(element_num, fn)` pair of `write_object_array` is modelled as the list
`(List.range element_num).map fn`. -/

def serializeObjectBin (start : Nat) (name : String) (fn : Nat → CState → CState)
    (st : CState) : CState :=
  let hs := st.buf.length
  let st1 : CState := { st with buf := st.buf ++ List.replicate 6 0 }
  let st2 := binDtor (hs + 6) (fn (hs + 6) st1)
  if st2.buf.length = hs + 6 then { st2 with buf := st2.buf.take hs }
  else
    match mapStringToInteger st2.strings name with
    | (idx, strs) =>
      { strings := strs
        buf := writeAt st2.buf hs (encodeEH tObject (idx % 65536) (st2.buf.length - hs - 6)) }

def objArrEntryLoop : List (Nat → CState → CState) → CState → CState
  | [], st => st
  | fn :: rest, st =>
    let slot := st.buf.length
    let st1 : CState := { st with buf := st.buf ++ List.replicate 4 0 }
    let st2 := binDtor (slot + 4) (fn (slot + 4) st1)
    objArrEntryLoop rest
      { st2 with buf := writeAt st2.buf slot (encodeU32 (st2.buf.length - slot - 4)) }

def writeObjectArrayBin (start : Nat) (name : String) (fns : List (Nat → CState → CState))
    (st : CState) : CState :=
  let hs := st.buf.length
  let st1 : CState := { st with buf := st.buf ++ List.replicate 10 0 }
  let st2 := objArrEntryLoop fns st1
  match mapStringToInteger st2.strings name with
  | (idx, strs) =>
    let st3 : CState := { strings := strs, buf := nullifyLoop st2.buf (idx % 65536) start hs }
    if st3.buf.length = hs + 10 + 4 * fns.length then { st3 with buf := st3.buf.take hs }
    else
      let b1 := writeAt st3.buf hs (encodeEH tArray (idx % 65536) (st3.buf.length - hs - 6))
      { st3 with buf := writeAt b1 (hs + 6) (encodeAH tObject fns.length) }

/-- `BinaryWriter::has_member`: walks the writer's scope skipping Null-typed
elements. -/
def hasMemberWLoop (strings : List String) (buf : List Nat) (name : String)
    (it stop : Nat) : Bool :=
  if _h : it < stop then
    if ehType buf it ≠ tNull ∧ strings.getD (ehName buf it) "" = name then true
    else hasMemberWLoop strings buf name (it + 6 + ehSize buf it) stop
  else false
termination_by stop - it
decreasing_by omega

def hasMemberBinW (start : Nat) (name : String) (st : CState) : Bool :=
  hasMemberWLoop st.strings st.buf name start st.buf.length

/-! ## `BinaryReader`

A reader borrows the string table and a byte range; sub-object readers get
the body slice of their element.  `find_element` walks the range comparing
the requested name against the string table entry of each header (it does
not skip Null-typed headers). -/

def findElemLoop (strings : List String) (buf : List Nat) (name : String)
    (it stop : Nat) : Option Nat :=
  if _h : it < stop then
    if strings.getD (ehName buf it) "" = name then some it
    else findElemLoop strings buf name (it + 6 + ehSize buf it) stop
  else none
termination_by stop - it
decreasing_by omega

def findElem (strings : List String) (buf : List Nat) (name : String) : Option Nat :=
  findElemLoop strings buf name 0 buf.length

/-- The float<->integer `static_cast`s appearing in `Numeric`'s conversions,
abstracted: `f2i`/`f2u` take a 32-bit float pattern to the cast integer,
`i2f` takes an integer value to the cast float's pattern. -/
structure FloatRt where
  f2i : Nat → Int
  f2u : Nat → Nat
  i2f : Int → Nat

def trivialFloatRt : FloatRt := ⟨fun _ => 0, fun _ => 0, fun _ => 0⟩

/-- The `Numeric` helper: a tagged value (the C++ union is only ever read at
the member selected by `m_type`). -/
inductive NumericV where
  | nNone
  | nInt (b : Nat)
  | nUInt (b : Nat)
  | nFloat (b : Nat)
  | nBool (b : Bool)
deriving Repr, DecidableEq

/-- `read_numeric(type, data)`. -/
def readNumericAt (buf : List Nat) (t off : Nat) : NumericV :=
  if t = tInt then .nInt (readU32 buf off)
  else if t = tUInt then .nUInt (readU32 buf off)
  else if t = tFloat then .nFloat (readU32 buf off)
  else if t = tBool then .nBool (decide (0 < byteGet buf off))
  else .nNone

def floatOneBits : Nat := 1065353216

/-- `Numeric::operator>>(int&)`; `nNone` leaves the slot untouched (the
switch has no case for it). -/
def numToInt (fr : FloatRt) : NumericV → Int → Int
  | .nInt b, _ => toI32 b
  | .nUInt b, _ => toI32 b
  | .nFloat f, _ => fr.f2i f
  | .nBool b, _ => if b then 1 else 0
  | .nNone, v => v

/-- `Numeric::operator>>(unsigned&)`. -/
def numToUInt (fr : FloatRt) : NumericV → Nat → Nat
  | .nInt b, _ => b % 4294967296
  | .nUInt b, _ => b % 4294967296
  | .nFloat f, _ => fr.f2u f
  | .nBool b, _ => if b then 1 else 0
  | .nNone, v => v

/-- `Numeric::operator>>(float&)` (result as a float pattern). -/
def numToFloat (fr : FloatRt) : NumericV → Nat → Nat
  | .nInt b, _ => fr.i2f (toI32 b)
  | .nUInt b, _ => fr.i2f (b % 4294967296)
  | .nFloat f, _ => f % 4294967296
  | .nBool b, _ => if b then floatOneBits else 0
  | .nNone, v => v

/-- `Numeric::operator>>(bool&)`: `var = (value != 0)` for each numeric
member; a float is zero exactly when its pattern is ±0. -/
def numToBool : NumericV → Bool → Bool
  | .nInt b, _ => decide (b % 4294967296 ≠ 0)
  | .nUInt b, _ => decide (b % 4294967296 ≠ 0)
  | .nFloat f, _ => decide (f % 2147483648 ≠ 0)
  | .nBool b, _ => b
  | .nNone, v => v

/-- `read_numeric_element` specialised to each slot type. -/
def readIntBin (fr : FloatRt) (strings : List String) (buf : List Nat)
    (name : String) (v : Int) : Int :=
  match findElem strings buf name with
  | none => v
  | some off => numToInt fr (readNumericAt buf (ehType buf off) (off + 6)) v

def readUIntBin (fr : FloatRt) (strings : List String) (buf : List Nat)
    (name : String) (v : Nat) : Nat :=
  match findElem strings buf name with
  | none => v
  | some off => numToUInt fr (readNumericAt buf (ehType buf off) (off + 6)) v

def readFloatBin (fr : FloatRt) (strings : List String) (buf : List Nat)
    (name : String) (v : Nat) : Nat :=
  match findElem strings buf name with
  | none => v
  | some off => numToFloat fr (readNumericAt buf (ehType buf off) (off + 6)) v

def readBoolBin (strings : List String) (buf : List Nat)
    (name : String) (v : Bool) : Bool :=
  match findElem strings buf name with
  | none => v
  | some off => numToBool (readNumericAt buf (ehType buf off) (off + 6)) v

/-- `BinaryReader::serialize(name, str, length)`. -/
def readStrBin (strings : List String) (buf : List Nat) (name : String)
    (s : String) : String :=
  match findElem strings buf name with
  | none => s
  | some off =>
    if ehType buf off = tString then strings.getD (readU32 buf (off + 6)) "" else s

/-- The body slice of the element whose header is at `off`. -/
def subSlice (buf : List Nat) (off : Nat) : List Nat :=
  (buf.drop (off + 6)).take (ehSize buf off)

def hasMemberBinR (strings : List String) (buf : List Nat) (name : String) : Bool :=
  (findElem strings buf name).isSome

/-! ## Array reads

The operations an array read performs on the user's adapter are recorded as
a trace; `applyACalls` interprets a trace against a dynamic-sequence adapter
(`SerializerVector`: `set_size` = resize, `set_element` = store,
`set_all` = resize + `memcpy`). -/

inductive ACall (α : Type) where
  | size (n : Nat)
  | elem (i : Nat) (v : α)
  | all (xs : List α)
deriving Repr

def applyACalls (dflt : α) : List (ACall α) → List α → List α
  | [], xs => xs
  | .size n :: rest, xs =>
    applyACalls dflt rest (xs.take n ++ List.replicate (n - xs.length) dflt)
  | .elem i v :: rest, xs => applyACalls dflt rest (xs.set i v)
  | .all ys :: rest, xs => applyACalls dflt rest ys

/-- `read_array<T>` for `T = int`, starting at the element header `off`;
`bulk` is the adapter's `supports_get_set_all()`.  The mismatch path reads a
`Numeric` at stride 4 regardless of the inner type, converting into an
(uninitialised in C++, here 0) temporary. -/
def readArrayIntAt (fr : FloatRt) (bulk : Bool) (buf : List Nat) (off : Nat) :
    List (ACall Int) :=
  let inner := ahInner buf (off + 6)
  let n := ahCount buf (off + 6)
  if inner = tInt then
    if bulk then [.all ((List.range n).map fun i => toI32 (readU32 buf (off + 10 + 4 * i)))]
    else .size n :: (List.range n).map fun i => .elem i (toI32 (readU32 buf (off + 10 + 4 * i)))
  else
    .size n :: (List.range n).map fun i =>
      .elem i (numToInt fr (readNumericAt buf inner (off + 10 + 4 * i)) 0)

def readArrayUIntAt (fr : FloatRt) (bulk : Bool) (buf : List Nat) (off : Nat) :
    List (ACall Nat) :=
  let inner := ahInner buf (off + 6)
  let n := ahCount buf (off + 6)
  if inner = tUInt then
    if bulk then [.all ((List.range n).map fun i => readU32 buf (off + 10 + 4 * i))]
    else .size n :: (List.range n).map fun i => .elem i (readU32 buf (off + 10 + 4 * i))
  else
    .size n :: (List.range n).map fun i =>
      .elem i (numToUInt fr (readNumericAt buf inner (off + 10 + 4 * i)) 0)

def readArrayFloatAt (fr : FloatRt) (bulk : Bool) (buf : List Nat) (off : Nat) :
    List (ACall Nat) :=
  let inner := ahInner buf (off + 6)
  let n := ahCount buf (off + 6)
  if inner = tFloat then
    if bulk then [.all ((List.range n).map fun i => readU32 buf (off + 10 + 4 * i))]
    else .size n :: (List.range n).map fun i => .elem i (readU32 buf (off + 10 + 4 * i))
  else
    .size n :: (List.range n).map fun i =>
      .elem i (numToFloat fr (readNumericAt buf inner (off + 10 + 4 * i)) 0)

/-- The bool overload of `read_array`: per-byte, no inner-type check. -/
def readArrayBoolAt (buf : List Nat) (off : Nat) : List (ACall Bool) :=
  let n := ahCount buf (off + 6)
  .size n :: (List.range n).map fun i => .elem i (decide (0 < byteGet buf (off + 10 + i)))

/-- `read_array_element<T>`: scalar fallback produces a one-element array
from the converted `Numeric` (the C++ temporary is uninitialised; 0 here —
an Object-typed element trips `SERIALIZER_ASSERT` first). -/
def readArrayElemIntBin (fr : FloatRt) (bulk : Bool) (strings : List String)
    (buf : List Nat) (name : String) : List (ACall Int) :=
  match findElem strings buf name with
  | none => []
  | some off =>
    if ehType buf off = tArray then readArrayIntAt fr bulk buf off
    else [.size 1, .elem 0 (numToInt fr (readNumericAt buf (ehType buf off) (off + 6)) 0)]

def readArrayElemUIntBin (fr : FloatRt) (bulk : Bool) (strings : List String)
    (buf : List Nat) (name : String) : List (ACall Nat) :=
  match findElem strings buf name with
  | none => []
  | some off =>
    if ehType buf off = tArray then readArrayUIntAt fr bulk buf off
    else [.size 1, .elem 0 (numToUInt fr (readNumericAt buf (ehType buf off) (off + 6)) 0)]

def readArrayElemFloatBin (fr : FloatRt) (bulk : Bool) (strings : List String)
    (buf : List Nat) (name : String) : List (ACall Nat) :=
  match findElem strings buf name with
  | none => []
  | some off =>
    if ehType buf off = tArray then readArrayFloatAt fr bulk buf off
    else [.size 1, .elem 0 (numToFloat fr (readNumericAt buf (ehType buf off) (off + 6)) 0)]

def readArrayElemBoolBin (strings : List String) (buf : List Nat) (name : String) :
    List (ACall Bool) :=
  match findElem strings buf name with
  | none => []
  | some off =>
    if ehType buf off = tArray then readArrayBoolAt buf off
    else [.size 1, .elem 0 (numToBool (readNumericAt buf (ehType buf off) (off + 6)) false)]

/-- `BinaryReader::serialize(name, SerializerArray<SerializerString>)`. -/
def readArrayElemStrBin (strings : List String) (buf : List Nat) (name : String) :
    List (ACall String) :=
  match findElem strings buf name with
  | none => []
  | some off =>
    if ehType buf off = tArray then
      let n := ahCount buf (off + 6)
      .size n :: (List.range n).map fun i =>
        .elem i (strings.getD (readU32 buf (off + 10 + 4 * i)) "")
    else if ehType buf off = tString then
      [.size 1, .elem 0 (strings.getD (readU32 buf (off + 6)) "")]
    else []

/-! ## Object arrays, reader side -/

def readObjArrSizeBin (strings : List String) (buf : List Nat) (name : String) : Nat :=
  match findElem strings buf name with
  | none => 0
  | some off => if ehType buf off = tArray then ahCount buf (off + 6) else 0

/-- The entry walk of `read_object_array`: each entry is a 4-byte size then
that many body bytes; a zero size is a null entry (the callback is not
invoked for it). -/
def entrySlices (buf : List Nat) (it : Nat) : Nat → List (Option (List Nat))
  | 0 => []
  | k + 1 =>
    if 0 < readU32 buf it then
      some ((buf.drop (it + 4)).take (readU32 buf it)) ::
        entrySlices buf (it + 4 + readU32 buf it) k
    else none :: entrySlices buf (it + 4) k

def readObjArrSlicesBin (strings : List String) (buf : List Nat) (name : String) :
    List (Option (List Nat)) :=
  match findElem strings buf name with
  | none => []
  | some off =>
    if ehType buf off = tArray then entrySlices buf (off + 10) (ahCount buf (off + 6))
    else []

/-! ## The JSON binding (json_serializer.cpp)

Modelled from the spec for the parts living in the external JSON
collaborator (`value.hh`): a `json::value` is a tagged tree; integers are
stored as (64-bit) integers, reals as doubles.  Since `JsonWriter` only ever
stores 32-bit floats (exactly representable as doubles) a real is carried
here as the float's 4-byte pattern; `as_float` returns it unchanged, and
`as_int`/`as_uint` on reals and `as_float` on integers are the abstract
numeric casts of `FloatRt`.  Member maps are modelled as association lists
(`std::map`'s sorted iteration order is irrelevant to the claims below). -/

inductive JVal where
  | jNull
  | jInt (i : Int)
  | jReal (f : Nat)
  | jBool (b : Bool)
  | jStr (s : String)
  | jArr (xs : List JVal)
  | jObj (m : List (String × JVal))
deriving Repr

def assocGet : List (String × JVal) → String → JVal
  | [], _ => .jNull
  | (k, v) :: rest, n => if k = n then v else assocGet rest n

def assocSet : List (String × JVal) → String → JVal → List (String × JVal)
  | [], n, x => [(n, x)]
  | (k, v) :: rest, n, x => if k = n then (k, x) :: rest else (k, v) :: assocSet rest n x

/-- `access_child` on a const (reader) value: absent members and non-object
roots read as null. -/
def jsonGet (v : JVal) (name : String) : JVal :=
  match v with
  | .jObj m => assocGet m name
  | _ => .jNull

/-- `access_child` on a writer value: a non-object root is replaced by an
empty object, then the member is created/assigned. -/
def jsonSet (v : JVal) (name : String) (x : JVal) : JVal :=
  match v with
  | .jObj m => .jObj (assocSet m name x)
  | _ => .jObj [(name, x)]

def jIsNull : JVal → Bool
  | .jNull => true
  | _ => false

def jIsNumeric : JVal → Bool
  | .jInt _ => true
  | .jReal _ => true
  | _ => false

def jIsBool : JVal → Bool
  | .jBool _ => true
  | _ => false

def jAsInt (fr : FloatRt) : JVal → Int
  | .jInt i => toI32 (toU32 i)
  | .jReal f => fr.f2i f
  | _ => 0

def jAsUInt (fr : FloatRt) : JVal → Nat
  | .jInt i => toU32 i
  | .jReal f => fr.f2u f
  | _ => 0

def jAsFloatBits (fr : FloatRt) : JVal → Nat
  | .jInt i => fr.i2f i
  | .jReal f => f
  | _ => 0

def jAsBool : JVal → Bool
  | .jBool b => b
  | _ => false

def floatIsNaN (f : Nat) : Bool := f / 8388608 % 256 == 255 && f % 8388608 ≠ 0

/-- `value.as_float() > 0` as used by `JsonReader::serialize(bool&)`:
integers convert exactly, a float pattern is positive when its sign bit is
clear and it is neither ±0 nor NaN. -/
def jGtZero : JVal → Bool
  | .jInt i => decide (0 < i)
  | .jReal f => f / 2147483648 % 2 == 0 && f % 2147483648 ≠ 0 && !floatIsNaN f
  | _ => false

/-! ### `JsonWriter` -/

def jsonWInt (name : String) (i : Int) (v : JVal) : JVal := jsonSet v name (.jInt i)

def jsonWUInt (name : String) (u : Nat) (v : JVal) : JVal := jsonSet v name (.jInt u)

def jsonWFloat (name : String) (bits : Nat) (v : JVal) : JVal := jsonSet v name (.jReal bits)

def jsonWBool (name : String) (b : Bool) (v : JVal) : JVal := jsonSet v name (.jBool b)

/-- `JsonWriter::serialize(name, str, length)` stores `std::string{str}`:
the bytes up to the first NUL (names/strings here are NUL-free). -/
def jsonWStr (name : String) (s : String) (v : JVal) : JVal := jsonSet v name (.jStr s)

/-- `JsonWriter::serialize(name, user_data, SerializeObjFn)`: the callback
fills a fresh null value; the member is only assigned if something was
written. -/
def jsonWObject (name : String) (fn : JVal → JVal) (v : JVal) : JVal :=
  if jIsNull (fn .jNull) then v else jsonSet v name (fn .jNull)

def jsonWArrInt (name : String) (xs : List Int) (v : JVal) : JVal :=
  jsonSet v name (.jArr (xs.map .jInt))

def jsonWArrUInt (name : String) (xs : List Nat) (v : JVal) : JVal :=
  jsonSet v name (.jArr (xs.map fun u => .jInt (Int.ofNat u)))

def jsonWArrFloat (name : String) (xs : List Nat) (v : JVal) : JVal :=
  jsonSet v name (.jArr (xs.map .jReal))

def jsonWArrBool (name : String) (xs : List Bool) (v : JVal) : JVal :=
  jsonSet v name (.jArr (xs.map .jBool))

def jsonWArrStr (name : String) (xs : List String) (v : JVal) : JVal :=
  jsonSet v name (.jArr (xs.map .jStr))

/-- `JsonWriter::write_object_array` (entry callbacks as a list): the member
is always assigned, untouched entries stay null. -/
def jsonWObjArr (name : String) (fns : List (JVal → JVal)) (v : JVal) : JVal :=
  jsonSet v name (.jArr (fns.map fun f => f .jNull))

def hasMemberJson (v : JVal) (name : String) : Bool := !jIsNull (jsonGet v name)

/-! ### `JsonReader` -/

def jsonRInt (fr : FloatRt) (root : JVal) (name : String) (v : Int) : Int :=
  let x := jsonGet root name
  if jIsNumeric x then jAsInt fr x
  else if jIsBool x then (if jAsBool x then 1 else 0)
  else v

def jsonRUInt (fr : FloatRt) (root : JVal) (name : String) (v : Nat) : Nat :=
  let x := jsonGet root name
  if jIsNumeric x then jAsUInt fr x
  else if jIsBool x then (if jAsBool x then 1 else 0)
  else v

def jsonRFloat (fr : FloatRt) (root : JVal) (name : String) (v : Nat) : Nat :=
  let x := jsonGet root name
  if jIsNumeric x then jAsFloatBits fr x
  else if jIsBool x then (if jAsBool x then floatOneBits else 0)
  else v

/-- `JsonReader::serialize(bool&)`: `is_bool` first, then numerics via
`as_float() > 0`. -/
def jsonRBool (root : JVal) (name : String) (v : Bool) : Bool :=
  let x := jsonGet root name
  if jIsBool x then jAsBool x
  else if jIsNumeric x then jGtZero x
  else v

/-- `JsonReader::serialize(name, const char*&, unsigned&)` guards only on
`!value.is_null()`: a null (or absent) member leaves the slot untouched, but
ANY other member is assigned `value.as_c_string()`.  On a string value
`as_c_string` returns its bytes; on every other value the result is whatever
the external JSON library (`value.hh`, not in this repository) produces,
abstracted as `ext`. -/
def jsonRStr (ext : JVal → String) (root : JVal) (name : String) (v : String) : String :=
  match jsonGet root name with
  | .jNull => v
  | .jStr s => s
  | x => ext x

/-- `JsonReader::serialize(name, user_data, SerializeObjFn)`: the callback
runs on any non-null member value. -/
def jsonRObject (root : JVal) (name : String) (fn : JVal → α → α) (a : α) : α :=
  let x := jsonGet root name
  if jIsNull x then a else fn x a

/-- The shared `read_array<T, FN>` helper of JsonReader. -/
def jsonRArrTrace (conv : JVal → α) (x : JVal) : List (ACall α) :=
  match x with
  | .jNull => []
  | .jArr xs => .size xs.length :: (List.range xs.length).map fun i =>
      .elem i (conv (xs.getD i .jNull))
  | _ => [.size 1, .elem 0 (conv x)]

def jsonRArrInt (fr : FloatRt) (root : JVal) (name : String) : List (ACall Int) :=
  jsonRArrTrace (jAsInt fr) (jsonGet root name)

def jsonRArrUInt (fr : FloatRt) (root : JVal) (name : String) : List (ACall Nat) :=
  jsonRArrTrace (jAsUInt fr) (jsonGet root name)

def jsonRArrFloat (fr : FloatRt) (root : JVal) (name : String) : List (ACall Nat) :=
  jsonRArrTrace (jAsFloatBits fr) (jsonGet root name)

def jsonRArrBool (root : JVal) (name : String) : List (ACall Bool) :=
  jsonRArrTrace jAsBool (jsonGet root name)

/-- `JsonReader::serialize(name, SerializerArray<SerializerString>)`:
non-string array entries are skipped (no `set_element` call). -/
def jsonRArrStr (root : JVal) (name : String) : List (ACall String) :=
  match jsonGet root name with
  | .jArr xs => .size xs.length :: (List.range xs.length).filterMap fun i =>
      match xs.getD i .jNull with
      | .jStr s => some (.elem i s)
      | _ => none
  | .jStr s => [.size 1, .elem 0 s]
  | _ => []

def jsonRObjArrSize (root : JVal) (name : String) : Nat :=
  match jsonGet root name with
  | .jArr xs => xs.length
  | _ => 0

/-- `JsonReader::read_object_array`: the callback runs on the non-null
entries. -/
def jsonRObjArrEntries (root : JVal) (name : String) : List (Option JVal) :=
  match jsonGet root name with
  | .jArr xs => xs.map fun x => if jIsNull x then none else some x
  | _ => []

/-! # Buffer growth: facts about `grow`/`reserve_bytes` (claim C8) -/

theorem growStep_pos (cap : Nat) : 0 < growStep cap :=
  Nat.lt_of_le_of_lt (Nat.zero_le cap) (growStep_gt cap)

theorem growStep_of_pos {c : Nat} (h : 0 < c) : growStep c = 2 * c := by
  unfold growStep; rw [if_pos h]

theorem growSize_ge (cap target : Nat) : target ≤ growSize cap target := by
  induction cap, target using growSize.induct with
  | case1 cap target h ih => rw [growSize]; simp only [if_pos h]; exact ih
  | case2 cap target h => rw [growSize]; simp only [if_neg h]; omega

theorem growSize_form (cap target : Nat) :
    ∃ k, growSize cap target = growStep cap * 2 ^ k ∧
      (k = 0 ∨ growSize cap target < 2 * target) := by
  induction cap, target using growSize.induct with
  | case1 cap target h ih =>
    obtain ⟨k, hk, hb⟩ := ih
    have h2 : growStep (growStep cap) = 2 * growStep cap :=
      growStep_of_pos (growStep_pos cap)
    refine ⟨k + 1, ?_, Or.inr ?_⟩
    · rw [growSize, if_pos h, hk, h2]; ring
    · rw [growSize, if_pos h]
      rcases hb with h0 | hlt
      · subst h0
        rw [hk, h2]
        simp only [pow_zero, mul_one]
        omega
      · exact hlt
  | case2 cap target h =>
    exact ⟨0, by rw [growSize, if_neg h]; simp, Or.inl rfl⟩

/-! # String interning: facts about `map_string_to_integer` (claim C9) -/

theorem internFind_none_iff (tbl : List String) (s : String) :
    internFind tbl s = none ↔ s ∉ tbl := by
  induction tbl with
  | nil => simp [internFind]
  | cons t ts ih =>
    simp only [internFind, List.mem_cons]
    by_cases h : t = s
    · simp [h]
    · rw [if_neg h, Option.map_eq_none', ih]
      constructor
      · intro hn hm
        rcases hm with hm | hm
        · exact h hm.symm
        · exact hn hm
      · intro hn hm
        exact hn (Or.inr hm)

theorem internFind_lt {tbl : List String} {s : String} {i : Nat}
    (h : internFind tbl s = some i) : i < tbl.length := by
  induction tbl generalizing i with
  | nil => simp [internFind] at h
  | cons t ts ih =>
    simp only [internFind] at h
    by_cases ht : t = s
    · rw [if_pos ht] at h
      cases h
      simp
    · rw [if_neg ht] at h
      rcases Option.map_eq_some'.mp h with ⟨j, hj, rfl⟩
      simpa using ih hj

theorem internFind_getD {tbl : List String} {s : String} {i : Nat}
    (h : internFind tbl s = some i) : tbl.getD i "" = s := by
  induction tbl generalizing i with
  | nil => simp [internFind] at h
  | cons t ts ih =>
    simp only [internFind] at h
    by_cases ht : t = s
    · rw [if_pos ht] at h
      cases h
      simpa using ht
    · rw [if_neg ht] at h
      rcases Option.map_eq_some'.mp h with ⟨j, hj, rfl⟩
      simpa using ih hj

theorem internFind_append_of_some {tbl : List String} {s : String} {i : Nat}
    (h : internFind tbl s = some i) (ext : List String) :
    internFind (tbl ++ ext) s = some i := by
  induction tbl generalizing i with
  | nil => simp [internFind] at h
  | cons t ts ih =>
    simp only [internFind, List.cons_append] at h ⊢
    by_cases ht : t = s
    · rw [if_pos ht] at h ⊢
      exact h
    · rw [if_neg ht] at h ⊢
      rcases Option.map_eq_some'.mp h with ⟨j, hj, rfl⟩
      show Option.map (fun x => x + 1) (internFind (ts ++ ext) s) = some (j + 1)
      rw [ih hj]
      rfl

theorem internFind_append_self {tbl : List String} {s : String}
    (h : internFind tbl s = none) :
    internFind (tbl ++ [s]) s = some tbl.length := by
  induction tbl with
  | nil => simp [internFind]
  | cons t ts ih =>
    simp only [internFind, List.cons_append] at h ⊢
    by_cases ht : t = s
    · rw [if_pos ht] at h
      cases h
    · rw [if_neg ht] at h ⊢
      show Option.map (fun x => x + 1) (internFind (ts ++ [s]) s) = some (t :: ts).length
      rw [ih (Option.map_eq_none'.mp h)]
      simp

theorem mapString_find (tbl : List String) (s : String) :
    internFind (mapStringToInteger tbl s).2 s = some (mapStringToInteger tbl s).1 := by
  unfold mapStringToInteger
  cases h : internFind tbl s with
  | none => simpa using internFind_append_self h
  | some i => simpa using h

theorem mapString_table (tbl : List String) (s : String) :
    (mapStringToInteger tbl s).2 = tbl ∨
      (internFind tbl s = none ∧ (mapStringToInteger tbl s).2 = tbl ++ [s]) := by
  unfold mapStringToInteger
  cases h : internFind tbl s with
  | none => exact Or.inr ⟨rfl, rfl⟩
  | some i => exact Or.inl rfl

theorem internAll_append (tbl : List String) (xs ys : List String) :
    internAll tbl (xs ++ ys) = internAll (internAll tbl xs) ys := by
  induction xs generalizing tbl with
  | nil => rfl
  | cons x xs ih => simp [internAll, ih]

theorem internAll_extends (tbl : List String) (ss : List String) :
    ∃ ext, internAll tbl ss = tbl ++ ext := by
  induction ss generalizing tbl with
  | nil => exact ⟨[], by simp [internAll]⟩
  | cons s ss ih =>
    rcases mapString_table tbl s with h | ⟨_, h⟩
    · rcases ih (mapStringToInteger tbl s).2 with ⟨ext, he⟩
      exact ⟨ext, by rw [internAll, he, h]⟩
    · rcases ih (mapStringToInteger tbl s).2 with ⟨ext, he⟩
      exact ⟨[s] ++ ext, by rw [internAll, he, h]; simp⟩

theorem internAll_toFinset (tbl : List String) (ss : List String) :
    (internAll tbl ss).toFinset = tbl.toFinset ∪ ss.toFinset := by
  induction ss generalizing tbl with
  | nil => simp [internAll]
  | cons s ss ih =>
    rw [internAll, ih]
    rcases mapString_table tbl s with h | ⟨hn, h⟩
    · rw [h]
      have hs : s ∈ tbl := by
        by_contra hm
        rw [← internFind_none_iff tbl s] at hm
        unfold mapStringToInteger at h
        rw [hm] at h
        simp at h
      ext a
      simp only [Finset.mem_union, List.mem_toFinset, List.toFinset_cons, Finset.mem_insert]
      constructor
      · rintro (ha | ha)
        · exact Or.inl ha
        · exact Or.inr (Or.inr ha)
      · rintro (ha | rfl | ha)
        · exact Or.inl ha
        · exact Or.inl hs
        · exact Or.inr ha
    · rw [h]
      ext a
      simp only [Finset.mem_union, List.mem_toFinset, List.toFinset_cons, Finset.mem_insert,
        List.toFinset_append, List.mem_append, List.mem_singleton]
      tauto

theorem internAll_nodup {tbl : List String} (h : tbl.Nodup) (ss : List String) :
    (internAll tbl ss).Nodup := by
  induction ss generalizing tbl with
  | nil => exact h
  | cons s ss ih =>
    rw [internAll]
    rcases mapString_table tbl s with ht | ⟨hn, ht⟩
    · rw [ht]; exact ih h
    · rw [ht]
      refine ih ?_
      rw [List.nodup_append]
      refine ⟨h, List.nodup_singleton s, ?_⟩
      intro a ha hb
      simp only [List.mem_singleton] at hb
      subst hb
      exact ((internFind_none_iff tbl a).mp hn) ha

/-- C8 (amended): an append that does not fit triggers growth; the grown
capacity is obtained by doubling (`growStep`: `2*cap`, or 4098 — not 4096 —
from an empty buffer), it reaches at least `used + (used + n)` (the target
`grow` is actually called with), stopping within one doubling of it; an
append that fits leaves the capacity alone; from an empty container whose
first reservation needs at most 4098 bytes the first allocation is exactly
4098 bytes. -/
theorem c8_buffer_growth (used cap n : Nat) (h : cap < used + n) :
    (writeCapStep used cap n).1 = used + n ∧
    (∀ c2, used + n ≤ c2 → writeCapStep used c2 n = (used + n, c2)) ∧
    used + (used + n) ≤ (writeCapStep used cap n).2 ∧
    (∃ k, (writeCapStep used cap n).2 = growStep cap * 2 ^ k ∧
      (k = 0 ∨ (writeCapStep used cap n).2 < 2 * (used + (used + n)))) ∧
    (cap = 0 → used + (used + n) ≤ 4098 → (writeCapStep used cap n).2 = 4098) := by
  have hgt : used + n > cap := h
  refine ⟨?_, ?_, ?_, ?_, ?_⟩
  · unfold writeCapStep
    rw [if_pos hgt]
  · intro c2 hc2
    unfold writeCapStep
    rw [if_neg (by omega)]
  · unfold writeCapStep
    rw [if_pos hgt]
    exact growSize_ge cap (used + (used + n))
  · unfold writeCapStep
    rw [if_pos hgt]
    exact growSize_form cap (used + (used + n))
  · intro hc h48
    subst hc
    unfold writeCapStep
    rw [if_pos hgt]
    unfold growCap
    rw [growSize]
    have hstep : growStep 0 = 4098 := by unfold growStep cWriterInitialSize; simp
    rw [hstep, if_neg (by omega)]

/-- Witness for `c8_buffer_growth` at `used = 0`, `cap = 0`, `n = 1`. -/
theorem c8_buffer_growth_witness :
    (0 : Nat) < 0 + 1 ∧
    ((writeCapStep 0 0 1).1 = 0 + 1 ∧
     (∀ c2, 0 + 1 ≤ c2 → writeCapStep 0 c2 1 = (0 + 1, c2)) ∧
     0 + (0 + 1) ≤ (writeCapStep 0 0 1).2 ∧
     (∃ k, (writeCapStep 0 0 1).2 = growStep 0 * 2 ^ k ∧
       (k = 0 ∨ (writeCapStep 0 0 1).2 < 2 * (0 + (0 + 1)))) ∧
     ((0 : Nat) = 0 → 0 + (0 + 1) ≤ 4098 → (writeCapStep 0 0 1).2 = 4098)) :=
  ⟨by norm_num, c8_buffer_growth 0 0 1 (by norm_num)⟩

/-- C8 counterexample: the very first allocation of an empty container has
capacity 4098, not 4096 (`c_writer_initial_size = 4098u`). -/
theorem c8_counterexample :
    (writeCapStep 0 0 1).2 = 4098 ∧ ¬ (writeCapStep 0 0 1).2 = 4096 := by
  have : (writeCapStep 0 0 1).2 = 4098 := by
    unfold writeCapStep growCap
    rw [if_pos (by omega), growSize]
    have hstep : growStep 0 = 4098 := by unfold growStep cWriterInitialSize; simp
    rw [hstep, if_neg (by omega)]
  exact ⟨this, by omega⟩

/-- C9: if at most 8192 distinct strings are ever interned into a container,
the string table stays duplicate-free, every interned string is found at an
index of at most 8191 (fitting the 13-bit `m_name` field), the over-limit
assertion in `map_string_to_integer` holds at every step, and the index a
string receives when first interned is the index every later lookup
returns (equal strings always map to equal indices). -/
theorem c9_string_interning (ss : List String) (hcard : ss.toFinset.card ≤ 8192) :
    (internAll [] ss).Nodup ∧
    (∀ s ∈ ss, ∃ i, internFind (internAll [] ss) s = some i ∧ i ≤ 8191) ∧
    (∀ pre s suf, ss = pre ++ s :: suf →
      internAssertOk (internAll [] pre) s ∧
      internFind (internAll [] ss) s = some (mapStringToInteger (internAll [] pre) s).1) := by
  have hlen : ∀ xs : List String, xs.toFinset ⊆ ss.toFinset →
      (internAll [] xs).length ≤ 8192 := by
    intro xs hsub
    have hnd : (internAll [] xs).Nodup := internAll_nodup List.nodup_nil xs
    have hfs : (internAll [] xs).toFinset = xs.toFinset := by
      rw [internAll_toFinset]; simp
    have := List.toFinset_card_of_nodup hnd
    rw [hfs] at this
    have hle : xs.toFinset.card ≤ ss.toFinset.card := Finset.card_le_card hsub
    omega
  refine ⟨internAll_nodup List.nodup_nil ss, ?_, ?_⟩
  · intro s hs
    have hmem : s ∈ internAll [] ss := by
      have : s ∈ (internAll [] ss).toFinset := by
        rw [internAll_toFinset]
        simp [hs]
      simpa using this
    rcases hfind : internFind (internAll [] ss) s with _ | i
    · exact absurd hmem ((internFind_none_iff _ s).mp hfind)
    · refine ⟨i, rfl, ?_⟩
      have := internFind_lt hfind
      have := hlen ss (by simp)
      omega
  · intro pre s suf hss
    subst hss
    constructor
    · rcases hfind : internFind (internAll [] pre) s with _ | i
      · right
        have hnotin : s ∉ internAll [] pre := (internFind_none_iff _ s).mp hfind
        have hnotfs : s ∉ pre.toFinset := by
          intro hc
          apply hnotin
          have : s ∈ (internAll [] pre).toFinset := by
            rw [internAll_toFinset]
            simp only [Finset.mem_union]
            exact Or.inr hc
          simpa using this
        have hnd : (internAll [] pre).Nodup := internAll_nodup List.nodup_nil pre
        have hfs : (internAll [] pre).toFinset = pre.toFinset := by
          rw [internAll_toFinset]; simp
        have hclen := List.toFinset_card_of_nodup hnd
        rw [hfs] at hclen
        have hins : insert s pre.toFinset ⊆ (pre ++ s :: suf).toFinset := by
          intro a ha
          rcases Finset.mem_insert.mp ha with rfl | ha
          · simp
          · simp only [List.toFinset_append, Finset.mem_union]
            exact Or.inl ha
        have hcard2 : (insert s pre.toFinset).card ≤ 8192 :=
          le_trans (Finset.card_le_card hins) hcard
        rw [Finset.card_insert_of_not_mem hnotfs] at hcard2
        omega
      · exact Or.inl (by rw [hfind]; exact Option.noConfusion)
    · have h1 : internAll [] (pre ++ s :: suf) =
          internAll (mapStringToInteger (internAll [] pre) s).2 suf := by
        rw [internAll_append]
        rfl
      rcases internAll_extends (mapStringToInteger (internAll [] pre) s).2 suf with ⟨ext, hext⟩
      rw [h1, hext]
      exact internFind_append_of_some (mapString_find _ s) ext

/-! # Stream structure toolkit

`MElem` is the logical view of one element: a type tag, a name index and the
body bytes; `encElem` is its on-wire form.  `DecodesTo buf it es` says the
bytes from offset `it` decode as the element sequence `es`; it is what the
header-walking loops consume. -/

structure MElem where
  type : Nat
  name : Nat
  body : List Nat
deriving Repr, DecidableEq

def ElemOk (e : MElem) : Prop :=
  e.type < 8 ∧ e.name < 8192 ∧ e.body.length < 4294967296

instance (e : MElem) : Decidable (ElemOk e) := by unfold ElemOk; infer_instance

def encElem (e : MElem) : List Nat := encodeEH e.type e.name e.body.length ++ e.body

def encElems (es : List MElem) : List Nat := (es.map encElem).flatten

theorem encElem_length (e : MElem) : (encElem e).length = 6 + e.body.length := by
  simp [encElem, encodeEH, encodeU16, encodeU32]
  omega

theorem encElems_cons (e : MElem) (es : List MElem) :
    encElems (e :: es) = encElem e ++ encElems es := by
  simp [encElems]

def DecodesTo (buf : List Nat) : Nat → List MElem → Prop
  | _, [] => True
  | it, e :: rest =>
    ehType buf it = e.type ∧ ehName buf it = e.name ∧ ehSize buf it = e.body.length ∧
    sliceN buf (it + 6) e.body.length = e.body ∧ DecodesTo buf (it + 6 + e.body.length) rest

/-! ## Byte-access and decode lemmas -/

theorem byteGet_append_right (pre l : List Nat) (k : Nat) :
    byteGet (pre ++ l) (pre.length + k) = byteGet l k := by
  unfold byteGet
  rw [List.getD, List.getD, List.get?_append_right (by omega)]
  simp

theorem byteGet_append_left (pre l : List Nat) (k : Nat) (h : k < pre.length) :
    byteGet (pre ++ l) k = byteGet pre k := by
  unfold byteGet
  rw [List.getD, List.getD, List.get?_append h]

theorem readU16_encode (pre rest : List Nat) (x : Nat) :
    readU16 (pre ++ (encodeU16 x ++ rest)) pre.length = x % 65536 := by
  unfold readU16
  have h0 := byteGet_append_right pre (encodeU16 x ++ rest) 0
  have h1 := byteGet_append_right pre (encodeU16 x ++ rest) 1
  simp only [Nat.add_zero] at h0
  rw [h0, h1]
  simp only [encodeU16, List.cons_append, byteGet, List.getD]
  simp
  omega

theorem readU32_encode (pre rest : List Nat) (x : Nat) :
    readU32 (pre ++ (encodeU32 x ++ rest)) pre.length = x % 4294967296 := by
  unfold readU32
  have h0 := byteGet_append_right pre (encodeU32 x ++ rest) 0
  have h1 := byteGet_append_right pre (encodeU32 x ++ rest) 1
  have h2 := byteGet_append_right pre (encodeU32 x ++ rest) 2
  have h3 := byteGet_append_right pre (encodeU32 x ++ rest) 3
  simp only [Nat.add_zero] at h0
  rw [h0, h1, h2, h3]
  simp only [encodeU32, List.cons_append, byteGet, List.getD]
  simp
  omega

theorem ehType_encode (pre rest : List Nat) (t n s : Nat) :
    ehType (pre ++ (encodeEH t n s ++ rest)) pre.length = t % 8 := by
  unfold ehType encodeEH
  rw [List.append_assoc, readU16_encode]
  have ht : t % 8 < 8 := Nat.mod_lt t (by norm_num)
  have hn : n % 8192 < 8192 := Nat.mod_lt n (by norm_num)
  omega

theorem ehName_encode (pre rest : List Nat) (t n s : Nat) :
    ehName (pre ++ (encodeEH t n s ++ rest)) pre.length = n % 8192 := by
  unfold ehName encodeEH
  rw [List.append_assoc, readU16_encode]
  have ht : t % 8 < 8 := Nat.mod_lt t (by norm_num)
  have hn : n % 8192 < 8192 := Nat.mod_lt n (by norm_num)
  omega

theorem ehSize_encode (pre rest : List Nat) (t n s : Nat) :
    ehSize (pre ++ (encodeEH t n s ++ rest)) pre.length = s % 4294967296 := by
  unfold ehSize encodeEH encodeU16
  have : pre ++ (([(t % 8 + 8 * (n % 8192)) % 256, (t % 8 + 8 * (n % 8192)) / 256 % 256] ++
      encodeU32 s) ++ rest) =
      (pre ++ [(t % 8 + 8 * (n % 8192)) % 256, (t % 8 + 8 * (n % 8192)) / 256 % 256]) ++
        (encodeU32 s ++ rest) := by
    simp
  rw [this]
  have hlen : pre.length + 2 =
      (pre ++ [(t % 8 + 8 * (n % 8192)) % 256, (t % 8 + 8 * (n % 8192)) / 256 % 256]).length := by
    simp
  rw [hlen, readU32_encode]

theorem sliceN_exact (pre body rest : List Nat) :
    sliceN (pre ++ (body ++ rest)) pre.length body.length = body := by
  unfold sliceN
  rw [List.drop_left, List.take_left]

theorem decodesTo_encode (es : List MElem) (pre suf : List Nat)
    (hok : ∀ e ∈ es, ElemOk e) :
    DecodesTo (pre ++ (encElems es ++ suf)) pre.length es := by
  induction es generalizing pre with
  | nil => trivial
  | cons e rest ih =>
    obtain ⟨ht, hn, hs⟩ := hok e (by simp)
    have hb : pre ++ (encElems (e :: rest) ++ suf) =
        pre ++ (encodeEH e.type e.name e.body.length ++
          (e.body ++ (encElems rest ++ suf))) := by
      rw [encElems_cons]
      simp [encElem]
    rw [hb]
    show ehType _ _ = e.type ∧ ehName _ _ = e.name ∧ ehSize _ _ = e.body.length ∧
      sliceN _ _ e.body.length = e.body ∧ DecodesTo _ _ rest
    refine ⟨?_, ?_, ?_, ?_, ?_⟩
    · rw [ehType_encode]
      exact Nat.mod_eq_of_lt ht
    · rw [ehName_encode]
      exact Nat.mod_eq_of_lt hn
    · rw [ehSize_encode]
      exact Nat.mod_eq_of_lt hs
    · have hr : pre ++ (encodeEH e.type e.name e.body.length ++
          (e.body ++ (encElems rest ++ suf))) =
          (pre ++ encodeEH e.type e.name e.body.length) ++
            (e.body ++ (encElems rest ++ suf)) := by simp
      have hl : pre.length + 6 =
          (pre ++ encodeEH e.type e.name e.body.length).length := by
        simp [encodeEH, encodeU16, encodeU32]
      rw [hr, hl, sliceN_exact]
    · have hr : pre ++ (encodeEH e.type e.name e.body.length ++
          (e.body ++ (encElems rest ++ suf))) =
          (pre ++ encElem e) ++ (encElems rest ++ suf) := by
        simp [encElem]
      have hl : pre.length + 6 + e.body.length = (pre ++ encElem e).length := by
        simp [encElem_length]
        omega
      rw [hr, hl]
      exact ih (pre ++ encElem e) fun x hx => hok x (by simp [hx])

/-- The walk of `find_element`, at the level of decoded elements: the offset
and element of the first name match. -/
def mFind (strings : List String) (name : String) : List MElem → Nat → Option (Nat × MElem)
  | [], _ => none
  | e :: rest, base =>
    if strings.getD e.name "" = name then some (base, e)
    else mFind strings name rest (base + 6 + e.body.length)

theorem encElems_cons_length (e : MElem) (rest : List MElem) :
    (encElems (e :: rest)).length = 6 + e.body.length + (encElems rest).length := by
  rw [encElems_cons]
  simp [encElem_length]

theorem findElemLoop_spec (strings : List String) (buf : List Nat) (name : String)
    (es : List MElem) (it : Nat) (h : DecodesTo buf it es) :
    findElemLoop strings buf name it (it + (encElems es).length) =
      (mFind strings name es it).map Prod.fst := by
  induction es generalizing it with
  | nil =>
    rw [findElemLoop]
    have : (encElems ([] : List MElem)).length = 0 := by simp [encElems]
    rw [dif_neg (by omega)]
    rfl
  | cons e rest ih =>
    obtain ⟨ht, hn, hs, hb, hrest⟩ := h
    rw [findElemLoop]
    have hlen := encElems_cons_length e rest
    rw [dif_pos (by omega), hn]
    by_cases hname : strings.getD e.name "" = name
    · have hm : mFind strings name (e :: rest) it = some (it, e) := by
        rw [mFind, if_pos hname]
      rw [if_pos hname, hm]
      rfl
    · have hm : mFind strings name (e :: rest) it =
          mFind strings name rest (it + 6 + e.body.length) := by
        rw [mFind, if_neg hname]
      rw [if_neg hname, hs]
      have hstop : it + (encElems (e :: rest)).length =
          (it + 6 + e.body.length) + (encElems rest).length := by omega
      rw [hstop, hm]
      exact ih (it + 6 + e.body.length) hrest

theorem mFind_decodes {strings : List String} {name : String} {buf : List Nat}
    {es : List MElem} {it : Nat} (h : DecodesTo buf it es)
    {off : Nat} {e : MElem} (hf : mFind strings name es it = some (off, e)) :
    ehType buf off = e.type ∧ ehName buf off = e.name ∧ ehSize buf off = e.body.length ∧
      sliceN buf (off + 6) e.body.length = e.body ∧ strings.getD e.name "" = name := by
  induction es generalizing it with
  | nil => simp [mFind] at hf
  | cons a rest ih =>
    obtain ⟨ht, hn, hs, hb, hrest⟩ := h
    by_cases hname : strings.getD a.name "" = name
    · rw [show mFind strings name (a :: rest) it = some (it, a) by
        rw [mFind, if_pos hname]] at hf
      cases hf
      exact ⟨ht, hn, hs, hb, hname⟩
    · rw [show mFind strings name (a :: rest) it =
        mFind strings name rest (it + 6 + a.body.length) by rw [mFind, if_neg hname]] at hf
      exact ih hrest hf

theorem mFind_none {strings : List String} {name : String} {es : List MElem} {it : Nat}
    (h : ∀ e ∈ es, strings.getD e.name "" ≠ name) :
    mFind strings name es it = none := by
  induction es generalizing it with
  | nil => rfl
  | cons e rest ih =>
    rw [show mFind strings name (e :: rest) it =
      mFind strings name rest (it + 6 + e.body.length) by rw [mFind, if_neg (h e (by simp))]]
    exact ih fun x hx => h x (by simp [hx])

/-- `findElem` on a reader whose range is exactly an encoded element list. -/
theorem findElem_spec (strings : List String) (name : String) (es : List MElem)
    (hok : ∀ e ∈ es, ElemOk e) :
    findElem strings (encElems es) name = (mFind strings name es 0).map Prod.fst := by
  have hd : DecodesTo (encElems es) 0 es := by
    have := decodesTo_encode es [] [] hok
    simpa using this
  have := findElemLoop_spec strings (encElems es) name es 0 hd
  simpa [findElem] using this

theorem mFind_mem {strings : List String} {name : String} {es : List MElem} {it off : Nat}
    {e : MElem} (hf : mFind strings name es it = some (off, e)) : e ∈ es := by
  induction es generalizing it with
  | nil => simp [mFind] at hf
  | cons a rest ih =>
    by_cases hname : strings.getD a.name "" = name
    · rw [show mFind strings name (a :: rest) it = some (it, a) by
        rw [mFind, if_pos hname]] at hf
      cases hf
      simp
    · rw [show mFind strings name (a :: rest) it =
        mFind strings name rest (it + 6 + a.body.length) by rw [mFind, if_neg hname]] at hf
      exact List.mem_cons_of_mem a (ih hf)

/-! ## Reading scalar bodies through slices -/

theorem byteGet_of_slice {buf : List Nat} {p n : Nat} {body : List Nat}
    (hs : sliceN buf p n = body) {j : Nat} (hj : j < body.length) :
    byteGet buf (p + j) = byteGet body j := by
  subst hs
  unfold sliceN at hj ⊢
  unfold byteGet
  rw [List.getD, List.getD, List.get?_take, List.get?_drop]
  have hlen := List.length_take n (buf.drop p)
  omega

theorem readU32_of_slice {buf : List Nat} {p n : Nat} {body : List Nat}
    (hs : sliceN buf p n = body) (h4 : 4 ≤ body.length) :
    readU32 buf p = readU32 body 0 := by
  unfold readU32
  have h0 := byteGet_of_slice hs (j := 0) (by omega)
  have h1 := byteGet_of_slice hs (j := 1) (by omega)
  have h2 := byteGet_of_slice hs (j := 2) (by omega)
  have h3 := byteGet_of_slice hs (j := 3) (by omega)
  simp only [Nat.add_zero] at h0
  rw [h0, h1, h2, h3]

/-- Body lengths a well-formed element of each scalar type has. -/
def BodyLenOk (e : MElem) : Prop :=
  (e.type = tInt ∨ e.type = tUInt ∨ e.type = tFloat ∨ e.type = tString → 4 ≤ e.body.length) ∧
  (e.type = tBool → 1 ≤ e.body.length)

instance (e : MElem) : Decidable (BodyLenOk e) := by unfold BodyLenOk; infer_instance

theorem readNumericAt_of_slice {buf : List Nat} {p : Nat} {e : MElem}
    (hs : sliceN buf p e.body.length = e.body) (hb : BodyLenOk e) :
    readNumericAt buf e.type p = readNumericAt e.body e.type 0 := by
  unfold readNumericAt
  by_cases h0 : e.type = tInt
  · rw [if_pos h0, if_pos h0, readU32_of_slice hs (hb.1 (by tauto))]
  rw [if_neg h0, if_neg h0]
  by_cases h1 : e.type = tUInt
  · rw [if_pos h1, if_pos h1, readU32_of_slice hs (hb.1 (by tauto))]
  rw [if_neg h1, if_neg h1]
  by_cases h2 : e.type = tFloat
  · rw [if_pos h2, if_pos h2, readU32_of_slice hs (hb.1 (by tauto))]
  rw [if_neg h2, if_neg h2]
  by_cases h3 : e.type = tBool
  · rw [if_pos h3, if_pos h3]
    have := byteGet_of_slice hs (j := 0) (by have := hb.2 h3; omega)
    simp only [Nat.add_zero] at this
    rw [this]
  rw [if_neg h3, if_neg h3]

/-! ## `nullify_elements_with_name` over decoded streams -/

/-- The effect of override nullification on one decoded element. -/
def nullIf (idx : Nat) (e : MElem) : MElem :=
  if e.name = idx then { e with type := tNull } else e

theorem setByte_append (pre l : List Nat) (k v : Nat) :
    setByte (pre ++ l) (pre.length + k) v = pre ++ setByte l k v := by
  unfold setByte
  rw [List.set_append, if_neg (by omega)]
  simp

theorem nullifyLoop_spec (es : List MElem) (pre suf : List Nat) (idx : Nat)
    (hok : ∀ e ∈ es, ElemOk e) :
    nullifyLoop (pre ++ (encElems es ++ suf)) idx pre.length
        (pre.length + (encElems es).length) =
      pre ++ (encElems (es.map (nullIf idx)) ++ suf) := by
  induction es generalizing pre with
  | nil =>
    rw [nullifyLoop]
    have h0 : (encElems ([] : List MElem)).length = 0 := by simp [encElems]
    rw [dif_neg (by omega)]
    simp [encElems]
  | cons e rest ih =>
    obtain ⟨htok, hnok, hsok⟩ := hok e (by simp)
    have hdec : DecodesTo (pre ++ (encElems (e :: rest) ++ suf)) pre.length (e :: rest) :=
      decodesTo_encode (e :: rest) pre suf hok
    obtain ⟨ht, hn, hs, hsl, hrest⟩ := hdec
    have hlen := encElems_cons_length e rest
    rw [nullifyLoop, dif_pos (by omega), hn]
    by_cases hname : e.name = idx
    · rw [if_pos hname]
      -- the assignment `element->m_type = Null` rewrites the header's first
      -- byte, leaving the name's high bits and everything else intact
      have hb0 : byteGet (pre ++ (encElems (e :: rest) ++ suf)) pre.length =
          (e.type % 8 + 8 * (e.name % 8192)) % 256 := by
        have : pre ++ (encElems (e :: rest) ++ suf) =
            pre ++ (((e.type % 8 + 8 * (e.name % 8192)) % 256) ::
              ((e.type % 8 + 8 * (e.name % 8192)) / 256 % 256 ::
                (encodeU32 e.body.length ++ (e.body ++ (encElems rest ++ suf))))) := by
          rw [encElems_cons]
          simp [encElem, encodeEH, encodeU16]
        rw [this]
        have := byteGet_append_right pre (((e.type % 8 + 8 * (e.name % 8192)) % 256) ::
          ((e.type % 8 + 8 * (e.name % 8192)) / 256 % 256 ::
            (encodeU32 e.body.length ++ (e.body ++ (encElems rest ++ suf))))) 0
        simp only [Nat.add_zero] at this
        rw [this]
        rfl
      have hset : setByte (pre ++ (encElems (e :: rest) ++ suf)) pre.length
          (byteGet (pre ++ (encElems (e :: rest) ++ suf)) pre.length / 8 * 8 + 7) =
          pre ++ (encElems ({ e with type := tNull } :: rest) ++ suf) := by
        rw [hb0]
        have harith : (e.type % 8 + 8 * (e.name % 8192)) % 256 / 8 * 8 + 7 =
            (tNull % 8 + 8 * (e.name % 8192)) % 256 := by
          unfold tNull
          omega
        rw [harith]
        have hshape : ∀ t0 : Nat, pre ++ (encElems ({ e with type := t0 } :: rest) ++ suf) =
            pre ++ (((t0 % 8 + 8 * (e.name % 8192)) % 256) ::
              ((t0 % 8 + 8 * (e.name % 8192)) / 256 % 256 ::
                (encodeU32 e.body.length ++ (e.body ++ (encElems rest ++ suf))))) := by
          intro t0
          rw [encElems_cons]
          simp [encElem, encodeEH, encodeU16]
        rw [hshape e.type, hshape tNull]
        have hset0 : ∀ (l : List Nat) (v : Nat),
            setByte (pre ++ l) (pre.length + 0) v = pre ++ setByte l 0 v :=
          fun l v => setByte_append pre l 0 v
        have := hset0 (((e.type % 8 + 8 * (e.name % 8192)) % 256) ::
          ((e.type % 8 + 8 * (e.name % 8192)) / 256 % 256 ::
            (encodeU32 e.body.length ++ (e.body ++ (encElems rest ++ suf)))))
          ((tNull % 8 + 8 * (e.name % 8192)) % 256)
        simp only [Nat.add_zero] at this
        rw [this]
        have hhigh : (e.type % 8 + 8 * (e.name % 8192)) / 256 % 256 =
            (tNull % 8 + 8 * (e.name % 8192)) / 256 % 256 := by
          unfold tNull
          have : e.type % 8 < 8 := Nat.mod_lt _ (by norm_num)
          omega
        simp [setByte, hhigh]
      rw [hset, hs]
      have hre : pre ++ (encElems ({ e with type := tNull } :: rest) ++ suf) =
          (pre ++ encElem { e with type := tNull }) ++ (encElems rest ++ suf) := by
        rw [encElems_cons]
        simp
      have hit : pre.length + 6 + e.body.length =
          (pre ++ encElem { e with type := tNull }).length := by
        simp [encElem_length]
        omega
      have hstop : pre.length + (encElems (e :: rest)).length =
          (pre ++ encElem { e with type := tNull }).length + (encElems rest).length := by
        simp [encElem_length]
        omega
      rw [hre, hit, hstop, ih (pre ++ encElem { e with type := tNull })
        (fun x hx => hok x (by simp [hx]))]
      have hni : nullIf idx e = { e with type := tNull } := by unfold nullIf; rw [if_pos hname]
      rw [List.map_cons, hni, encElems_cons]
      simp
    · rw [if_neg hname, hs]
      have hre : pre ++ (encElems (e :: rest) ++ suf) =
          (pre ++ encElem e) ++ (encElems rest ++ suf) := by
        rw [encElems_cons]
        simp
      have hit : pre.length + 6 + e.body.length = (pre ++ encElem e).length := by
        simp [encElem_length]
        omega
      have hstop : pre.length + (encElems (e :: rest)).length =
          (pre ++ encElem e).length + (encElems rest).length := by
        simp [encElem_length]
        omega
      rw [hre, hit, hstop, ih (pre ++ encElem e) (fun x hx => hok x (by simp [hx]))]
      have hni : nullIf idx e = e := by unfold nullIf; rw [if_neg hname]
      rw [List.map_cons, hni, encElems_cons]
      simp

/-! ## `has_member` (writer side) over decoded streams -/

def mHasLive (strings : List String) (name : String) (es : List MElem) : Bool :=
  es.any fun e => decide (e.type ≠ tNull) && decide (strings.getD e.name "" = name)

theorem hasMemberWLoop_spec (strings : List String) (buf : List Nat) (name : String)
    (es : List MElem) (it : Nat) (h : DecodesTo buf it es) :
    hasMemberWLoop strings buf name it (it + (encElems es).length) =
      mHasLive strings name es := by
  induction es generalizing it with
  | nil =>
    rw [hasMemberWLoop]
    have : (encElems ([] : List MElem)).length = 0 := by simp [encElems]
    rw [dif_neg (by omega)]
    rfl
  | cons e rest ih =>
    obtain ⟨ht, hn, hs, _, hrest⟩ := h
    have hlen := encElems_cons_length e rest
    rw [hasMemberWLoop, dif_pos (by omega), ht, hn]
    by_cases hcond : e.type ≠ tNull ∧ strings.getD e.name "" = name
    · rw [if_pos hcond]
      have : mHasLive strings name (e :: rest) = true := by
        unfold mHasLive
        simp only [List.any_cons, Bool.or_eq_true, Bool.and_eq_true, decide_eq_true_eq]
        exact Or.inl hcond
      rw [this]
    · rw [if_neg hcond, hs]
      have hstop : it + (encElems (e :: rest)).length =
          (it + 6 + e.body.length) + (encElems rest).length := by omega
      rw [hstop, ih _ hrest]
      unfold mHasLive
      simp only [List.any_cons]
      have hfalse : (decide (e.type ≠ tNull) && decide (strings.getD e.name "" = name)) =
          false := by
        by_contra hc
        rw [Bool.not_eq_false, Bool.and_eq_true, decide_eq_true_eq, decide_eq_true_eq] at hc
        exact hcond hc
      rw [hfalse, Bool.false_or]

theorem encElems_append (a b : List MElem) :
    encElems (a ++ b) = encElems a ++ encElems b := by
  simp [encElems]

theorem mapString_idx_lt (tbl : List String) (s : String) :
    (mapStringToInteger tbl s).1 < (mapStringToInteger tbl s).2.length :=
  internFind_lt (mapString_find tbl s)

/-! ## Scalar writer operations over decoded streams

Every scalar/string `BinaryWriter::serialize` interned the name, nullified
the scope and appended one header+body; this is its shape on a scope that
decodes as `es`. -/

theorem nullify_append_buf (pre : List Nat) (es : List MElem) (idx t : Nat)
    (body : List Nat) (hok : ∀ e ∈ es, ElemOk e) (hidx : idx < 8192) :
    nullifyLoop (pre ++ encElems es) (idx % 65536) pre.length
        (pre ++ encElems es).length ++ encodeEH t (idx % 65536) body.length ++ body =
      pre ++ encElems (es.map (nullIf idx) ++ [⟨t, idx, body⟩]) := by
  have hmod : idx % 65536 = idx := Nat.mod_eq_of_lt (by omega)
  rw [hmod]
  have h1 : nullifyLoop (pre ++ encElems es) idx pre.length (pre ++ encElems es).length =
      pre ++ encElems (es.map (nullIf idx)) := by
    have hl : (pre ++ encElems es).length = pre.length + (encElems es).length := by simp
    have hb : pre ++ encElems es = pre ++ (encElems es ++ []) := by simp
    rw [hl, hb, nullifyLoop_spec es pre [] idx hok]
    simp
  rw [h1, encElems_append]
  have he : encElems [(⟨t, idx, body⟩ : MElem)] = encodeEH t idx body.length ++ body := by
    simp [encElems, encElem]
  rw [he]
  simp

theorem serializeIntBin_spec (name : String) (v : Int) (strings : List String)
    (pre : List Nat) (es : List MElem) (hok : ∀ e ∈ es, ElemOk e)
    (hidx : (mapStringToInteger strings name).1 < 8192) :
    serializeIntBin pre.length name v ⟨strings, pre ++ encElems es⟩ =
      ⟨(mapStringToInteger strings name).2,
       pre ++ encElems (es.map (nullIf (mapStringToInteger strings name).1) ++
         [⟨tInt, (mapStringToInteger strings name).1, encodeU32 (toU32 v)⟩])⟩ := by
  unfold serializeIntBin
  rcases hms : mapStringToInteger strings name with ⟨idx, strs⟩
  show (⟨strs, nullifyLoop (pre ++ encElems es) (idx % 65536) pre.length
      (pre ++ encElems es).length ++ encodeEH tInt (idx % 65536) 4 ++
        encodeU32 (toU32 v)⟩ : CState) = _
  rw [hms] at hidx
  have h4 : (4 : Nat) = (encodeU32 (toU32 v)).length := by simp [encodeU32]
  rw [h4, List.append_assoc, ← List.append_assoc,
    nullify_append_buf pre es idx tInt (encodeU32 (toU32 v)) hok hidx]

theorem serializeUIntBin_spec (name : String) (v : Nat) (strings : List String)
    (pre : List Nat) (es : List MElem) (hok : ∀ e ∈ es, ElemOk e)
    (hidx : (mapStringToInteger strings name).1 < 8192) :
    serializeUIntBin pre.length name v ⟨strings, pre ++ encElems es⟩ =
      ⟨(mapStringToInteger strings name).2,
       pre ++ encElems (es.map (nullIf (mapStringToInteger strings name).1) ++
         [⟨tUInt, (mapStringToInteger strings name).1, encodeU32 (v % 4294967296)⟩])⟩ := by
  unfold serializeUIntBin
  rcases hms : mapStringToInteger strings name with ⟨idx, strs⟩
  show (⟨strs, nullifyLoop (pre ++ encElems es) (idx % 65536) pre.length
      (pre ++ encElems es).length ++ encodeEH tUInt (idx % 65536) 4 ++
        encodeU32 (v % 4294967296)⟩ : CState) = _
  rw [hms] at hidx
  have h4 : (4 : Nat) = (encodeU32 (v % 4294967296)).length := by simp [encodeU32]
  rw [h4, List.append_assoc, ← List.append_assoc,
    nullify_append_buf pre es idx tUInt (encodeU32 (v % 4294967296)) hok hidx]

theorem serializeFloatBin_spec (name : String) (bits : Nat) (strings : List String)
    (pre : List Nat) (es : List MElem) (hok : ∀ e ∈ es, ElemOk e)
    (hidx : (mapStringToInteger strings name).1 < 8192) :
    serializeFloatBin pre.length name bits ⟨strings, pre ++ encElems es⟩ =
      ⟨(mapStringToInteger strings name).2,
       pre ++ encElems (es.map (nullIf (mapStringToInteger strings name).1) ++
         [⟨tFloat, (mapStringToInteger strings name).1, encodeU32 (bits % 4294967296)⟩])⟩ := by
  unfold serializeFloatBin
  rcases hms : mapStringToInteger strings name with ⟨idx, strs⟩
  show (⟨strs, nullifyLoop (pre ++ encElems es) (idx % 65536) pre.length
      (pre ++ encElems es).length ++ encodeEH tFloat (idx % 65536) 4 ++
        encodeU32 (bits % 4294967296)⟩ : CState) = _
  rw [hms] at hidx
  have h4 : (4 : Nat) = (encodeU32 (bits % 4294967296)).length := by simp [encodeU32]
  rw [h4, List.append_assoc, ← List.append_assoc,
    nullify_append_buf pre es idx tFloat (encodeU32 (bits % 4294967296)) hok hidx]

theorem serializeBoolBin_spec (name : String) (b : Bool) (strings : List String)
    (pre : List Nat) (es : List MElem) (hok : ∀ e ∈ es, ElemOk e)
    (hidx : (mapStringToInteger strings name).1 < 8192) :
    serializeBoolBin pre.length name b ⟨strings, pre ++ encElems es⟩ =
      ⟨(mapStringToInteger strings name).2,
       pre ++ encElems (es.map (nullIf (mapStringToInteger strings name).1) ++
         [⟨tBool, (mapStringToInteger strings name).1, [if b then 1 else 0]⟩])⟩ := by
  unfold serializeBoolBin
  rcases hms : mapStringToInteger strings name with ⟨idx, strs⟩
  show (⟨strs, nullifyLoop (pre ++ encElems es) (idx % 65536) pre.length
      (pre ++ encElems es).length ++ encodeEH tBool (idx % 65536) 1 ++
        [if b then 1 else 0]⟩ : CState) = _
  rw [hms] at hidx
  generalize hbody : [if b then (1 : Nat) else 0] = body
  have h1 : (1 : Nat) = body.length := by rw [← hbody]; simp
  rw [h1, List.append_assoc, ← List.append_assoc,
    nullify_append_buf pre es idx tBool body hok hidx]

theorem serializeStrBin_spec (name s : String) (strings : List String)
    (pre : List Nat) (es : List MElem) (hok : ∀ e ∈ es, ElemOk e)
    (hidx : (mapStringToInteger (mapStringToInteger strings s).2 name).1 < 8192) :
    serializeStrBin pre.length name s ⟨strings, pre ++ encElems es⟩ =
      ⟨(mapStringToInteger (mapStringToInteger strings s).2 name).2,
       pre ++ encElems (es.map
         (nullIf (mapStringToInteger (mapStringToInteger strings s).2 name).1) ++
         [⟨tString, (mapStringToInteger (mapStringToInteger strings s).2 name).1,
           encodeU32 (mapStringToInteger strings s).1⟩])⟩ := by
  unfold serializeStrBin
  show (⟨(mapStringToInteger (mapStringToInteger strings s).2 name).2,
    nullifyLoop (pre ++ encElems es)
      ((mapStringToInteger (mapStringToInteger strings s).2 name).1 % 65536) pre.length
      (pre ++ encElems es).length ++
      encodeEH tString ((mapStringToInteger (mapStringToInteger strings s).2 name).1 % 65536)
        4 ++
      encodeU32 (mapStringToInteger strings s).1⟩ : CState) = _
  have h4 : (4 : Nat) = (encodeU32 (mapStringToInteger strings s).1).length := by
    simp [encodeU32]
  rw [h4, List.append_assoc, ← List.append_assoc,
    nullify_append_buf pre es (mapStringToInteger (mapStringToInteger strings s).2 name).1
      tString (encodeU32 (mapStringToInteger strings s).1) hok hidx]

/-! ## Copy loops of `remove_null_elements`

`writeAt` (a plain `memcpy` of a snapshot) is the common normal form: the
sequential byte/word loops agree with it whenever the destination does not
run ahead of the source (`dst ≤ src`), which is exactly the memmove-safe
direction the compaction shifts in. -/

theorem writeAt_length (buf : List Nat) (dst : Nat) (l : List Nat) :
    (writeAt buf dst l).length = buf.length := by
  induction l generalizing buf dst with
  | nil => rfl
  | cons b bs ih => rw [writeAt, ih]; simp

theorem set_take_succ (l : List Nat) (i v : Nat) (h : i < l.length) :
    (l.set i v).take (i + 1) = l.take i ++ [v] := by
  rw [List.set_eq_take_cons_drop v h, List.take_append_eq_append_take]
  simp [List.take_take]
  rw [min_eq_left h.le]
  simp

theorem writeAt_spec (l : List Nat) (buf : List Nat) (dst : Nat)
    (h : dst + l.length ≤ buf.length) :
    writeAt buf dst l = buf.take dst ++ l ++ buf.drop (dst + l.length) := by
  induction l generalizing buf dst with
  | nil => simp [writeAt]
  | cons b bs ih =>
    have hdst : dst < buf.length := by simp at h; omega
    rw [writeAt, ih (buf.set dst b) (dst + 1) (by simp; simp at h; omega)]
    rw [List.drop_set_of_lt _ _ (by omega : dst < dst + 1 + bs.length)]
    rw [set_take_succ buf dst b hdst]
    have harr : dst + 1 + bs.length = dst + (b :: bs).length := by simp; omega
    rw [harr]
    simp

theorem sliceN_length (buf : List Nat) (p n : Nat) (h : p + n ≤ buf.length) :
    (sliceN buf p n).length = n := by
  unfold sliceN
  simp
  omega

theorem sliceN_add (buf : List Nat) (p a b : Nat) :
    sliceN buf p (a + b) = sliceN buf p a ++ sliceN buf (p + a) b := by
  unfold sliceN
  rw [List.take_add, List.drop_drop]

theorem sliceN_cons (buf : List Nat) (src n : Nat) (h : src < buf.length) :
    sliceN buf src (n + 1) = byteGet buf src :: sliceN buf (src + 1) n := by
  have hg : byteGet buf src = buf[src] := List.getD_eq_getElem buf 0 h
  unfold sliceN
  rw [hg, List.drop_eq_getElem_cons h, List.take_succ_cons]

theorem byteCopyLoop_eq (n : Nat) (buf : List Nat) (dst src : Nat)
    (hds : dst ≤ src) (hn : src + n ≤ buf.length) :
    byteCopyLoop buf dst src n = writeAt buf dst (sliceN buf src n) := by
  induction n generalizing buf dst src with
  | zero => simp [byteCopyLoop, sliceN, writeAt]
  | succ n ih =>
    rw [byteCopyLoop]
    rw [ih (buf.set dst (byteGet buf src)) (dst + 1) (src + 1) (by omega) (by simp; omega)]
    have hsl : sliceN (buf.set dst (byteGet buf src)) (src + 1) n = sliceN buf (src + 1) n := by
      unfold sliceN
      rw [List.drop_set_of_lt _ _ (by omega)]
    rw [hsl, sliceN_cons buf src n (by omega), writeAt]

theorem writeAt_append (buf : List Nat) (dst : Nat) (l1 l2 : List Nat) :
    writeAt buf dst (l1 ++ l2) = writeAt (writeAt buf dst l1) (dst + l1.length) l2 := by
  induction l1 generalizing buf dst with
  | nil => simp [writeAt]
  | cons b bs ih =>
    rw [List.cons_append, writeAt, writeAt, ih]
    have : dst + 1 + bs.length = dst + (b :: bs).length := by simp; omega
    rw [this]

theorem drop_writeAt_high (buf : List Nat) (dst k : Nat) (l : List Nat)
    (h : dst + l.length ≤ k) (hin : dst + l.length ≤ buf.length) :
    (writeAt buf dst l).drop k = buf.drop k := by
  rw [writeAt_spec l buf dst hin]
  have h1 : (buf.take dst).length = dst := by simp; omega
  rw [List.append_assoc, List.drop_append_eq_append_drop, h1]
  have h2 : (buf.take dst).drop k = [] := List.drop_eq_nil_of_le (by rw [h1]; omega)
  rw [h2, List.nil_append, List.drop_append_eq_append_drop]
  have h3 : l.drop (k - dst) = [] := List.drop_eq_nil_of_le (by omega)
  rw [h3, List.nil_append, List.drop_drop]
  congr 1
  omega

theorem wordCopyLoop_eq (v : Nat) (buf : List Nat) (dst src : Nat)
    (hds : dst ≤ src) (hn : src + 8 * v ≤ buf.length) :
    wordCopyLoop buf dst src v = writeAt buf dst (sliceN buf src (8 * v)) := by
  induction v generalizing buf dst src with
  | zero => simp [wordCopyLoop, sliceN, writeAt]
  | succ v ih =>
    rw [wordCopyLoop]
    have hlen8 : (sliceN buf src 8).length = 8 := sliceN_length buf src 8 (by omega)
    have hlen1 : (writeAt buf dst (sliceN buf src 8)).length = buf.length :=
      writeAt_length buf dst (sliceN buf src 8)
    rw [ih (writeAt buf dst (sliceN buf src 8)) (dst + 8) (src + 8) (by omega)
      (by rw [hlen1]; omega)]
    have hsl : sliceN (writeAt buf dst (sliceN buf src 8)) (src + 8) (8 * v) =
        sliceN buf (src + 8) (8 * v) := by
      have hd := drop_writeAt_high buf dst (src + 8) (sliceN buf src 8)
        (by rw [hlen8]; omega) (by rw [hlen8]; omega)
      show ((writeAt buf dst (sliceN buf src 8)).drop (src + 8)).take (8 * v) =
        (buf.drop (src + 8)).take (8 * v)
      rw [hd]
    rw [hsl]
    have hsplit : sliceN buf src (8 * (v + 1)) =
        sliceN buf src 8 ++ sliceN buf (src + 8) (8 * v) := by
      rw [show 8 * (v + 1) = 8 + 8 * v by ring, sliceN_add]
    rw [hsplit, writeAt_append, hlen8]

theorem append2_take (A B C : List Nat) (k : Nat) (h1 : A.length ≤ k)
    (h2 : k - A.length ≤ B.length) :
    (A ++ B ++ C).take k = A ++ B.take (k - A.length) := by
  rw [List.append_assoc, List.take_append_eq_append_take]
  rw [List.take_of_length_le h1]
  rw [List.take_append_eq_append_take]
  have h0 : k - A.length - B.length = 0 := by omega
  rw [h0]
  simp

theorem append2_drop_high (A B C : List Nat) (k : Nat)
    (h : A.length + B.length ≤ k) :
    (A ++ B ++ C).drop k = C.drop (k - A.length - B.length) := by
  rw [List.append_assoc, List.drop_append_eq_append_drop, List.drop_append_eq_append_drop]
  have h1 : A.drop k = [] := List.drop_eq_nil_of_le (by omega)
  have h2 : B.drop (k - A.length) = [] := List.drop_eq_nil_of_le (by omega)
  rw [h1, h2]
  simp

/-- The overlapping word-then-tail copy of `remove_null_elements` produces a
correct `memmove` whenever the byte loop's start offset `size − 8·(size/8)`
still lies past the word-clobbered window, i.e.
`dst + 8·(s/8) ≤ src + s % 8`.  (Outside this condition it corrupts the
data — see the C3 claim.) -/
theorem overlapCopy_splice (buf : List Nat) (dst src s : Nat)
    (hds : dst ≤ src) (hn : src + s ≤ buf.length) (h8 : 8 ≤ s)
    (hcond : dst + 8 * (s / 8) ≤ src + s % 8) :
    overlapCopy buf dst src s =
      buf.take dst ++ sliceN buf src s ++ buf.drop (dst + s) := by
  unfold overlapCopy
  have hv1 : 1 ≤ s / 8 := by omega
  have hdiv : 8 * (s / 8) ≤ s := by omega
  have hr : s - 8 * (s / 8) = s % 8 := by omega
  have hrv : s - s % 8 = 8 * (s / 8) := by omega
  show byteCopyLoop (wordCopyLoop buf dst src (s / 8)) (dst + (s - 8 * (s / 8)))
    (src + (s - 8 * (s / 8))) (s - (s - 8 * (s / 8))) = _
  rw [hr, hrv]
  rw [wordCopyLoop_eq (s / 8) buf dst src hds (by omega)]
  have hlenS1 : (sliceN buf src (8 * (s / 8))).length = 8 * (s / 8) :=
    sliceN_length buf src _ (by omega)
  have hlenB1 : (writeAt buf dst (sliceN buf src (8 * (s / 8)))).length = buf.length :=
    writeAt_length _ _ _
  rw [byteCopyLoop_eq (8 * (s / 8)) _ (dst + s % 8) (src + s % 8) (by omega)
    (by rw [hlenB1]; omega)]
  have hsl2 : sliceN (writeAt buf dst (sliceN buf src (8 * (s / 8)))) (src + s % 8)
      (8 * (s / 8)) = sliceN buf (src + s % 8) (8 * (s / 8)) := by
    have hd := drop_writeAt_high buf dst (src + s % 8) (sliceN buf src (8 * (s / 8)))
      (by rw [hlenS1]; omega) (by rw [hlenS1]; omega)
    show ((writeAt buf dst (sliceN buf src (8 * (s / 8)))).drop (src + s % 8)).take
      (8 * (s / 8)) = (buf.drop (src + s % 8)).take (8 * (s / 8))
    rw [hd]
  rw [hsl2]
  rw [writeAt_spec _ _ _ (by rw [hlenB1, sliceN_length _ _ _ (by omega)]; omega)]
  rw [sliceN_length _ _ _ (by omega)]
  rw [writeAt_spec _ _ _ (by omega)]
  rw [hlenS1]
  have htd : (buf.take dst).length = dst := by simp; omega
  rw [append2_take (buf.take dst) (sliceN buf src (8 * (s / 8)))
    (buf.drop (dst + 8 * (s / 8))) (dst + s % 8) (by rw [htd]; omega)
    (by rw [htd, hlenS1]; omega)]
  rw [append2_drop_high (buf.take dst) (sliceN buf src (8 * (s / 8)))
    (buf.drop (dst + 8 * (s / 8))) (dst + s % 8 + 8 * (s / 8))
    (by rw [htd, hlenS1]; omega)]
  rw [htd, hlenS1, List.drop_drop]
  have hS1take : (sliceN buf src (8 * (s / 8))).take (dst + s % 8 - dst) =
      sliceN buf src (s % 8) := by
    have h0 : dst + s % 8 - dst = s % 8 := by omega
    rw [h0]
    unfold sliceN
    rw [List.take_take, min_eq_left (by omega)]
  rw [hS1take]
  have hD : dst + 8 * (s / 8) + (dst + s % 8 + 8 * (s / 8) - dst - 8 * (s / 8)) =
      dst + s := by omega
  rw [hD]
  have hjoin : sliceN buf src (s % 8) ++ sliceN buf (src + s % 8) (8 * (s / 8)) =
      sliceN buf src s := by
    rw [← sliceN_add]
    congr 1
    omega
  simp only [List.append_assoc]
  rw [← List.append_assoc (sliceN buf src (s % 8)), hjoin]

/-! ## `remove_null_elements` over decoded streams -/

def liveElems (es : List MElem) : List MElem := es.filter fun e => e.type != tNull

def nullBytes (es : List MElem) : Nat :=
  ((es.filter fun e => e.type == tNull).map fun e => 6 + e.body.length).sum

/-- On a stream without Null elements the compaction only walks (the
`proper_data == sub_element_it` fast path) and changes nothing. -/
theorem removeNullLoop_clean (es : List MElem) (buf : List Nat) (it fs : Nat)
    (h : DecodesTo buf it es) (hnn : ∀ e ∈ es, e.type ≠ tNull) :
    removeNullLoop buf it it (it + (encElems es).length) fs = (buf, fs) := by
  induction es generalizing it with
  | nil =>
    rw [removeNullLoop]
    have h0 : (encElems ([] : List MElem)).length = 0 := by simp [encElems]
    rw [dif_neg (by omega)]
  | cons e rest ih =>
    obtain ⟨ht, hn, hs, hsl, hrest⟩ := h
    have hlen := encElems_cons_length e rest
    rw [removeNullLoop, dif_pos (by omega), ht, if_neg (hnn e (by simp)), if_pos rfl, hs]
    have hstop : it + (encElems (e :: rest)).length =
        (it + 6 + e.body.length) + (encElems rest).length := by omega
    rw [hstop]
    exact ih (it + 6 + e.body.length) hrest fun x hx => hnn x (by simp [hx])

/-- Compaction of a stream of scalar/string elements (bodies of 1 or 4
bytes, so elements of 7 or 10 bytes): the surviving elements are copied
down byte-for-byte — for these sizes the overlapping copy stays inside its
safe window — and the final size drops by the nullified bytes. -/
theorem removeNullLoop_scalar (es : List MElem) (out gap : List Nat) (fs : Nat)
    (hok : ∀ e ∈ es, ElemOk e)
    (hsc : ∀ e ∈ es, e.body.length = 1 ∨ e.body.length = 4)
    (hgap : gap = [] ∨ 7 ≤ gap.length) :
    ∃ junk, removeNullLoop (out ++ (gap ++ encElems es)) (out.length + gap.length)
        out.length (out.length + gap.length + (encElems es).length) fs =
      (out ++ (encElems (liveElems es) ++ junk), fs - nullBytes es) ∧
      junk.length = gap.length + nullBytes es := by
  induction es generalizing out gap fs with
  | nil =>
    refine ⟨gap, ?_, by simp [nullBytes]⟩
    rw [removeNullLoop]
    have h0 : (encElems ([] : List MElem)).length = 0 := by simp [encElems]
    rw [dif_neg (by omega)]
    simp [encElems, liveElems, nullBytes]
  | cons e rest ih =>
    have hdec0 := decodesTo_encode (e :: rest) (out ++ gap) [] hok
    rw [List.append_nil, List.append_assoc] at hdec0
    have hlg : (out ++ gap).length = out.length + gap.length := by simp
    rw [hlg] at hdec0
    obtain ⟨ht, hn, hs, hsl, hrest⟩ := hdec0
    have hlen := encElems_cons_length e rest
    have hbl := hsc e (by simp)
    rw [removeNullLoop, dif_pos (by omega), ht, hs]
    by_cases hty : e.type = tNull
    · -- skipped tombstone: it joins the gap
      rw [if_pos hty]
      have hb : out ++ (gap ++ encElems (e :: rest)) =
          out ++ ((gap ++ encElem e) ++ encElems rest) := by
        rw [encElems_cons]
        simp
      have hl1 : out.length + gap.length + 6 + e.body.length =
          out.length + (gap ++ encElem e).length := by
        simp [encElem_length]
        omega
      have hl2 : out.length + gap.length + (encElems (e :: rest)).length =
          out.length + (gap ++ encElem e).length + (encElems rest).length := by
        simp [encElem_length]
        omega
      rw [hb, hl1, hl2]
      obtain ⟨junk, hres, hjl⟩ := ih out (gap ++ encElem e) (fs - (6 + e.body.length))
        (fun x hx => hok x (by simp [hx])) (fun x hx => hsc x (by simp [hx]))
        (Or.inr (by simp [encElem_length]; omega))
      refine ⟨junk, ?_, ?_⟩
      · rw [hres]
        have hlive : liveElems (e :: rest) = liveElems rest := by
          unfold liveElems
          rw [List.filter_cons_of_neg]
          simp [hty]
        have hnb : nullBytes (e :: rest) = 6 + e.body.length + nullBytes rest := by
          unfold nullBytes
          rw [List.filter_cons_of_pos (by simp [hty])]
          simp
        rw [hlive, hnb, Nat.sub_sub]
      · rw [hjl]
        have hnb : nullBytes (e :: rest) = 6 + e.body.length + nullBytes rest := by
          unfold nullBytes
          rw [List.filter_cons_of_pos (by simp [hty])]
          simp
        rw [hnb]
        simp [encElem_length]
        omega
    · rw [if_neg hty]
      have hlive : liveElems (e :: rest) = e :: liveElems rest := by
        unfold liveElems
        rw [List.filter_cons_of_pos]
        simp [hty]
      have hnb : nullBytes (e :: rest) = nullBytes rest := by
        unfold nullBytes
        rw [List.filter_cons_of_neg (by simp [hty])]
      rcases hgap with rfl | hg7
      · -- gap empty: proper_data == sub_element_it, both advance
        simp only [List.length_nil, Nat.add_zero, List.nil_append] at *
        rw [if_true]
        have hb : out ++ encElems (e :: rest) = (out ++ encElem e) ++ encElems rest := by
          rw [encElems_cons]
          simp
        have hl3 : out.length + 6 + e.body.length = (out ++ encElem e).length := by
          rw [List.length_append, encElem_length]
          omega
        have hl2 : out.length + (encElems (e :: rest)).length =
            (out ++ encElem e).length + (encElems rest).length := by
          rw [hlen, List.length_append, encElem_length]
          omega
        rw [hb, hl3, hl2]
        obtain ⟨junk, hres, hjl⟩ := ih (out ++ encElem e) [] fs
          (fun x hx => hok x (by simp [hx])) (fun x hx => hsc x (by simp [hx])) (Or.inl rfl)
        simp only [List.length_nil, Nat.add_zero, List.nil_append] at hres hjl
        refine ⟨junk, ?_, by simpa [hnb] using hjl⟩
        rw [hres, hlive, hnb, encElems_cons]
        simp
      · -- gap nonempty: the element is copied down over the gap
        rw [if_neg (by omega)]
        set s := 6 + e.body.length with hsdef
        set buf := out ++ (gap ++ encElems (e :: rest)) with hbuf
        have hblen : buf.length =
            out.length + gap.length + (s + (encElems rest).length) := by
          rw [hbuf]
          simp [hlen]
          omega
        have hslice : sliceN buf (out.length + gap.length) s = encElem e := by
          have hb2 : buf = (out ++ gap) ++ (encElem e ++ encElems rest) := by
            rw [hbuf, encElems_cons]
            simp
          rw [hb2, show out.length + gap.length = (out ++ gap).length by simp,
            show s = (encElem e).length by rw [encElem_length],
            sliceN_exact]
        have hsplice : (if out.length + s ≤ out.length + gap.length then
              writeAt buf out.length (sliceN buf (out.length + gap.length) s)
            else overlapCopy buf out.length (out.length + gap.length) s) =
            (out ++ encElem e) ++ (((gap ++ encElem e).drop s) ++ encElems rest) := by
          have htarget : buf.take out.length ++ sliceN buf (out.length + gap.length) s ++
              buf.drop (out.length + s) =
              (out ++ encElem e) ++ (((gap ++ encElem e).drop s) ++ encElems rest) := by
            have htake : buf.take out.length = out := by
              rw [hbuf, show out.length = out.length + 0 by omega]
              rw [List.take_append_eq_append_take]
              simp
            have hdrop : buf.drop (out.length + s) =
                ((gap ++ encElem e).drop s) ++ encElems rest := by
              have hb2 : buf = out ++ ((gap ++ encElem e) ++ encElems rest) := by
                rw [hbuf, encElems_cons]
                simp
              rw [hb2, List.drop_append_eq_append_drop]
              have h1 : out.drop (out.length + s) = [] :=
                List.drop_eq_nil_of_le (by omega)
              rw [h1, List.nil_append, List.drop_append_eq_append_drop]
              have h2 : out.length + s - out.length = s := by omega
              have h3 : s - (gap ++ encElem e).length = 0 := by
                simp [encElem_length]
              rw [h2, h3, List.drop_zero]
            rw [htake, hdrop, hslice]
          by_cases hcopy : out.length + s ≤ out.length + gap.length
          · rw [if_pos hcopy]
            rw [writeAt_spec _ _ _ (by
              rw [sliceN_length _ _ _ (by omega)]
              omega)]
            rw [sliceN_length _ _ _ (by omega)]
            exact htarget
          · rw [if_neg hcopy]
            have hs10 : s = 10 := by
              rcases hbl with h1 | h4
              · omega
              · omega
            rw [overlapCopy_splice buf out.length (out.length + gap.length) s (by omega)
              (by omega) (by omega) (by rw [hs10]; omega)]
            exact htarget
        rw [hsplice]
        have hgl : ((gap ++ encElem e).drop s).length = gap.length := by
          simp [encElem_length]
        have hl1 : out.length + gap.length + s =
            (out ++ encElem e).length + ((gap ++ encElem e).drop s).length := by
          rw [hgl]
          simp [encElem_length]
          omega
        have hl2 : out.length + s = (out ++ encElem e).length := by
          simp [encElem_length]
        have hl3 : out.length + gap.length + (encElems (e :: rest)).length =
            (out ++ encElem e).length + ((gap ++ encElem e).drop s).length +
              (encElems rest).length := by
          rw [hgl]
          simp [encElem_length, hlen]
          omega
        rw [hl1, hl2, hl3]
        obtain ⟨junk, hres, hjl⟩ := ih (out ++ encElem e) ((gap ++ encElem e).drop s) fs
          (fun x hx => hok x (by simp [hx])) (fun x hx => hsc x (by simp [hx]))
          (Or.inr (by rw [hgl]; omega))
        refine ⟨junk, ?_, ?_⟩
        · rw [hres, hlive, hnb, encElems_cons]
          simp
        · rw [hjl, hnb, hgl]

theorem encElems_length_filter (es : List MElem) :
    (encElems es).length = (encElems (liveElems es)).length + nullBytes es := by
  induction es with
  | nil => simp [encElems, liveElems, nullBytes]
  | cons e rest ih =>
    by_cases hty : e.type = tNull
    · have hlive : liveElems (e :: rest) = liveElems rest := by
        unfold liveElems
        rw [List.filter_cons_of_neg (by simp [hty])]
      have hnb : nullBytes (e :: rest) = 6 + e.body.length + nullBytes rest := by
        unfold nullBytes
        rw [List.filter_cons_of_pos (by simp [hty])]
        simp
      rw [encElems_cons_length, hlive, hnb, ih]
      omega
    · have hlive : liveElems (e :: rest) = e :: liveElems rest := by
        unfold liveElems
        rw [List.filter_cons_of_pos (by simp [hty])]
      have hnb : nullBytes (e :: rest) = nullBytes rest := by
        unfold nullBytes
        rw [List.filter_cons_of_neg (by simp [hty])]
      rw [encElems_cons_length, hlive, hnb, encElems_cons_length, ih]
      omega

/-- `~BinaryWriter` on a scope without Null elements leaves the container
untouched. -/
theorem binDtor_clean (strings : List String) (pre : List Nat) (es : List MElem)
    (hok : ∀ e ∈ es, ElemOk e) (hnn : ∀ e ∈ es, e.type ≠ tNull) :
    binDtor pre.length ⟨strings, pre ++ encElems es⟩ = ⟨strings, pre ++ encElems es⟩ := by
  unfold binDtor removeNullRun
  have hd : DecodesTo (pre ++ encElems es) pre.length es := by
    have := decodesTo_encode es pre [] hok
    simpa using this
  have hsz : (⟨strings, pre ++ encElems es⟩ : CState).buf.length - pre.length =
      (encElems es).length := by simp
  rw [hsz]
  have hstop : pre.length + (encElems es).length = pre.length + (encElems es).length := rfl
  rw [removeNullLoop_clean es _ pre.length _ hd hnn]
  have htk : (pre ++ encElems es).take (pre.length + (encElems es).length) =
      pre ++ encElems es := by
    rw [List.take_of_length_le (by simp)]
  simp only [htk]

/-- `~BinaryWriter` on a scope of scalar/string elements compacts it to
exactly the live elements, byte for byte. -/
theorem binDtor_scalar (strings : List String) (pre : List Nat) (es : List MElem)
    (hok : ∀ e ∈ es, ElemOk e)
    (hsc : ∀ e ∈ es, e.body.length = 1 ∨ e.body.length = 4) :
    binDtor pre.length ⟨strings, pre ++ encElems es⟩ =
      ⟨strings, pre ++ encElems (liveElems es)⟩ := by
  unfold binDtor removeNullRun
  obtain ⟨junk, hres, hjl⟩ :=
    removeNullLoop_scalar es pre [] (encElems es).length hok hsc (Or.inl rfl)
  simp only [List.length_nil, Nat.add_zero, List.nil_append] at hres
  have hsz : (⟨strings, pre ++ encElems es⟩ : CState).buf.length - pre.length =
      (encElems es).length := by simp
  rw [hsz, hres]
  have hnew : pre.length + ((encElems es).length - nullBytes es) =
      (pre ++ encElems (liveElems es)).length := by
    have := encElems_length_filter es
    simp
    omega
  have htk : (pre ++ (encElems (liveElems es) ++ junk)).take
      (pre ++ encElems (liveElems es)).length = pre ++ encElems (liveElems es) := by
    rw [show pre ++ (encElems (liveElems es) ++ junk) =
      (pre ++ encElems (liveElems es)) ++ junk by simp]
    rw [List.take_left]
  simp only [hnew, htk]

theorem readIntBin_spec (fr : FloatRt) (strings : List String) (es : List MElem)
    (name : String) (v : Int) (hok : ∀ e ∈ es, ElemOk e)
    (hbody : ∀ e ∈ es, BodyLenOk e) :
    readIntBin fr strings (encElems es) name v =
      (match mFind strings name es 0 with
       | none => v
       | some (_, e) => numToInt fr (readNumericAt e.body e.type 0) v) := by
  unfold readIntBin
  rw [findElem_spec strings name es hok]
  cases hm : mFind strings name es 0 with
  | none => rfl
  | some oe =>
    obtain ⟨off, e⟩ := oe
    have hd : DecodesTo (encElems es) 0 es := by
      have := decodesTo_encode es [] [] hok
      simpa using this
    obtain ⟨ht, _, hsz, hsl, _⟩ := mFind_decodes hd hm
    simp only [Option.map_some']
    rw [ht, readNumericAt_of_slice hsl (hbody e (mFind_mem hm))]

theorem readUIntBin_spec (fr : FloatRt) (strings : List String) (es : List MElem)
    (name : String) (v : Nat) (hok : ∀ e ∈ es, ElemOk e)
    (hbody : ∀ e ∈ es, BodyLenOk e) :
    readUIntBin fr strings (encElems es) name v =
      (match mFind strings name es 0 with
       | none => v
       | some (_, e) => numToUInt fr (readNumericAt e.body e.type 0) v) := by
  unfold readUIntBin
  rw [findElem_spec strings name es hok]
  cases hm : mFind strings name es 0 with
  | none => rfl
  | some oe =>
    obtain ⟨off, e⟩ := oe
    have hd : DecodesTo (encElems es) 0 es := by
      have := decodesTo_encode es [] [] hok
      simpa using this
    obtain ⟨ht, _, hsz, hsl, _⟩ := mFind_decodes hd hm
    simp only [Option.map_some']
    rw [ht, readNumericAt_of_slice hsl (hbody e (mFind_mem hm))]

theorem readFloatBin_spec (fr : FloatRt) (strings : List String) (es : List MElem)
    (name : String) (v : Nat) (hok : ∀ e ∈ es, ElemOk e)
    (hbody : ∀ e ∈ es, BodyLenOk e) :
    readFloatBin fr strings (encElems es) name v =
      (match mFind strings name es 0 with
       | none => v
       | some (_, e) => numToFloat fr (readNumericAt e.body e.type 0) v) := by
  unfold readFloatBin
  rw [findElem_spec strings name es hok]
  cases hm : mFind strings name es 0 with
  | none => rfl
  | some oe =>
    obtain ⟨off, e⟩ := oe
    have hd : DecodesTo (encElems es) 0 es := by
      have := decodesTo_encode es [] [] hok
      simpa using this
    obtain ⟨ht, _, hsz, hsl, _⟩ := mFind_decodes hd hm
    simp only [Option.map_some']
    rw [ht, readNumericAt_of_slice hsl (hbody e (mFind_mem hm))]

theorem readBoolBin_spec (strings : List String) (es : List MElem)
    (name : String) (v : Bool) (hok : ∀ e ∈ es, ElemOk e)
    (hbody : ∀ e ∈ es, BodyLenOk e) :
    readBoolBin strings (encElems es) name v =
      (match mFind strings name es 0 with
       | none => v
       | some (_, e) => numToBool (readNumericAt e.body e.type 0) v) := by
  unfold readBoolBin
  rw [findElem_spec strings name es hok]
  cases hm : mFind strings name es 0 with
  | none => rfl
  | some oe =>
    obtain ⟨off, e⟩ := oe
    have hd : DecodesTo (encElems es) 0 es := by
      have := decodesTo_encode es [] [] hok
      simpa using this
    obtain ⟨ht, _, hsz, hsl, _⟩ := mFind_decodes hd hm
    simp only [Option.map_some']
    rw [ht, readNumericAt_of_slice hsl (hbody e (mFind_mem hm))]

/-- Witness for `c9_string_interning` at `ss = ["a", "b", "a"]`. -/
theorem c9_string_interning_witness :
    (["a", "b", "a"] : List String).toFinset.card ≤ 8192 ∧
    ((internAll [] ["a", "b", "a"]).Nodup ∧
     (∀ s ∈ (["a", "b", "a"] : List String), ∃ i,
        internFind (internAll [] ["a", "b", "a"]) s = some i ∧ i ≤ 8191) ∧
     (∀ pre s suf, (["a", "b", "a"] : List String) = pre ++ s :: suf →
        internAssertOk (internAll [] pre) s ∧
        internFind (internAll [] ["a", "b", "a"]) s =
          some (mapStringToInteger (internAll [] pre) s).1)) :=
  ⟨by decide, c9_string_interning ["a", "b", "a"] (by decide)⟩

set_option maxRecDepth 10000

set_option maxHeartbeats 1000000

/-- C3: null-compaction at binary-writer destruction is NOT byte-for-byte
faithful.  For the scope that writes bool "a", then a 6-entry bool array "b",
then bool "a" again (the second write of "a" nullifies the first element),
the pre-destruction buffer encodes the three elements exactly, but the
destructor's overlapping copy starts its trailing byte loop at offset
`size % 8` of the *source* instead of after the 8-byte words already copied,
so the surviving array element is corrupted: the finalized bytes differ from
the encoding of the two live elements. -/
theorem c3_null_compaction :
    (serializeBoolBin 0 "a" true (serializeArrBoolBin 0 "b"
        [true, true, true, true, true, true]
        (serializeBoolBin 0 "a" true ⟨[], []⟩))).buf =
      encElems [⟨tNull, 0, [1]⟩,
                ⟨tArray, 1, encodeAH tBool 6 ++ [1, 1, 1, 1, 1, 1]⟩,
                ⟨tBool, 0, [1]⟩] ∧
    (binDtor 0 (serializeBoolBin 0 "a" true (serializeArrBoolBin 0 "b"
        [true, true, true, true, true, true]
        (serializeBoolBin 0 "a" true ⟨[], []⟩)))).buf =
      [0, 0, 0, 1, 1, 1, 1, 1, 1, 0, 1, 1, 1, 1, 1, 1, 3, 0, 1, 0, 0, 0, 1] ∧
    (binDtor 0 (serializeBoolBin 0 "a" true (serializeArrBoolBin 0 "b"
        [true, true, true, true, true, true]
        (serializeBoolBin 0 "a" true ⟨[], []⟩)))).buf ≠
      encElems (liveElems
        [⟨tNull, 0, [1]⟩,
         ⟨tArray, 1, encodeAH tBool 6 ++ [1, 1, 1, 1, 1, 1]⟩,
         ⟨tBool, 0, [1]⟩]) := by
  have h2 : (binDtor 0 (serializeBoolBin 0 "a" true (serializeArrBoolBin 0 "b"
      [true, true, true, true, true, true]
      (serializeBoolBin 0 "a" true ⟨[], []⟩)))).buf =
      [0, 0, 0, 1, 1, 1, 1, 1, 1, 0, 1, 1, 1, 1, 1, 1, 3, 0, 1, 0, 0, 0, 1] := by
    simp [serializeBoolBin, serializeArrBoolBin, mapStringToInteger, internFind,
      nullifyName, nullifyLoop, binDtor, removeNullRun, removeNullLoop,
      overlapCopy, wordCopyLoop, byteCopyLoop, writeAt, sliceN, setByte, byteGet,
      encodeEH, encodeU16, encodeU32, encodeAH, ehType, ehName, ehSize,
      readU16, readU32, tNull, tBool, tArray]
  have h1a : (serializeBoolBin 0 "a" true (serializeArrBoolBin 0 "b"
      [true, true, true, true, true, true]
      (serializeBoolBin 0 "a" true ⟨[], []⟩))).buf =
      [7, 0, 1, 0, 0, 0, 1, 14, 0, 10, 0, 0, 0, 51, 0, 0, 0, 1, 1, 1, 1, 1, 1,
       3, 0, 1, 0, 0, 0, 1] := by
    simp [serializeBoolBin, serializeArrBoolBin, mapStringToInteger, internFind,
      nullifyName, nullifyLoop, writeAt, sliceN, setByte, byteGet,
      encodeEH, encodeU16, encodeU32, encodeAH, ehType, ehName, ehSize,
      readU16, readU32, tNull, tBool, tArray]
  have h1b : encElems [⟨tNull, 0, [1]⟩,
      ⟨tArray, 1, encodeAH tBool 6 ++ [1, 1, 1, 1, 1, 1]⟩,
      ⟨tBool, 0, [1]⟩] =
      [7, 0, 1, 0, 0, 0, 1, 14, 0, 10, 0, 0, 0, 51, 0, 0, 0, 1, 1, 1, 1, 1, 1,
       3, 0, 1, 0, 0, 0, 1] := by
    decide
  refine ⟨?_, h2, ?_⟩
  · rw [h1a, h1b]
  · rw [h2]
    decide

/-! ## Sequences of scalar/byte-string writer operations

`SOp` abstracts one call to a scalar `BinaryWriter::serialize` overload;
`applySOps` replays a call sequence on the embedded writer.  `mElemOf` is
the element such a call emits together with the string table it leaves
behind, `mRunSOps` the nullify-and-append evolution of the decoded scope,
and `lwRun` the same evolution phrased as delete-then-append
(last-write-wins). -/

inductive SOp where
  | sInt (name : String) (v : Int)
  | sUInt (name : String) (v : Nat)
  | sFloat (name : String) (bits : Nat)
  | sBool (name : String) (b : Bool)
  | sStr (name : String) (s : String)
deriving DecidableEq

def applySOp (start : Nat) (op : SOp) (st : CState) : CState :=
  match op with
  | .sInt n v => serializeIntBin start n v st
  | .sUInt n v => serializeUIntBin start n v st
  | .sFloat n bits => serializeFloatBin start n bits st
  | .sBool n b => serializeBoolBin start n b st
  | .sStr n s => serializeStrBin start n s st

def applySOps (start : Nat) : List SOp → CState → CState
  | [], st => st
  | op :: rest, st => applySOps start rest (applySOp start op st)

def mElemOf (tbl : List String) : SOp → MElem × List String
  | .sInt n v =>
    (⟨tInt, (mapStringToInteger tbl n).1, encodeU32 (toU32 v)⟩,
     (mapStringToInteger tbl n).2)
  | .sUInt n v =>
    (⟨tUInt, (mapStringToInteger tbl n).1, encodeU32 (v % 4294967296)⟩,
     (mapStringToInteger tbl n).2)
  | .sFloat n bits =>
    (⟨tFloat, (mapStringToInteger tbl n).1, encodeU32 (bits % 4294967296)⟩,
     (mapStringToInteger tbl n).2)
  | .sBool n b =>
    (⟨tBool, (mapStringToInteger tbl n).1, [if b then 1 else 0]⟩,
     (mapStringToInteger tbl n).2)
  | .sStr n s =>
    (⟨tString, (mapStringToInteger (mapStringToInteger tbl s).2 n).1,
       encodeU32 (mapStringToInteger tbl s).1⟩,
     (mapStringToInteger (mapStringToInteger tbl s).2 n).2)

def mApplySOp (acc : List String × List MElem) (op : SOp) : List String × List MElem :=
  ((mElemOf acc.1 op).2,
   acc.2.map (nullIf (mElemOf acc.1 op).1.name) ++ [(mElemOf acc.1 op).1])

def mRunSOps : List String × List MElem → List SOp → List String × List MElem
  | acc, [] => acc
  | acc, op :: rest => mRunSOps (mApplySOp acc op) rest

def lwApply (acc : List String × List MElem) (op : SOp) : List String × List MElem :=
  ((mElemOf acc.1 op).2,
   acc.2.filter (fun e => e.name != (mElemOf acc.1 op).1.name) ++ [(mElemOf acc.1 op).1])

def lwRun : List String × List MElem → List SOp → List String × List MElem
  | acc, [] => acc
  | acc, op :: rest => lwRun (lwApply acc op) rest

/-- The strings an operation interns, in interning order. -/
def sopStrs : SOp → List String
  | .sInt n _ => [n]
  | .sUInt n _ => [n]
  | .sFloat n _ => [n]
  | .sBool n _ => [n]
  | .sStr n s => [s, n]

theorem msi_ok {tbl : List String} {s : String} {univ : Finset String}
    (hnd : tbl.Nodup) (hsub : tbl.toFinset ⊆ univ) (hs : s ∈ univ)
    (hcard : univ.card ≤ 8192) :
    (mapStringToInteger tbl s).1 < 8192 ∧ (mapStringToInteger tbl s).2.Nodup ∧
      (mapStringToInteger tbl s).2.toFinset ⊆ univ := by
  have hone : internAll tbl [s] = (mapStringToInteger tbl s).2 := rfl
  have hnd' : (mapStringToInteger tbl s).2.Nodup := by
    rw [← hone]
    exact internAll_nodup hnd [s]
  have hsub' : (mapStringToInteger tbl s).2.toFinset ⊆ univ := by
    rw [← hone, internAll_toFinset]
    intro a ha
    rcases Finset.mem_union.mp ha with ha | ha
    · exact hsub ha
    · simp only [List.toFinset_cons, List.toFinset_nil, insert_emptyc_eq,
        Finset.mem_singleton] at ha
      subst ha
      exact hs
  have hlt := mapString_idx_lt tbl s
  have hlen : (mapStringToInteger tbl s).2.toFinset.card =
      (mapStringToInteger tbl s).2.length := List.toFinset_card_of_nodup hnd'
  have hc : (mapStringToInteger tbl s).2.toFinset.card ≤ univ.card :=
    Finset.card_le_card hsub'
  exact ⟨by omega, hnd', hsub'⟩

theorem mElemOf_ok {tbl : List String} {univ : Finset String} (op : SOp)
    (hnd : tbl.Nodup) (hsub : tbl.toFinset ⊆ univ) (hcard : univ.card ≤ 8192)
    (hs : ∀ s ∈ sopStrs op, s ∈ univ) :
    ElemOk (mElemOf tbl op).1 ∧
    ((mElemOf tbl op).1.body.length = 1 ∨ (mElemOf tbl op).1.body.length = 4) ∧
    (mElemOf tbl op).2.Nodup ∧ (mElemOf tbl op).2.toFinset ⊆ univ := by
  cases op with
  | sInt n v =>
    obtain ⟨h1, h2, h3⟩ := msi_ok hnd hsub (hs n (by simp [sopStrs])) hcard
    exact ⟨⟨by show tInt < 8; decide, by simpa [mElemOf] using h1,
      by simp [mElemOf, encodeU32]⟩, Or.inr (by simp [mElemOf, encodeU32]), h2, h3⟩
  | sUInt n v =>
    obtain ⟨h1, h2, h3⟩ := msi_ok hnd hsub (hs n (by simp [sopStrs])) hcard
    exact ⟨⟨by show tUInt < 8; decide, by simpa [mElemOf] using h1,
      by simp [mElemOf, encodeU32]⟩, Or.inr (by simp [mElemOf, encodeU32]), h2, h3⟩
  | sFloat n bits =>
    obtain ⟨h1, h2, h3⟩ := msi_ok hnd hsub (hs n (by simp [sopStrs])) hcard
    exact ⟨⟨by show tFloat < 8; decide, by simpa [mElemOf] using h1,
      by simp [mElemOf, encodeU32]⟩, Or.inr (by simp [mElemOf, encodeU32]), h2, h3⟩
  | sBool n b =>
    obtain ⟨h1, h2, h3⟩ := msi_ok hnd hsub (hs n (by simp [sopStrs])) hcard
    refine ⟨⟨by show tBool < 8; decide, by simpa [mElemOf] using h1, ?_⟩,
      Or.inl ?_, h2, h3⟩
    · show ([if b then 1 else 0] : List Nat).length < 4294967296
      simp
    · show ([if b then 1 else 0] : List Nat).length = 1
      simp
  | sStr n s =>
    obtain ⟨g1, g2, g3⟩ := msi_ok hnd hsub (hs s (by simp [sopStrs])) hcard
    obtain ⟨h1, h2, h3⟩ := msi_ok g2 g3 (hs n (by simp [sopStrs])) hcard
    exact ⟨⟨by show tString < 8; decide, by simpa [mElemOf] using h1,
      by simp [mElemOf, encodeU32]⟩, Or.inr (by simp [mElemOf, encodeU32]), h2, h3⟩

theorem nullIf_elemOk {idx : Nat} {e : MElem} (h : ElemOk e) : ElemOk (nullIf idx e) := by
  unfold nullIf
  obtain ⟨h1, h2, h3⟩ := h
  split
  · exact ⟨by show tNull < 8; decide, h2, h3⟩
  · exact ⟨h1, h2, h3⟩

theorem nullIf_body (idx : Nat) (e : MElem) : (nullIf idx e).body = e.body := by
  unfold nullIf
  split <;> rfl

theorem applySOp_spec (op : SOp) (tbl : List String) (pre : List Nat) (es : List MElem)
    (hok : ∀ e ∈ es, ElemOk e) (hidx : (mElemOf tbl op).1.name < 8192) :
    applySOp pre.length op ⟨tbl, pre ++ encElems es⟩ =
      ⟨(mElemOf tbl op).2, pre ++ encElems (mApplySOp (tbl, es) op).2⟩ := by
  cases op with
  | sInt n v =>
    have h := serializeIntBin_spec n v tbl pre es hok (by simpa [mElemOf] using hidx)
    exact h
  | sUInt n v =>
    have h := serializeUIntBin_spec n v tbl pre es hok (by simpa [mElemOf] using hidx)
    exact h
  | sFloat n bits =>
    have h := serializeFloatBin_spec n bits tbl pre es hok (by simpa [mElemOf] using hidx)
    exact h
  | sBool n b =>
    have h := serializeBoolBin_spec n b tbl pre es hok (by simpa [mElemOf] using hidx)
    exact h
  | sStr n s =>
    have h := serializeStrBin_spec n s tbl pre es hok (by simpa [mElemOf] using hidx)
    exact h

theorem applySOps_spec (ops : List SOp) (tbl : List String) (pre : List Nat)
    (es : List MElem) (univ : Finset String)
    (hnd : tbl.Nodup) (hsub : tbl.toFinset ⊆ univ) (hcard : univ.card ≤ 8192)
    (hops : ∀ op ∈ ops, ∀ s ∈ sopStrs op, s ∈ univ)
    (hok : ∀ e ∈ es, ElemOk e)
    (hsc : ∀ e ∈ es, e.body.length = 1 ∨ e.body.length = 4) :
    applySOps pre.length ops ⟨tbl, pre ++ encElems es⟩ =
      ⟨(mRunSOps (tbl, es) ops).1, pre ++ encElems (mRunSOps (tbl, es) ops).2⟩ ∧
    (mRunSOps (tbl, es) ops).1.Nodup ∧ (mRunSOps (tbl, es) ops).1.toFinset ⊆ univ ∧
    (∀ e ∈ (mRunSOps (tbl, es) ops).2, ElemOk e) ∧
    (∀ e ∈ (mRunSOps (tbl, es) ops).2, e.body.length = 1 ∨ e.body.length = 4) := by
  induction ops generalizing tbl es with
  | nil => exact ⟨rfl, hnd, hsub, hok, hsc⟩
  | cons op rest ih =>
    obtain ⟨hek, hbl, hnd', hsub'⟩ := mElemOf_ok op hnd hsub hcard (hops op (by simp))
    have hstep := applySOp_spec op tbl pre es hok hek.2.1
    have hok' : ∀ e ∈ (mApplySOp (tbl, es) op).2, ElemOk e := by
      intro e he
      unfold mApplySOp at he
      simp only [List.mem_append, List.mem_map, List.mem_singleton] at he
      rcases he with ⟨a, ha, rfl⟩ | rfl
      · exact nullIf_elemOk (hok a ha)
      · exact hek
    have hsc' : ∀ e ∈ (mApplySOp (tbl, es) op).2,
        e.body.length = 1 ∨ e.body.length = 4 := by
      intro e he
      unfold mApplySOp at he
      simp only [List.mem_append, List.mem_map, List.mem_singleton] at he
      rcases he with ⟨a, ha, rfl⟩ | rfl
      · rw [nullIf_body]
        exact hsc a ha
      · exact hbl
    have hrest := ih (mElemOf tbl op).2 (mApplySOp (tbl, es) op).2 hnd' hsub'
      (fun o ho s hsx => hops o (by simp [ho]) s hsx) hok' hsc'
    rw [applySOps, hstep]
    exact hrest

theorem liveElems_append (a b : List MElem) :
    liveElems (a ++ b) = liveElems a ++ liveElems b := by
  simp [liveElems]

theorem liveElems_cons_null {e : MElem} {rest : List MElem} (h : e.type = tNull) :
    liveElems (e :: rest) = liveElems rest := by
  simp [liveElems, h]

theorem liveElems_cons_live {e : MElem} {rest : List MElem} (h : e.type ≠ tNull) :
    liveElems (e :: rest) = e :: liveElems rest := by
  simp [liveElems, h]

theorem liveElems_nullIf (es : List MElem) (idx : Nat) :
    liveElems (es.map (nullIf idx)) =
      (liveElems es).filter (fun e => e.name != idx) := by
  induction es with
  | nil => rfl
  | cons e rest ih =>
    rw [List.map_cons]
    by_cases h : e.name = idx
    · have h1 : nullIf idx e = { e with type := tNull } := by
        unfold nullIf
        rw [if_pos h]
      rw [h1, liveElems_cons_null rfl]
      by_cases hl : e.type = tNull
      · rw [liveElems_cons_null hl, ih]
      · rw [liveElems_cons_live hl, List.filter_cons, if_neg (by simp [h]), ih]
    · have h1 : nullIf idx e = e := by
        unfold nullIf
        rw [if_neg h]
      rw [h1]
      by_cases hl : e.type = tNull
      · rw [liveElems_cons_null hl, liveElems_cons_null hl, ih]
      · rw [liveElems_cons_live hl, liveElems_cons_live hl, List.filter_cons,
          if_pos (by simp [h]), ih]

theorem mElemOf_type_ne_null (tbl : List String) (op : SOp) :
    (mElemOf tbl op).1.type ≠ tNull := by
  cases op <;> simp [mElemOf, tInt, tUInt, tFloat, tBool, tString, tNull]

theorem mRun_lw (ops : List SOp) (tbl : List String) (es : List MElem) :
    (mRunSOps (tbl, es) ops).1 = (lwRun (tbl, liveElems es) ops).1 ∧
    liveElems (mRunSOps (tbl, es) ops).2 = (lwRun (tbl, liveElems es) ops).2 := by
  induction ops generalizing tbl es with
  | nil => exact ⟨rfl, rfl⟩
  | cons op rest ih =>
    have hle : liveElems (mApplySOp (tbl, es) op).2 = (lwApply (tbl, liveElems es) op).2 := by
      show liveElems (es.map (nullIf (mElemOf tbl op).1.name) ++ [(mElemOf tbl op).1]) = _
      rw [liveElems_append, liveElems_nullIf]
      have hone : liveElems [(mElemOf tbl op).1] = [(mElemOf tbl op).1] := by
        unfold liveElems
        rw [List.filter_cons, if_pos (by simp [mElemOf_type_ne_null tbl op])]
        rfl
      rw [hone]
      rfl
    have hl1 : mRunSOps (tbl, es) (op :: rest) =
        mRunSOps ((mElemOf tbl op).2, (mApplySOp (tbl, es) op).2) rest := rfl
    have hl2 : lwRun (tbl, liveElems es) (op :: rest) =
        lwRun ((mElemOf tbl op).2, (lwApply (tbl, liveElems es) op).2) rest := rfl
    rw [hl1, hl2, ← hle]
    exact ih (mElemOf tbl op).2 (mApplySOp (tbl, es) op).2

theorem lwRun_names (ops : List SOp) (tbl : List String) (es : List MElem)
    (h : es.Pairwise (fun a b => a.name ≠ b.name)) :
    ((lwRun (tbl, es) ops).2).Pairwise (fun a b => a.name ≠ b.name) := by
  induction ops generalizing tbl es with
  | nil => exact h
  | cons op rest ih =>
    have h' : ((lwApply (tbl, es) op).2).Pairwise (fun a b => a.name ≠ b.name) := by
      show ((es.filter (fun e => e.name != (mElemOf tbl op).1.name) ++
        [(mElemOf tbl op).1]).Pairwise _)
      rw [List.pairwise_append]
      refine ⟨h.sublist (List.filter_sublist es), List.pairwise_singleton _ _, ?_⟩
      intro a ha b hb
      simp only [List.mem_singleton] at hb
      subst hb
      have := List.of_mem_filter ha
      simpa using this
    exact ih (mElemOf tbl op).2 (lwApply (tbl, es) op).2 h'

/-- C2 (counterexample): `BinaryWriter::serialize(name, SerializeObjFn)` does
NOT nullify earlier elements with the same name (unlike every scalar
overload), so writing bool "a", then a non-empty object under "a", finalizes
a stream holding TWO live elements named "a". -/
theorem c2_counterexample :
    ∃ es : List MElem,
      binDtor 0 (serializeObjectBin 0 "a" (fun off st => serializeBoolBin off "b" true st)
          (serializeBoolBin 0 "a" true ⟨[], []⟩)) =
        ⟨["a", "b"], encElems es⟩ ∧
      (es.filter fun e => decide (e.type ≠ tNull) &&
        decide ((["a", "b"] : List String).getD e.name "" = "a")).length = 2 := by
  refine ⟨[⟨tBool, 0, [1]⟩, ⟨tObject, 0, encodeEH tBool 1 1 ++ [1]⟩], ?_, by decide⟩
  have h1 : binDtor 0 (serializeObjectBin 0 "a"
      (fun off st => serializeBoolBin off "b" true st)
      (serializeBoolBin 0 "a" true ⟨[], []⟩)) =
      ⟨["a", "b"], [3, 0, 1, 0, 0, 0, 1, 5, 0, 7, 0, 0, 0, 11, 0, 1, 0, 0, 0, 1]⟩ := by
    simp [serializeBoolBin, serializeObjectBin, mapStringToInteger, internFind,
      nullifyName, nullifyLoop, binDtor, removeNullRun, removeNullLoop,
      overlapCopy, wordCopyLoop, byteCopyLoop, writeAt, sliceN, setByte, byteGet,
      encodeEH, encodeU16, encodeU32, ehType, ehName, ehSize,
      readU16, readU32, tNull, tBool, tObject]
  have h2 : encElems [(⟨tBool, 0, [1]⟩ : MElem), ⟨tObject, 0, encodeEH tBool 1 1 ++ [1]⟩] =
      [3, 0, 1, 0, 0, 0, 1, 5, 0, 7, 0, 0, 0, 11, 0, 1, 0, 0, 0, 1] := by
    decide
  rw [h1, h2]

/-- C2 (amended): over any sequence of scalar/byte-string writes in one
object scope of the binary writer (from an empty container, total distinct
strings at most 8192), the finalized stream is exactly the encoding of the
last-write-wins fold `lwRun`: every write deletes the earlier element
carrying its name and appends its own, so the final elements carry pairwise
distinct names — each name appears exactly once, holding the value of its
last write, and other names keep their relative order. -/
theorem c2_override (ops : List SOp) (univ : Finset String)
    (hops : ∀ op ∈ ops, ∀ s ∈ sopStrs op, s ∈ univ)
    (hcard : univ.card ≤ 8192) :
    binDtor 0 (applySOps 0 ops ⟨[], []⟩) =
      ⟨(lwRun ([], []) ops).1, encElems (lwRun ([], []) ops).2⟩ ∧
    ((lwRun ([], []) ops).2).Pairwise (fun a b => a.name ≠ b.name) := by
  obtain ⟨happ, hnd, hsub, hok, hsc⟩ :=
    applySOps_spec ops [] [] [] univ List.nodup_nil (by simp) hcard hops
      (by intro e he; cases he) (by intro e he; cases he)
  have happ2 : applySOps 0 ops ⟨[], []⟩ =
      ⟨(mRunSOps ([], []) ops).1, [] ++ encElems (mRunSOps ([], []) ops).2⟩ := happ
  have hd2 : binDtor 0 ⟨(mRunSOps ([], []) ops).1,
      [] ++ encElems (mRunSOps ([], []) ops).2⟩ =
      ⟨(mRunSOps ([], []) ops).1,
       [] ++ encElems (liveElems (mRunSOps ([], []) ops).2)⟩ :=
    binDtor_scalar (mRunSOps ([], []) ops).1 [] (mRunSOps ([], []) ops).2 hok hsc
  obtain ⟨ht1, ht2⟩ := mRun_lw ops [] []
  have ht1' : (mRunSOps ([], []) ops).1 = (lwRun ([], []) ops).1 := ht1
  have ht2' : liveElems (mRunSOps ([], []) ops).2 = (lwRun ([], []) ops).2 := ht2
  refine ⟨?_, ?_⟩
  · rw [happ2, hd2, ht1', ht2']
    simp
  · exact lwRun_names ops [] [] List.Pairwise.nil

/-- Witness for `c2_override`: bool "a" = true, int "b" = 2, bool "a" = false. -/
theorem c2_override_witness :
    (∀ op ∈ [SOp.sBool "a" true, SOp.sInt "b" 2, SOp.sBool "a" false],
      ∀ s ∈ sopStrs op, s ∈ ({"a", "b"} : Finset String)) ∧
    ({"a", "b"} : Finset String).card ≤ 8192 ∧
    (binDtor 0 (applySOps 0 [SOp.sBool "a" true, SOp.sInt "b" 2, SOp.sBool "a" false]
        ⟨[], []⟩) =
      ⟨(lwRun ([], []) [SOp.sBool "a" true, SOp.sInt "b" 2, SOp.sBool "a" false]).1,
       encElems (lwRun ([], [])
         [SOp.sBool "a" true, SOp.sInt "b" 2, SOp.sBool "a" false]).2⟩ ∧
     ((lwRun ([], [])
        [SOp.sBool "a" true, SOp.sInt "b" 2, SOp.sBool "a" false]).2).Pairwise
       (fun a b => a.name ≠ b.name)) :=
  ⟨by decide, by decide,
   c2_override [SOp.sBool "a" true, SOp.sInt "b" 2, SOp.sBool "a" false]
     {"a", "b"} (by decide) (by decide)⟩

theorem binDtor_at_end (st : CState) : binDtor st.buf.length st = st := by
  unfold binDtor removeNullRun
  rw [Nat.sub_self, removeNullLoop, dif_neg (by omega)]
  show (⟨st.strings, st.buf.take (st.buf.length + 0)⟩ : CState) = st
  rw [List.take_of_length_le (by omega)]

/-- `write_object_array` entries whose callbacks write nothing only append
their reserved (zero-filled) 4-byte size slots. -/
theorem objArrEntryLoop_id (n : Nat) (st : CState) :
    objArrEntryLoop (List.replicate n (fun _ s => s)) st =
      ⟨st.strings, st.buf ++ List.replicate (4 * n) 0⟩ := by
  induction n generalizing st with
  | zero =>
    rw [List.replicate_zero, objArrEntryLoop]
    show st = _
    simp
  | succ n ih =>
    rw [List.replicate_succ]
    have hd : binDtor (st.buf.length + 4)
        (⟨st.strings, st.buf ++ List.replicate 4 0⟩ : CState) =
        ⟨st.strings, st.buf ++ List.replicate 4 0⟩ := by
      have hl : st.buf.length + 4 =
          ((⟨st.strings, st.buf ++ List.replicate 4 0⟩ : CState)).buf.length := by simp
      rw [hl, binDtor_at_end]
    have hw : writeAt (st.buf ++ List.replicate 4 0) st.buf.length
        (encodeU32 ((st.buf ++ List.replicate 4 0).length - st.buf.length - 4)) =
        st.buf ++ List.replicate 4 0 := by
      have hz : (st.buf ++ List.replicate 4 0).length - st.buf.length - 4 = 0 := by simp
      rw [hz]
      have he : encodeU32 0 = List.replicate 4 0 := by decide
      rw [he, writeAt_spec _ _ _ (by simp)]
      simp
    simp only [objArrEntryLoop, hd]
    rw [hw, ih]
    show (⟨st.strings, st.buf ++ List.replicate 4 0 ++ List.replicate (4 * n) 0⟩ :
      CState) = _
    rw [show (4 : Nat) * (n + 1) = 4 + 4 * n by ring, List.replicate_add,
      List.append_assoc]

theorem encElems_map_nullIf_length (es : List MElem) (idx : Nat) :
    (encElems (es.map (nullIf idx))).length = (encElems es).length := by
  induction es with
  | nil => rfl
  | cons e rest ih =>
    rw [List.map_cons, encElems_cons_length, encElems_cons_length, nullIf_body, ih]

theorem msi_idx_lt_of_len {strings : List String} (name : String)
    (hcap : strings.length < 8192) : (mapStringToInteger strings name).1 < 8192 := by
  have hlt := mapString_idx_lt strings name
  rcases mapString_table strings name with h | ⟨_, h⟩
  · rw [h] at hlt
    omega
  · rw [h] at hlt
    simp at hlt
    omega

theorem msi_getD_ne {strings : List String} {name : String} (hnd : strings.Nodup)
    {j : Nat} (hj : j < strings.length)
    (hne : j ≠ (mapStringToInteger strings name).1) :
    (mapStringToInteger strings name).2.getD j "" ≠ name := by
  cases hf : internFind strings name with
  | none =>
    have h2 : (mapStringToInteger strings name).2 = strings ++ [name] := by
      unfold mapStringToInteger
      rw [hf]
    rw [h2]
    have hg : (strings ++ [name]).getD j "" = strings.getD j "" :=
      List.getD_append _ _ _ _ hj
    rw [hg]
    intro hc
    have hm : name ∈ strings := by
      rw [← hc, List.getD_eq_getElem strings "" hj]
      exact List.getElem_mem hj
    exact (internFind_none_iff strings name).mp hf hm
  | some i =>
    have h1 : (mapStringToInteger strings name).1 = i := by
      unfold mapStringToInteger
      rw [hf]
    have h2 : (mapStringToInteger strings name).2 = strings := by
      unfold mapStringToInteger
      rw [hf]
    rw [h2]
    rw [h1] at hne
    intro hc
    have hi : i < strings.length := internFind_lt hf
    have hgi : strings.getD i "" = name := internFind_getD hf
    have hji : strings.get ⟨j, hj⟩ = strings.get ⟨i, hi⟩ := by
      have e1 : strings.getD j "" = strings.get ⟨j, hj⟩ := List.getD_eq_get strings "" hj
      have e2 : strings.getD i "" = strings.get ⟨i, hi⟩ := List.getD_eq_get strings "" hi
      rw [← e1, ← e2, hc, hgi]
    have hfin : (⟨j, hj⟩ : Fin strings.length) = ⟨i, hi⟩ :=
      (List.nodup_iff_injective_get.mp hnd) hji
    exact hne (congrArg Fin.val hfin)

/-- C7: `serialize_object(name, callback)` with a callback that performs no
writes emits no element on either encoder: the binary writer rewinds the
reserved header so the container is exactly unchanged, the JSON writer skips
the null child, and `has_member(name)` stays false when it was false
before. -/
theorem c7_empty_object_elision (start : Nat) (name : String) (st : CState) (v : JVal) :
    serializeObjectBin start name (fun _ s => s) st = st ∧
    (hasMemberBinW start name st = false →
      hasMemberBinW start name (serializeObjectBin start name (fun _ s => s) st) = false) ∧
    jsonWObject name (fun s => s) v = v ∧
    (hasMemberJson v name = false →
      hasMemberJson (jsonWObject name (fun s => s) v) name = false) := by
  have hst2 : binDtor (st.buf.length + 6) ⟨st.strings, st.buf ++ List.replicate 6 0⟩ =
      ⟨st.strings, st.buf ++ List.replicate 6 0⟩ := by
    unfold binDtor removeNullRun
    have hz : ((⟨st.strings, st.buf ++ List.replicate 6 0⟩ : CState)).buf.length -
        (st.buf.length + 6) = 0 := by simp
    rw [hz, removeNullLoop, dif_neg (by omega)]
    show (⟨st.strings, (st.buf ++ List.replicate 6 0).take (st.buf.length + 6 + 0)⟩ :
      CState) = _
    rw [List.take_of_length_le (by simp)]
  have hbin : serializeObjectBin start name (fun _ s => s) st = st := by
    unfold serializeObjectBin
    simp only []
    rw [hst2, if_pos (by simp)]
    show (⟨st.strings, (st.buf ++ List.replicate 6 0).take st.buf.length⟩ : CState) = st
    rw [List.take_left]
  have hjson : jsonWObject name (fun s => s) v = v := rfl
  refine ⟨hbin, ?_, hjson, ?_⟩
  · intro h
    rw [hbin]
    exact h
  · intro h
    rw [hjson]
    exact h

/-- Witness for `c7_empty_object_elision` at the empty container / null tree. -/
theorem c7_empty_object_elision_witness :
    hasMemberBinW 0 "a" ⟨[], []⟩ = false ∧
    hasMemberJson .jNull "a" = false ∧
    (serializeObjectBin 0 "a" (fun _ s => s) ⟨[], []⟩ = ⟨[], []⟩ ∧
     hasMemberBinW 0 "a" (serializeObjectBin 0 "a" (fun _ s => s) ⟨[], []⟩) = false ∧
     jsonWObject "a" (fun s => s) .jNull = .jNull ∧
     hasMemberJson (jsonWObject "a" (fun s => s) .jNull) "a" = false) := by
  have hm : hasMemberBinW 0 "a" (⟨[], []⟩ : CState) = false := by
    unfold hasMemberBinW
    rw [hasMemberWLoop, dif_neg (by simp)]
  have hj : hasMemberJson .jNull "a" = false := rfl
  obtain ⟨h1, h2, h3, h4⟩ := c7_empty_object_elision 0 "a" ⟨[], []⟩ .jNull
  exact ⟨hm, hj, h1, h2 hm, h3, h4 hj⟩

/-! ## Single-element streams

Reads against a one-element scope, the canonical setting of the conversion
table. -/

theorem mFind_single (name : String) (t : Nat) (body : List Nat) :
    mFind [name] name [⟨t, 0, body⟩] 0 = some (0, ⟨t, 0, body⟩) := by
  unfold mFind
  rw [if_pos (by simp)]

theorem readIntBin_single (fr : FloatRt) (name : String) (t : Nat) (body : List Nat)
    (v : Int) (hok : ElemOk ⟨t, 0, body⟩) (hb : BodyLenOk ⟨t, 0, body⟩) :
    readIntBin fr [name] (encElems [⟨t, 0, body⟩]) name v =
      numToInt fr (readNumericAt body t 0) v := by
  rw [readIntBin_spec fr [name] [⟨t, 0, body⟩] name v
    (by simpa using hok) (by simpa using hb), mFind_single]

theorem readUIntBin_single (fr : FloatRt) (name : String) (t : Nat) (body : List Nat)
    (v : Nat) (hok : ElemOk ⟨t, 0, body⟩) (hb : BodyLenOk ⟨t, 0, body⟩) :
    readUIntBin fr [name] (encElems [⟨t, 0, body⟩]) name v =
      numToUInt fr (readNumericAt body t 0) v := by
  rw [readUIntBin_spec fr [name] [⟨t, 0, body⟩] name v
    (by simpa using hok) (by simpa using hb), mFind_single]

theorem readFloatBin_single (fr : FloatRt) (name : String) (t : Nat) (body : List Nat)
    (v : Nat) (hok : ElemOk ⟨t, 0, body⟩) (hb : BodyLenOk ⟨t, 0, body⟩) :
    readFloatBin fr [name] (encElems [⟨t, 0, body⟩]) name v =
      numToFloat fr (readNumericAt body t 0) v := by
  rw [readFloatBin_spec fr [name] [⟨t, 0, body⟩] name v
    (by simpa using hok) (by simpa using hb), mFind_single]

theorem readBoolBin_single (name : String) (t : Nat) (body : List Nat)
    (v : Bool) (hok : ElemOk ⟨t, 0, body⟩) (hb : BodyLenOk ⟨t, 0, body⟩) :
    readBoolBin [name] (encElems [⟨t, 0, body⟩]) name v =
      numToBool (readNumericAt body t 0) v := by
  rw [readBoolBin_spec [name] [⟨t, 0, body⟩] name v
    (by simpa using hok) (by simpa using hb), mFind_single]

/-! ## Round trip for flat scalar scopes

`sopName`/`jStored` describe one scalar field; `applyJOps` replays the same
field sequence on the JSON writer; `readsBackBin`/`readsBackJson` state that
a reader returns the written value for the field, for any prior slot
content. -/

def sopName : SOp → String
  | .sInt n _ => n
  | .sUInt n _ => n
  | .sFloat n _ => n
  | .sBool n _ => n
  | .sStr n _ => n

def SOpInRange : SOp → Prop
  | .sInt _ v => -2147483648 ≤ v ∧ v < 2147483648
  | .sUInt _ v => v < 4294967296
  | .sFloat _ bits => bits < 4294967296
  | .sBool _ _ => True
  | .sStr _ _ => True

instance (op : SOp) : Decidable (SOpInRange op) := by
  cases op <;> unfold SOpInRange <;> infer_instance

def jOf : SOp → JVal → JVal
  | .sInt n v => jsonWInt n v
  | .sUInt n v => jsonWUInt n v
  | .sFloat n bits => jsonWFloat n bits
  | .sBool n b => jsonWBool n b
  | .sStr n s => jsonWStr n s

def applyJOps : List SOp → JVal → JVal
  | [], v => v
  | op :: rest, v => applyJOps rest (jOf op v)

def jStored : SOp → JVal
  | .sInt _ v => .jInt v
  | .sUInt _ v => .jInt v
  | .sFloat _ bits => .jReal bits
  | .sBool _ b => .jBool b
  | .sStr _ s => .jStr s

def readsBackBin (fr : FloatRt) (strings : List String) (buf : List Nat) : SOp → Prop
  | .sInt n v => ∀ d, readIntBin fr strings buf n d = v
  | .sUInt n v => ∀ d, readUIntBin fr strings buf n d = v
  | .sFloat n bits => ∀ d, readFloatBin fr strings buf n d = bits
  | .sBool n b => ∀ d, readBoolBin strings buf n d = b
  | .sStr n s => ∀ d, readStrBin strings buf n d = s

def readsBackJson (fr : FloatRt) (root : JVal) : SOp → Prop
  | .sInt n v => ∀ d, jsonRInt fr root n d = v
  | .sUInt n v => ∀ d, jsonRUInt fr root n d = v
  | .sFloat n bits => ∀ d, jsonRFloat fr root n d = bits
  | .sBool n b => ∀ d, jsonRBool root n d = b
  | .sStr n s => ∀ d ext, jsonRStr ext root n d = s

theorem toU32_lt (v : Int) : toU32 v < 4294967296 := by
  unfold toU32
  omega

theorem toI32_toU32 (v : Int) (h1 : -2147483648 ≤ v) (h2 : v < 2147483648) :
    toI32 (toU32 v) = v := by
  unfold toI32 toU32
  split <;> omega

theorem toU32_natCast (u : Nat) (h : u < 4294967296) : toU32 u = u := by
  unfold toU32
  omega

theorem msi_extends (tbl : List String) (s : String) :
    ∃ ext, (mapStringToInteger tbl s).2 = tbl ++ ext := by
  rcases mapString_table tbl s with h | ⟨_, h⟩
  · exact ⟨[], by simp [h]⟩
  · exact ⟨[s], h⟩

theorem mElemOf_extends (tbl : List String) (op : SOp) :
    ∃ ext, (mElemOf tbl op).2 = tbl ++ ext := by
  cases op with
  | sStr n s =>
    obtain ⟨e1, h1⟩ := msi_extends tbl s
    obtain ⟨e2, h2⟩ := msi_extends (mapStringToInteger tbl s).2 n
    refine ⟨e1 ++ e2, ?_⟩
    show (mapStringToInteger (mapStringToInteger tbl s).2 n).2 = tbl ++ (e1 ++ e2)
    rw [h2, h1, List.append_assoc]
  | sInt n v => exact msi_extends tbl n
  | sUInt n v => exact msi_extends tbl n
  | sFloat n bits => exact msi_extends tbl n
  | sBool n b => exact msi_extends tbl n

theorem mElemOf_getD (tbl : List String) (op : SOp) :
    (mElemOf tbl op).2.getD (mElemOf tbl op).1.name "" = sopName op := by
  cases op with
  | sStr n s => exact internFind_getD (mapString_find (mapStringToInteger tbl s).2 n)
  | sInt n v => exact internFind_getD (mapString_find tbl n)
  | sUInt n v => exact internFind_getD (mapString_find tbl n)
  | sFloat n bits => exact internFind_getD (mapString_find tbl n)
  | sBool n b => exact internFind_getD (mapString_find tbl n)

theorem mElemOf_name_lt (tbl : List String) (op : SOp) :
    (mElemOf tbl op).1.name < (mElemOf tbl op).2.length := by
  cases op with
  | sStr n s => exact mapString_idx_lt (mapStringToInteger tbl s).2 n
  | sInt n v => exact mapString_idx_lt tbl n
  | sUInt n v => exact mapString_idx_lt tbl n
  | sFloat n bits => exact mapString_idx_lt tbl n
  | sBool n b => exact mapString_idx_lt tbl n

theorem mElemOf_bodyok (tbl : List String) (op : SOp) :
    BodyLenOk (mElemOf tbl op).1 := by
  cases op with
  | sBool n b =>
    constructor
    · intro h
      have h2 : tBool = tInt ∨ tBool = tUInt ∨ tBool = tFloat ∨ tBool = tString := h
      exact absurd h2 (by decide)
    · intro _
      show 1 ≤ ([if b then 1 else 0] : List Nat).length
      simp
  | sInt n v =>
    exact ⟨fun _ => by simp [mElemOf, encodeU32], fun _ => by simp [mElemOf, encodeU32]⟩
  | sUInt n v =>
    exact ⟨fun _ => by simp [mElemOf, encodeU32], fun _ => by simp [mElemOf, encodeU32]⟩
  | sFloat n bits =>
    exact ⟨fun _ => by simp [mElemOf, encodeU32], fun _ => by simp [mElemOf, encodeU32]⟩
  | sStr n s =>
    exact ⟨fun _ => by simp [mElemOf, encodeU32], fun _ => by simp [mElemOf, encodeU32]⟩

theorem nullIf_bodyok {e : MElem} (idx : Nat) (h : BodyLenOk e) :
    BodyLenOk (nullIf idx e) := by
  unfold nullIf
  split
  · constructor
    · intro hh
      have h2 : tNull = tInt ∨ tNull = tUInt ∨ tNull = tFloat ∨ tNull = tString := hh
      exact absurd h2 (by decide)
    · intro hh
      have h2 : tNull = tBool := hh
      exact absurd h2 (by decide)
  · exact h

theorem mRun_bodyok (ops : List SOp) (tbl : List String) (es : List MElem)
    (h : ∀ e ∈ es, BodyLenOk e) :
    ∀ e ∈ (mRunSOps (tbl, es) ops).2, BodyLenOk e := by
  induction ops generalizing tbl es with
  | nil => exact h
  | cons op rest ih =>
    refine ih (mElemOf tbl op).2 (mApplySOp (tbl, es) op).2 ?_
    intro e he
    unfold mApplySOp at he
    simp only [List.mem_append, List.mem_map, List.mem_singleton] at he
    rcases he with ⟨a, ha, rfl⟩ | rfl
    · exact nullIf_bodyok _ (h a ha)
    · exact mElemOf_bodyok tbl op

theorem mRun_extends (ops : List SOp) (tbl : List String) (es : List MElem) :
    ∃ ext, (mRunSOps (tbl, es) ops).1 = tbl ++ ext := by
  induction ops generalizing tbl es with
  | nil => exact ⟨[], by simp [mRunSOps]⟩
  | cons op rest ih =>
    obtain ⟨e1, h1⟩ := mElemOf_extends tbl op
    obtain ⟨e2, h2⟩ := ih (mElemOf tbl op).2 (mApplySOp (tbl, es) op).2
    refine ⟨e1 ++ e2, ?_⟩
    show (mRunSOps ((mElemOf tbl op).2, (mApplySOp (tbl, es) op).2) rest).1 =
      tbl ++ (e1 ++ e2)
    rw [h2, h1, List.append_assoc]

theorem mRun_mem_preserved (ops : List SOp) (tbl : List String) (es : List MElem)
    {e : MElem} (he : e ∈ es) (hlt : e.name < tbl.length)
    (hne : ∀ op ∈ ops, tbl.getD e.name "" ≠ sopName op) :
    e ∈ (mRunSOps (tbl, es) ops).2 := by
  induction ops generalizing tbl es with
  | nil => exact he
  | cons op rest ih =>
    obtain ⟨ext, hext⟩ := mElemOf_extends tbl op
    have hid : nullIf (mElemOf tbl op).1.name e = e := by
      unfold nullIf
      rw [if_neg]
      intro hc
      have hg : (mElemOf tbl op).2.getD e.name "" = sopName op := by
        rw [hc]
        exact mElemOf_getD tbl op
      rw [hext, List.getD_append _ _ _ _ hlt] at hg
      exact hne op (by simp) hg
    have he1 : e ∈ (mApplySOp (tbl, es) op).2 := by
      unfold mApplySOp
      refine List.mem_append.mpr (Or.inl ?_)
      exact List.mem_map.mpr ⟨e, he, hid⟩
    refine ih (mElemOf tbl op).2 (mApplySOp (tbl, es) op).2 he1 ?_ ?_
    · rw [hext]
      simp only [List.length_append]
      omega
    · intro op2 hop2
      rw [hext, List.getD_append _ _ _ _ hlt]
      exact hne op2 (by simp [hop2])

theorem mRun_mem_src (ops : List SOp) (tbl : List String) (es : List MElem) :
    ∀ a ∈ (mRunSOps (tbl, es) ops).2,
      (∃ b ∈ es, a = b ∨ a = { b with type := tNull }) ∨
      (∃ op2 ∈ ops, ∃ e2 : MElem, (a = e2 ∨ a = { e2 with type := tNull }) ∧
        e2.name < (mRunSOps (tbl, es) ops).1.length ∧
        (mRunSOps (tbl, es) ops).1.getD e2.name "" = sopName op2) := by
  induction ops generalizing tbl es with
  | nil =>
    intro a ha
    exact Or.inl ⟨a, ha, Or.inl rfl⟩
  | cons op rest ih =>
    intro a ha
    have hstep : mRunSOps (tbl, es) (op :: rest) =
        mRunSOps ((mElemOf tbl op).2, (mApplySOp (tbl, es) op).2) rest := rfl
    rw [hstep] at ha ⊢
    obtain ⟨ext2, hext2⟩ :=
      mRun_extends rest (mElemOf tbl op).2 (mApplySOp (tbl, es) op).2
    obtain ⟨ext1, hext1⟩ := mElemOf_extends tbl op
    rcases ih (mElemOf tbl op).2 (mApplySOp (tbl, es) op).2 a ha with
      ⟨b, hb, hab⟩ | ⟨op2, hop2, e2, hae, hlt2, hgd2⟩
    · unfold mApplySOp at hb
      simp only [List.mem_append, List.mem_map, List.mem_singleton] at hb
      rcases hb with ⟨c, hc, rfl⟩ | rfl
      · refine Or.inl ⟨c, hc, ?_⟩
        unfold nullIf at hab
        split at hab
        · rcases hab with h | h
          · exact Or.inr h
          · exact Or.inr (by rw [h])
        · exact hab
      · refine Or.inr ⟨op, by simp, (mElemOf tbl op).1, hab, ?_, ?_⟩
        · rw [hext2]
          have := mElemOf_name_lt tbl op
          simp only [List.length_append]
          omega
        · rw [hext2, List.getD_append _ _ _ _ (mElemOf_name_lt tbl op)]
          exact mElemOf_getD tbl op
    · exact Or.inr ⟨op2, by simp [hop2], e2, hae, hlt2, hgd2⟩

theorem mFind_unique {strings : List String} {name : String} {es : List MElem}
    {e : MElem} (he : e ∈ es) (hm : strings.getD e.name "" = name)
    (huniq : ∀ a ∈ es, strings.getD a.name "" = name → a = e) :
    ∀ base, ∃ off, mFind strings name es base = some (off, e) := by
  induction es with
  | nil => cases he
  | cons a rest ih =>
    intro base
    by_cases hh : strings.getD a.name "" = name
    · have : a = e := huniq a (by simp) hh
      subst this
      exact ⟨base, by rw [mFind, if_pos hh]⟩
    · have he' : e ∈ rest := by
        rcases List.mem_cons.mp he with rfl | h
        · exact absurd hm hh
        · exact h
      obtain ⟨off, hoff⟩ := ih he' (fun x hx hgx => huniq x (by simp [hx]) hgx)
        (base + 6 + a.body.length)
      exact ⟨off, by rw [mFind, if_neg hh]; exact hoff⟩

theorem mRun_reads (fr : FloatRt) (ops : List SOp) (tbl : List String)
    (es : List MElem) (univ : Finset String)
    (hnd : tbl.Nodup) (hsub : tbl.toFinset ⊆ univ) (hcard : univ.card ≤ 8192)
    (hops : ∀ op ∈ ops, ∀ s ∈ sopStrs op, s ∈ univ)
    (hdist : (ops.map sopName).Nodup)
    (hrange : ∀ op ∈ ops, SOpInRange op)
    (hok : ∀ e ∈ es, ElemOk e)
    (hsc : ∀ e ∈ es, e.body.length = 1 ∨ e.body.length = 4)
    (hbody : ∀ e ∈ es, BodyLenOk e)
    (hplt : ∀ e ∈ es, e.name < tbl.length)
    (hpne : ∀ e ∈ es, ∀ op ∈ ops, tbl.getD e.name "" ≠ sopName op) :
    ∀ op ∈ ops,
      readsBackBin fr (mRunSOps (tbl, es) ops).1
        (encElems (liveElems (mRunSOps (tbl, es) ops).2)) op := by
  induction ops generalizing tbl es with
  | nil =>
    intro op hop
    cases hop
  | cons op0 rest ih =>
    obtain ⟨hek, hbl, hnd1, hsub1⟩ := mElemOf_ok op0 hnd hsub hcard (hops op0 (by simp))
    obtain ⟨ext1, hext1⟩ := mElemOf_extends tbl op0
    have hrn : sopName op0 ∉ rest.map sopName := (List.nodup_cons.mp hdist).1
    have hdist1 : (rest.map sopName).Nodup := (List.nodup_cons.mp hdist).2
    have hops1 : ∀ op ∈ rest, ∀ s ∈ sopStrs op, s ∈ univ :=
      fun o ho => hops o (by simp [ho])
    have hrange1 : ∀ op ∈ rest, SOpInRange op := fun o ho => hrange o (by simp [ho])
    have hok1 : ∀ e ∈ (mApplySOp (tbl, es) op0).2, ElemOk e := by
      intro e he
      unfold mApplySOp at he
      simp only [List.mem_append, List.mem_map, List.mem_singleton] at he
      rcases he with ⟨a, ha, rfl⟩ | rfl
      · exact nullIf_elemOk (hok a ha)
      · exact hek
    have hsc1 : ∀ e ∈ (mApplySOp (tbl, es) op0).2,
        e.body.length = 1 ∨ e.body.length = 4 := by
      intro e he
      unfold mApplySOp at he
      simp only [List.mem_append, List.mem_map, List.mem_singleton] at he
      rcases he with ⟨a, ha, rfl⟩ | rfl
      · rw [nullIf_body]
        exact hsc a ha
      · exact hbl
    have hbody1 : ∀ e ∈ (mApplySOp (tbl, es) op0).2, BodyLenOk e := by
      intro e he
      unfold mApplySOp at he
      simp only [List.mem_append, List.mem_map, List.mem_singleton] at he
      rcases he with ⟨a, ha, rfl⟩ | rfl
      · exact nullIf_bodyok _ (hbody a ha)
      · exact mElemOf_bodyok tbl op0
    have hplt1 : ∀ e ∈ (mApplySOp (tbl, es) op0).2,
        e.name < (mElemOf tbl op0).2.length := by
      intro e he
      unfold mApplySOp at he
      simp only [List.mem_append, List.mem_map, List.mem_singleton] at he
      rcases he with ⟨a, ha, rfl⟩ | rfl
      · have h1 : (nullIf (mElemOf tbl op0).1.name a).name = a.name := by
          unfold nullIf
          split <;> rfl
        rw [h1, hext1]
        have := hplt a ha
        simp only [List.length_append]
        omega
      · exact mElemOf_name_lt tbl op0
    have hpne1 : ∀ e ∈ (mApplySOp (tbl, es) op0).2, ∀ op ∈ rest,
        (mElemOf tbl op0).2.getD e.name "" ≠ sopName op := by
      intro e he op hop
      unfold mApplySOp at he
      simp only [List.mem_append, List.mem_map, List.mem_singleton] at he
      rcases he with ⟨a, ha, rfl⟩ | rfl
      · have h1 : (nullIf (mElemOf tbl op0).1.name a).name = a.name := by
          unfold nullIf
          split <;> rfl
        rw [h1, hext1, List.getD_append _ _ _ _ (hplt a ha)]
        exact hpne a ha op (by simp [hop])
      · rw [mElemOf_getD]
        intro hc
        exact hrn (hc ▸ List.mem_map_of_mem sopName hop)
    have hstep : mRunSOps (tbl, es) (op0 :: rest) =
        mRunSOps ((mElemOf tbl op0).2, (mApplySOp (tbl, es) op0).2) rest := rfl
    intro op hop
    rcases List.mem_cons.mp hop with rfl | hop1
    · -- the head operation reads back from the final compacted scope
      rw [hstep]
      obtain ⟨extF, hextF⟩ :=
        mRun_extends rest (mElemOf tbl op).2 (mApplySOp (tbl, es) op).2
      have he1mem : (mElemOf tbl op).1 ∈
          (mRunSOps ((mElemOf tbl op).2, (mApplySOp (tbl, es) op).2) rest).2 := by
        refine mRun_mem_preserved rest _ _ ?_ (mElemOf_name_lt tbl op) ?_
        · unfold mApplySOp
          simp
        · intro op2 hop2
          rw [mElemOf_getD]
          intro hc
          exact hrn (hc ▸ List.mem_map_of_mem sopName hop2)
      have he1live : (mElemOf tbl op).1 ∈
          liveElems (mRunSOps ((mElemOf tbl op).2, (mApplySOp (tbl, es) op).2) rest).2 := by
        unfold liveElems
        exact List.mem_filter.mpr ⟨he1mem, by simp [mElemOf_type_ne_null tbl op]⟩
      have hgdF : (mRunSOps ((mElemOf tbl op).2,
          (mApplySOp (tbl, es) op).2) rest).1.getD (mElemOf tbl op).1.name "" =
          sopName op := by
        rw [hextF, List.getD_append _ _ _ _ (mElemOf_name_lt tbl op), mElemOf_getD]
      have huniq : ∀ a ∈ liveElems (mRunSOps ((mElemOf tbl op).2,
          (mApplySOp (tbl, es) op).2) rest).2,
          (mRunSOps ((mElemOf tbl op).2,
            (mApplySOp (tbl, es) op).2) rest).1.getD a.name "" = sopName op →
          a = (mElemOf tbl op).1 := by
        intro a ha hga
        have hamem := List.mem_of_mem_filter ha
        have halive : a.type ≠ tNull := by
          have := List.of_mem_filter ha
          simpa using this
        rcases mRun_mem_src rest (mElemOf tbl op).2 (mApplySOp (tbl, es) op).2 a hamem
          with ⟨b, hb, hab⟩ | ⟨op2, hop2, e2, hae2, hlt2, hgd2⟩
        · unfold mApplySOp at hb
          simp only [List.mem_append, List.mem_map, List.mem_singleton] at hb
          rcases hb with ⟨c, hc, rfl⟩ | rfl
          · exfalso
            have haname : a.name = c.name := by
              have h1 : (nullIf (mElemOf tbl op).1.name c).name = c.name := by
                unfold nullIf
                split <;> rfl
              rcases hab with h | h
              · rw [h, h1]
              · rw [h]
                exact h1
            rw [haname] at hga
            have hstable : (mRunSOps ((mElemOf tbl op).2,
                (mApplySOp (tbl, es) op).2) rest).1.getD c.name "" =
                tbl.getD c.name "" := by
              rw [hextF, hext1, List.append_assoc,
                List.getD_append _ _ _ _ (hplt c hc)]
            rw [hstable] at hga
            exact hpne c hc op (by simp) hga
          · rcases hab with h | h
            · exact h
            · exfalso
              rw [h] at halive
              exact halive rfl
        · exfalso
          have haname : a.name = e2.name := by
            rcases hae2 with h | h <;> rw [h]
          rw [haname, hgd2] at hga
          exact hrn (hga ▸ List.mem_map_of_mem sopName hop2)
      obtain ⟨off, hoff⟩ := mFind_unique he1live hgdF huniq 0
      have hokF := (applySOps_spec rest (mElemOf tbl op).2 []
        (mApplySOp (tbl, es) op).2 univ hnd1 hsub1 hcard hops1 hok1 hsc1).2.2.2.1
      have hokL : ∀ e ∈ liveElems (mRunSOps ((mElemOf tbl op).2,
          (mApplySOp (tbl, es) op).2) rest).2, ElemOk e :=
        fun e he => hokF e (List.mem_of_mem_filter he)
      have hbodyF := mRun_bodyok rest (mElemOf tbl op).2 (mApplySOp (tbl, es) op).2 hbody1
      have hbodyL : ∀ e ∈ liveElems (mRunSOps ((mElemOf tbl op).2,
          (mApplySOp (tbl, es) op).2) rest).2, BodyLenOk e :=
        fun e he => hbodyF e (List.mem_of_mem_filter he)
      have hrg := hrange op (by simp)
      cases op with
      | sInt n v =>
        intro d
        simp only [sopName] at hoff
        rw [readIntBin_spec fr _ _ n d hokL hbodyL, hoff]
        show numToInt fr (readNumericAt (encodeU32 (toU32 v)) tInt 0) d = v
        have hr : readU32 (encodeU32 (toU32 v)) 0 = toU32 v := by
          have h := readU32_encode [] [] (toU32 v)
          simpa [Nat.mod_eq_of_lt (toU32_lt v)] using h
        obtain ⟨h1, h2⟩ := hrg
        simp [readNumericAt, tInt, numToInt, hr, toI32_toU32 v h1 h2]
      | sUInt n v =>
        intro d
        simp only [sopName] at hoff
        rw [readUIntBin_spec fr _ _ n d hokL hbodyL, hoff]
        show numToUInt fr (readNumericAt (encodeU32 (v % 4294967296)) tUInt 0) d = v
        have hv : v % 4294967296 = v := Nat.mod_eq_of_lt hrg
        have hr : readU32 (encodeU32 v) 0 = v := by
          have h := readU32_encode [] [] v
          simpa [hv] using h
        simp [readNumericAt, tUInt, tInt, numToUInt, hr, hv]
      | sFloat n bits =>
        intro d
        simp only [sopName] at hoff
        rw [readFloatBin_spec fr _ _ n d hokL hbodyL, hoff]
        show numToFloat fr (readNumericAt (encodeU32 (bits % 4294967296)) tFloat 0) d =
          bits
        have hv : bits % 4294967296 = bits := Nat.mod_eq_of_lt hrg
        have hr : readU32 (encodeU32 bits) 0 = bits := by
          have h := readU32_encode [] [] bits
          simpa [hv] using h
        simp [readNumericAt, tFloat, tUInt, tInt, numToFloat, hr, hv]
      | sBool n b =>
        intro d
        simp only [sopName] at hoff
        rw [readBoolBin_spec _ _ n d hokL hbodyL, hoff]
        show numToBool (readNumericAt [if b then 1 else 0] tBool 0) d = b
        cases b <;>
          simp [readNumericAt, tBool, tFloat, tUInt, tInt, numToBool, byteGet]
      | sStr n s =>
        intro d
        have hvidx : (mapStringToInteger tbl s).1 < 8192 :=
          (msi_ok hnd hsub (hops (.sStr n s) (by simp) s (by simp [sopStrs])) hcard).1
        have hgds : (mRunSOps ((mElemOf tbl (SOp.sStr n s)).2,
            (mApplySOp (tbl, es) (SOp.sStr n s)).2) rest).1.getD
            (mapStringToInteger tbl s).1 "" = s := by
          obtain ⟨ey, hey⟩ := msi_extends (mapStringToInteger tbl s).2 n
          have hlt : (mapStringToInteger tbl s).1 <
              (mapStringToInteger tbl s).2.length := mapString_idx_lt tbl s
          have htb1 : (mElemOf tbl (SOp.sStr n s)).2 =
              (mapStringToInteger tbl s).2 ++ ey := hey
          rw [hextF, htb1, List.append_assoc,
            List.getD_append _ _ _ _ hlt]
          exact internFind_getD (mapString_find tbl s)
        simp only [sopName] at hoff
        unfold readStrBin
        rw [findElem_spec _ _ _ hokL, hoff]
        simp only [Option.map_some']
        have hd : DecodesTo (encElems (liveElems (mRunSOps
            ((mElemOf tbl (SOp.sStr n s)).2,
             (mApplySOp (tbl, es) (SOp.sStr n s)).2) rest).2)) 0
            (liveElems (mRunSOps ((mElemOf tbl (SOp.sStr n s)).2,
             (mApplySOp (tbl, es) (SOp.sStr n s)).2) rest).2) := by
          have := decodesTo_encode _ ([] : List Nat) ([] : List Nat) hokL
          simpa using this
        obtain ⟨ht, _, _, hsl, _⟩ := mFind_decodes hd hoff
        rw [ht]
        rw [if_pos (show (mElemOf tbl (SOp.sStr n s)).1.type = tString from rfl)]
        have h4 : (4 : Nat) ≤ (mElemOf tbl (SOp.sStr n s)).1.body.length := by
          show (4 : Nat) ≤ (encodeU32 (mapStringToInteger tbl s).1).length
          simp [encodeU32]
        rw [readU32_of_slice hsl h4]
        have hr : readU32 (encodeU32 (mapStringToInteger tbl s).1) 0 =
            (mapStringToInteger tbl s).1 := by
          have h := readU32_encode [] [] (mapStringToInteger tbl s).1
          simpa [Nat.mod_eq_of_lt (show (mapStringToInteger tbl s).1 < 4294967296
            by omega)] using h
        show (mRunSOps ((mElemOf tbl (SOp.sStr n s)).2,
          (mApplySOp (tbl, es) (SOp.sStr n s)).2) rest).1.getD
          (readU32 (mElemOf tbl (SOp.sStr n s)).1.body 0) "" = s
        rw [show (mElemOf tbl (SOp.sStr n s)).1.body =
          encodeU32 (mapStringToInteger tbl s).1 from rfl, hr, hgds]
    · -- a later operation: induction hypothesis on the evolved scope
      rw [hstep]
      exact ih (mElemOf tbl op0).2 (mApplySOp (tbl, es) op0).2 hnd1 hsub1 hops1
        hdist1 hrange1 hok1 hsc1 hbody1 hplt1 hpne1 op hop1

theorem assocGet_set_self (m : List (String × JVal)) (n : String) (x : JVal) :
    assocGet (assocSet m n x) n = x := by
  induction m with
  | nil => simp [assocSet, assocGet]
  | cons p rest ih =>
    obtain ⟨k, v⟩ := p
    by_cases h : k = n
    · simp [assocSet, assocGet, h]
    · simp [assocSet, assocGet, h, ih]

theorem assocGet_set_other (m : List (String × JVal)) (k n : String) (x : JVal)
    (h : k ≠ n) : assocGet (assocSet m k x) n = assocGet m n := by
  induction m with
  | nil => simp [assocSet, assocGet, h]
  | cons p rest ih =>
    obtain ⟨k2, v⟩ := p
    by_cases h2 : k2 = k
    · simp [assocSet, assocGet, h2, h]
    · by_cases h3 : k2 = n
      · simp [assocSet, assocGet, h2, h3, Ne.symm h]
      · simp [assocSet, assocGet, h2, h3, ih]

theorem jsonGet_set_self (v : JVal) (n : String) (x : JVal) :
    jsonGet (jsonSet v n x) n = x := by
  cases v <;> simp [jsonSet, jsonGet, assocGet, assocGet_set_self]

theorem jsonGet_set_other (v : JVal) (k n : String) (x : JVal) (h : k ≠ n) :
    jsonGet (jsonSet v k x) n = jsonGet v n := by
  cases v <;> simp [jsonSet, jsonGet, assocGet, assocGet_set_other _ _ _ _ h, h]

theorem jOf_name_get (op : SOp) (v : JVal) :
    jsonGet (jOf op v) (sopName op) = jStored op := by
  cases op <;>
    simp [jOf, sopName, jStored, jsonWInt, jsonWUInt, jsonWFloat, jsonWBool,
      jsonWStr, jsonGet_set_self]

theorem jOf_other_get (op : SOp) (v : JVal) (n : String) (h : sopName op ≠ n) :
    jsonGet (jOf op v) n = jsonGet v n := by
  cases op <;>
    simp only [jOf, jsonWInt, jsonWUInt, jsonWFloat, jsonWBool, jsonWStr] <;>
    exact jsonGet_set_other v _ n _ (by simpa [sopName] using h)

theorem applyJOps_get_other (ops : List SOp) (v : JVal) (n : String)
    (h : n ∉ ops.map sopName) : jsonGet (applyJOps ops v) n = jsonGet v n := by
  induction ops generalizing v with
  | nil => rfl
  | cons op rest ih =>
    have h1 : sopName op ≠ n := by
      intro hc
      exact h (by simp [hc])
    have h2 : n ∉ rest.map sopName := by
      intro hc
      exact h (by simp [hc])
    rw [applyJOps, ih (jOf op v) h2, jOf_other_get op v n h1]

theorem applyJOps_get (ops : List SOp) (v : JVal) (op : SOp) (hop : op ∈ ops)
    (hdist : (ops.map sopName).Nodup) :
    jsonGet (applyJOps ops v) (sopName op) = jStored op := by
  induction ops generalizing v with
  | nil => cases hop
  | cons op0 rest ih =>
    rcases List.mem_cons.mp hop with rfl | hop1
    · rw [applyJOps, applyJOps_get_other rest (jOf op v) (sopName op)
        (List.nodup_cons.mp hdist).1, jOf_name_get]
    · exact ih (jOf op0 v) hop1 (List.nodup_cons.mp hdist).2

theorem jRead_stored (fr : FloatRt) (op : SOp) (root : JVal)
    (hg : jsonGet root (sopName op) = jStored op) (hrg : SOpInRange op) :
    readsBackJson fr root op := by
  cases op with
  | sInt n v =>
    intro d
    simp only [sopName] at hg
    obtain ⟨h1, h2⟩ := hrg
    simp [jsonRInt, hg, jStored, jIsNumeric, jAsInt, toI32_toU32 v h1 h2]
  | sUInt n v =>
    intro d
    simp only [sopName] at hg
    simp [jsonRUInt, hg, jStored, jIsNumeric, jAsUInt, toU32_natCast v hrg]
  | sFloat n bits =>
    intro d
    simp only [sopName] at hg
    simp [jsonRFloat, hg, jStored, jIsNumeric, jAsFloatBits]
  | sBool n b =>
    intro d
    simp only [sopName] at hg
    simp [jsonRBool, hg, jStored, jIsBool, jAsBool]
  | sStr n s =>
    intro d ext
    simp only [sopName] at hg
    simp [jsonRStr, hg, jStored]

/-- C1 (counterexample): the round trip fails on the binary codec for the
user value `{a: [{}]}` — an object array with one entry whose callback
writes nothing.  `write_object_array` rewinds the whole element (all entry
size slots are zero), so reading the object-array size back under "a"
yields 0 instead of 1. -/
theorem c1_counterexample :
    writeObjectArrayBin 0 "a" [fun _ s => s] ⟨[], []⟩ = ⟨["a"], []⟩ ∧
    readObjArrSizeBin
      (writeObjectArrayBin 0 "a" [fun _ s => s] ⟨[], []⟩).strings
      (writeObjectArrayBin 0 "a" [fun _ s => s] ⟨[], []⟩).buf "a" = 0 ∧
    ([fun _ s => s] : List (Nat → CState → CState)).length = 1 ∧
    (0 : Nat) ≠ 1 := by
  have h1 : writeObjectArrayBin 0 "a" [fun _ s => s] ⟨[], []⟩ = ⟨["a"], []⟩ := by
    simp [writeObjectArrayBin, objArrEntryLoop, binDtor, removeNullRun,
      removeNullLoop, nullifyLoop, writeAt, setByte, mapStringToInteger,
      internFind, encodeU32, byteGet, readU16, readU32, ehType, ehName, ehSize,
      sliceN, tNull]
  have h2 : readObjArrSizeBin ["a"] [] "a" = 0 := by
    unfold readObjArrSizeBin findElem
    rw [findElemLoop, dif_neg (by simp)]
  refine ⟨h1, ?_, rfl, by decide⟩
  rw [h1]
  exact h2

/-- C5: a reader asked for a primitive array under a name that holds a
convertible scalar produces a one-element array: `set_size 1` then
`set_element 0` with the converted scalar — binary reader
(`read_array_element`'s scalar fallback, numeric slots and the string
slot) and JSON reader (`read_array`'s non-array branch). -/
theorem c5_scalar_as_array (fr : FloatRt) (bulk : Bool) (strings : List String)
    (es : List MElem) (name : String) (off : Nat) (e : MElem)
    (hok : ∀ a ∈ es, ElemOk a) (hbody : ∀ a ∈ es, BodyLenOk a)
    (hm : mFind strings name es 0 = some (off, e)) :
    (e.type = tInt ∨ e.type = tUInt ∨ e.type = tFloat ∨ e.type = tBool →
      readArrayElemIntBin fr bulk strings (encElems es) name =
        [.size 1, .elem 0 (numToInt fr (readNumericAt e.body e.type 0) 0)] ∧
      readArrayElemUIntBin fr bulk strings (encElems es) name =
        [.size 1, .elem 0 (numToUInt fr (readNumericAt e.body e.type 0) 0)] ∧
      readArrayElemFloatBin fr bulk strings (encElems es) name =
        [.size 1, .elem 0 (numToFloat fr (readNumericAt e.body e.type 0) 0)] ∧
      readArrayElemBoolBin strings (encElems es) name =
        [.size 1, .elem 0 (numToBool (readNumericAt e.body e.type 0) false)]) ∧
    (e.type = tString →
      readArrayElemStrBin strings (encElems es) name =
        [.size 1, .elem 0 (strings.getD (readU32 e.body 0) "")]) ∧
    (∀ (root : JVal) (x : JVal), jsonGet root name = x →
      (jIsNumeric x = true ∨ jIsBool x = true ∨ (∃ s, x = .jStr s) →
        jsonRArrInt fr root name = [.size 1, .elem 0 (jAsInt fr x)] ∧
        jsonRArrUInt fr root name = [.size 1, .elem 0 (jAsUInt fr x)] ∧
        jsonRArrFloat fr root name = [.size 1, .elem 0 (jAsFloatBits fr x)] ∧
        jsonRArrBool root name = [.size 1, .elem 0 (jAsBool x)]) ∧
      (∀ s, x = .jStr s → jsonRArrStr root name = [.size 1, .elem 0 s])) := by
  have hd : DecodesTo (encElems es) 0 es := by
    have := decodesTo_encode es [] [] hok
    simpa using this
  obtain ⟨ht, _, _, hsl, _⟩ := mFind_decodes hd hm
  have hbe : BodyLenOk e := hbody e (mFind_mem hm)
  refine ⟨?_, ?_, ?_⟩
  · intro hsc
    have hne : e.type ≠ tArray := by
      rcases hsc with h | h | h | h <;> rw [h] <;> decide
    refine ⟨?_, ?_, ?_, ?_⟩
    · unfold readArrayElemIntBin
      rw [findElem_spec strings name es hok, hm]
      simp only [Option.map_some']
      rw [ht, if_neg hne, readNumericAt_of_slice hsl hbe]
    · unfold readArrayElemUIntBin
      rw [findElem_spec strings name es hok, hm]
      simp only [Option.map_some']
      rw [ht, if_neg hne, readNumericAt_of_slice hsl hbe]
    · unfold readArrayElemFloatBin
      rw [findElem_spec strings name es hok, hm]
      simp only [Option.map_some']
      rw [ht, if_neg hne, readNumericAt_of_slice hsl hbe]
    · unfold readArrayElemBoolBin
      rw [findElem_spec strings name es hok, hm]
      simp only [Option.map_some']
      rw [ht, if_neg hne, readNumericAt_of_slice hsl hbe]
  · intro hts
    have hne : e.type ≠ tArray := by
      rw [hts]
      decide
    unfold readArrayElemStrBin
    rw [findElem_spec strings name es hok, hm]
    simp only [Option.map_some']
    rw [ht, if_neg hne, if_pos hts]
    have h4 : 4 ≤ e.body.length := hbe.1 (by tauto)
    rw [readU32_of_slice hsl h4]
  · intro root x hx
    constructor
    · intro hsc
      have hshape : jsonRArrTrace (α := Int) (jAsInt fr) x =
          [.size 1, .elem 0 (jAsInt fr x)] ∧
          jsonRArrTrace (α := Nat) (jAsUInt fr) x =
            [.size 1, .elem 0 (jAsUInt fr x)] ∧
          jsonRArrTrace (α := Nat) (jAsFloatBits fr) x =
            [.size 1, .elem 0 (jAsFloatBits fr x)] ∧
          jsonRArrTrace (α := Bool) jAsBool x = [.size 1, .elem 0 (jAsBool x)] := by
        rcases hsc with h | h | ⟨s, rfl⟩
        · cases x <;> simp [jIsNumeric] at h <;> exact ⟨rfl, rfl, rfl, rfl⟩
        · cases x <;> simp [jIsBool] at h
          exact ⟨rfl, rfl, rfl, rfl⟩
        · exact ⟨rfl, rfl, rfl, rfl⟩
      exact ⟨by rw [jsonRArrInt, hx, hshape.1],
        by rw [jsonRArrUInt, hx, hshape.2.1],
        by rw [jsonRArrFloat, hx, hshape.2.2.1],
        by rw [jsonRArrBool, hx, hshape.2.2.2]⟩
    · intro s hs
      rw [jsonRArrStr, hx, hs]

/-- Witness for `c5_scalar_as_array`: scope [int "a" = 7, string "b" =
"hello"], tree with the same members. -/
theorem c5_scalar_as_array_witness :
    (∀ a ∈ [(⟨tInt, 0, encodeU32 7⟩ : MElem), ⟨tString, 1, encodeU32 2⟩], ElemOk a) ∧
    (∀ a ∈ [(⟨tInt, 0, encodeU32 7⟩ : MElem), ⟨tString, 1, encodeU32 2⟩],
      BodyLenOk a) ∧
    mFind ["a", "b", "hello"] "a"
      [(⟨tInt, 0, encodeU32 7⟩ : MElem), ⟨tString, 1, encodeU32 2⟩] 0 =
      some (0, ⟨tInt, 0, encodeU32 7⟩) ∧
    mFind ["a", "b", "hello"] "b"
      [(⟨tInt, 0, encodeU32 7⟩ : MElem), ⟨tString, 1, encodeU32 2⟩] 0 =
      some (10, ⟨tString, 1, encodeU32 2⟩) ∧
    (readArrayElemIntBin trivialFloatRt true ["a", "b", "hello"]
       (encElems [(⟨tInt, 0, encodeU32 7⟩ : MElem), ⟨tString, 1, encodeU32 2⟩]) "a" =
       [.size 1, .elem 0 (numToInt trivialFloatRt
         (readNumericAt (encodeU32 7) tInt 0) 0)] ∧
     readArrayElemUIntBin trivialFloatRt true ["a", "b", "hello"]
       (encElems [(⟨tInt, 0, encodeU32 7⟩ : MElem), ⟨tString, 1, encodeU32 2⟩]) "a" =
       [.size 1, .elem 0 (numToUInt trivialFloatRt
         (readNumericAt (encodeU32 7) tInt 0) 0)] ∧
     readArrayElemFloatBin trivialFloatRt true ["a", "b", "hello"]
       (encElems [(⟨tInt, 0, encodeU32 7⟩ : MElem), ⟨tString, 1, encodeU32 2⟩]) "a" =
       [.size 1, .elem 0 (numToFloat trivialFloatRt
         (readNumericAt (encodeU32 7) tInt 0) 0)] ∧
     readArrayElemBoolBin ["a", "b", "hello"]
       (encElems [(⟨tInt, 0, encodeU32 7⟩ : MElem), ⟨tString, 1, encodeU32 2⟩]) "a" =
       [.size 1, .elem 0 (numToBool (readNumericAt (encodeU32 7) tInt 0) false)]) ∧
    readArrayElemStrBin ["a", "b", "hello"]
      (encElems [(⟨tInt, 0, encodeU32 7⟩ : MElem), ⟨tString, 1, encodeU32 2⟩]) "b" =
      [.size 1, .elem 0 ((["a", "b", "hello"] : List String).getD
        (readU32 (encodeU32 2) 0) "")] ∧
    (jsonRArrInt trivialFloatRt (.jObj [("a", .jInt 7), ("b", .jStr "hello")]) "a" =
       [.size 1, .elem 0 (jAsInt trivialFloatRt (.jInt 7))] ∧
     jsonRArrUInt trivialFloatRt (.jObj [("a", .jInt 7), ("b", .jStr "hello")]) "a" =
       [.size 1, .elem 0 (jAsUInt trivialFloatRt (.jInt 7))] ∧
     jsonRArrFloat trivialFloatRt (.jObj [("a", .jInt 7), ("b", .jStr "hello")]) "a" =
       [.size 1, .elem 0 (jAsFloatBits trivialFloatRt (.jInt 7))] ∧
     jsonRArrBool (.jObj [("a", .jInt 7), ("b", .jStr "hello")]) "a" =
       [.size 1, .elem 0 (jAsBool (.jInt 7))]) ∧
    jsonRArrStr (.jObj [("a", .jInt 7), ("b", .jStr "hello")]) "b" =
      [.size 1, .elem 0 "hello"] := by
  have hok : ∀ a ∈ [(⟨tInt, 0, encodeU32 7⟩ : MElem), ⟨tString, 1, encodeU32 2⟩],
      ElemOk a := by decide
  have hbody : ∀ a ∈ [(⟨tInt, 0, encodeU32 7⟩ : MElem), ⟨tString, 1, encodeU32 2⟩],
      BodyLenOk a := by decide
  have hma : mFind ["a", "b", "hello"] "a"
      [(⟨tInt, 0, encodeU32 7⟩ : MElem), ⟨tString, 1, encodeU32 2⟩] 0 =
      some (0, ⟨tInt, 0, encodeU32 7⟩) := by rfl
  have hmb : mFind ["a", "b", "hello"] "b"
      [(⟨tInt, 0, encodeU32 7⟩ : MElem), ⟨tString, 1, encodeU32 2⟩] 0 =
      some (10, ⟨tString, 1, encodeU32 2⟩) := by rfl
  obtain ⟨ha1, _, haj⟩ := c5_scalar_as_array trivialFloatRt true ["a", "b", "hello"]
    [(⟨tInt, 0, encodeU32 7⟩ : MElem), ⟨tString, 1, encodeU32 2⟩] "a" 0
    ⟨tInt, 0, encodeU32 7⟩ hok hbody hma
  obtain ⟨_, hb2, hbj⟩ := c5_scalar_as_array trivialFloatRt true ["a", "b", "hello"]
    [(⟨tInt, 0, encodeU32 7⟩ : MElem), ⟨tString, 1, encodeU32 2⟩] "b" 10
    ⟨tString, 1, encodeU32 2⟩ hok hbody hmb
  exact ⟨hok, hbody, hma, hmb, ha1 (Or.inl rfl), hb2 rfl,
    (haj (.jObj [("a", .jInt 7), ("b", .jStr "hello")]) (.jInt 7) rfl).1
      (Or.inl rfl),
    (hbj (.jObj [("a", .jInt 7), ("b", .jStr "hello")]) (.jStr "hello") rfl).2
      "hello" rfl⟩

/-- C10: `write_object_array` whose n entry callbacks (any n, including 0)
all write nothing emits no element: although the 10-byte header and the n
4-byte size slots were reserved during the call, the used size is rewound
to its pre-call value — the buffer keeps its pre-call length, with the
scope's prior elements of the same name nullified — and `has_member(name)`
is false afterwards. -/
theorem c10_empty_object_array (name : String) (n : Nat) (strings : List String)
    (pre : List Nat) (es : List MElem)
    (hok : ∀ e ∈ es, ElemOk e)
    (hnd : strings.Nodup)
    (hlt : ∀ e ∈ es, e.name < strings.length)
    (hcap : strings.length < 8192) :
    writeObjectArrayBin pre.length name (List.replicate n (fun _ s => s))
        ⟨strings, pre ++ encElems es⟩ =
      ⟨(mapStringToInteger strings name).2,
       pre ++ encElems (es.map (nullIf (mapStringToInteger strings name).1))⟩ ∧
    (pre ++ encElems (es.map (nullIf (mapStringToInteger strings name).1))).length =
      (pre ++ encElems es).length ∧
    hasMemberBinW pre.length name
      (writeObjectArrayBin pre.length name (List.replicate n (fun _ s => s))
        ⟨strings, pre ++ encElems es⟩) = false := by
  have hidx : (mapStringToInteger strings name).1 < 8192 := msi_idx_lt_of_len name hcap
  have hok' : ∀ e ∈ es.map (nullIf (mapStringToInteger strings name).1), ElemOk e := by
    intro e' he'
    rcases List.mem_map.mp he' with ⟨a, ha, rfl⟩
    exact nullIf_elemOk (hok a ha)
  have hmain : writeObjectArrayBin pre.length name (List.replicate n (fun _ s => s))
      ⟨strings, pre ++ encElems es⟩ =
      ⟨(mapStringToInteger strings name).2,
       pre ++ encElems (es.map (nullIf (mapStringToInteger strings name).1))⟩ := by
    unfold writeObjectArrayBin
    have hloop : objArrEntryLoop (List.replicate n (fun _ s => s))
        (⟨strings, (pre ++ encElems es) ++ List.replicate 10 0⟩ : CState) =
        ⟨strings, (pre ++ encElems es) ++ List.replicate 10 0 ++
          List.replicate (4 * n) 0⟩ :=
      objArrEntryLoop_id n ⟨strings, (pre ++ encElems es) ++ List.replicate 10 0⟩
    simp only [hloop]
    rcases hms : mapStringToInteger strings name with ⟨idx, strs⟩
    simp only [hms]
    rw [hms] at hidx
    have hmod : idx % 65536 = idx := Nat.mod_eq_of_lt (by omega)
    have hassoc : (pre ++ encElems es) ++ List.replicate 10 0 ++
        List.replicate (4 * n) 0 =
        pre ++ (encElems es ++ (List.replicate 10 0 ++ List.replicate (4 * n) 0)) := by
      simp
    have hlen : (pre ++ encElems es).length = pre.length + (encElems es).length := by
      simp
    have hnul : nullifyLoop ((pre ++ encElems es) ++ List.replicate 10 0 ++
        List.replicate (4 * n) 0) (idx % 65536) pre.length
        (pre ++ encElems es).length =
        pre ++ (encElems (es.map (nullIf idx)) ++
          (List.replicate 10 0 ++ List.replicate (4 * n) 0)) := by
      rw [hmod, hassoc, hlen]
      exact nullifyLoop_spec es pre
        (List.replicate 10 0 ++ List.replicate (4 * n) 0) idx hok
    simp only [hnul]
    have hcond : (pre ++ (encElems (es.map (nullIf idx)) ++
        (List.replicate 10 0 ++ List.replicate (4 * n) 0))).length =
        (pre ++ encElems es).length + 10 + 4 * (List.replicate n
          (fun (_ : Nat) (s : CState) => s)).length := by
      simp [encElems_map_nullIf_length]
      ring
    rw [if_pos hcond]
    have htake : (pre ++ (encElems (es.map (nullIf idx)) ++
        (List.replicate 10 0 ++ List.replicate (4 * n) 0))).take
        (pre ++ encElems es).length = pre ++ encElems (es.map (nullIf idx)) := by
      rw [← List.append_assoc, hlen,
        append2_take pre (encElems (es.map (nullIf idx))) _ _
          (by omega) (by simp [encElems_map_nullIf_length])]
      rw [Nat.add_sub_cancel_left, ← encElems_map_nullIf_length es idx,
        List.take_of_length_le (by omega)]
    simp only [htake]
  refine ⟨hmain, by simp [encElems_map_nullIf_length], ?_⟩
  rw [hmain]
  show hasMemberWLoop (mapStringToInteger strings name).2
    (pre ++ encElems (es.map (nullIf (mapStringToInteger strings name).1))) name
    pre.length
    (pre ++ encElems (es.map (nullIf (mapStringToInteger strings name).1))).length = false
  have hstop : (pre ++ encElems (es.map (nullIf (mapStringToInteger strings name).1))).length =
      pre.length +
        (encElems (es.map (nullIf (mapStringToInteger strings name).1))).length := by
    simp
  have hdec : DecodesTo
      (pre ++ encElems (es.map (nullIf (mapStringToInteger strings name).1)))
      pre.length (es.map (nullIf (mapStringToInteger strings name).1)) := by
    have := decodesTo_encode (es.map (nullIf (mapStringToInteger strings name).1))
      pre [] hok'
    simpa using this
  rw [hstop, hasMemberWLoop_spec _ _ _ _ _ hdec]
  unfold mHasLive
  rw [List.any_eq_false]
  intro e' he'
  rcases List.mem_map.mp he' with ⟨a, ha, rfl⟩
  by_cases hnm : a.name = (mapStringToInteger strings name).1
  · simp [nullIf, hnm]
  · have hgd : (mapStringToInteger strings name).2.getD a.name "" ≠ name :=
      msi_getD_ne hnd (hlt a ha) hnm
    simp [nullIf, hnm]
    intro _
    simpa [List.getD] using hgd

/-- Witness for `c10_empty_object_array` at one prior bool element "a",
table ["a"], two empty entries. -/
theorem c10_empty_object_array_witness :
    (∀ e ∈ [(⟨tBool, 0, [1]⟩ : MElem)], ElemOk e) ∧
    (["a"] : List String).Nodup ∧
    (∀ e ∈ [(⟨tBool, 0, [1]⟩ : MElem)], e.name < (["a"] : List String).length) ∧
    (["a"] : List String).length < 8192 ∧
    (writeObjectArrayBin ([] : List Nat).length "a"
        (List.replicate 2 (fun _ s => s))
        ⟨["a"], [] ++ encElems [(⟨tBool, 0, [1]⟩ : MElem)]⟩ =
      ⟨(mapStringToInteger ["a"] "a").2,
       [] ++ encElems ([(⟨tBool, 0, [1]⟩ : MElem)].map
         (nullIf (mapStringToInteger ["a"] "a").1))⟩ ∧
     ([] ++ encElems ([(⟨tBool, 0, [1]⟩ : MElem)].map
        (nullIf (mapStringToInteger ["a"] "a").1))).length =
       ([] ++ encElems [(⟨tBool, 0, [1]⟩ : MElem)]).length ∧
     hasMemberBinW ([] : List Nat).length "a"
       (writeObjectArrayBin ([] : List Nat).length "a"
         (List.replicate 2 (fun _ s => s))
         ⟨["a"], [] ++ encElems [(⟨tBool, 0, [1]⟩ : MElem)]⟩) = false) :=
  ⟨by decide, by decide, by decide, by decide,
   c10_empty_object_array "a" 2 ["a"] [] [(⟨tBool, 0, [1]⟩ : MElem)]
     (by decide) (by decide) (by decide) (by decide)⟩

/-- C4 (counterexample): the JSON reader does not follow the claimed
numeric-to-bool rule.  A stored integer −1 is non-zero, yet reading it into
a bool slot yields `false`, because `JsonReader::serialize(bool&)` tests
`value.as_float() > 0` rather than `!= 0`. -/
theorem c4_counterexample :
    jsonRBool (jsonWInt "n" (-1) .jNull) "n" true = false ∧ (-1 : Int) ≠ 0 := by
  constructor
  · rfl
  · decide

/-- C4 (amended): the widening table, slot by slot, for a stored i32/u32/f32
pattern and a stored bool, on a one-element binary scope and on a
one-member JSON tree.  int/uint/float convert by numeric cast; a bool read
into a numeric slot gives 0/1 (float slot: the pattern of 1.0f); a numeric
read into a bool slot gives `stored != 0` on the BINARY reader, but
`stored > 0` on the JSON reader (`as_float() > 0`). -/
theorem c4_widening_table (fr : FloatRt) (name : String) (b f : Nat) (bo : Bool)
    (i : Int) (vI : Int) (vU vF : Nat) (vB : Bool)
    (hb : b < 4294967296) (hf : f < 4294967296) :
    (readIntBin fr [name] (encElems [⟨tInt, 0, encodeU32 b⟩]) name vI = toI32 b ∧
     readUIntBin fr [name] (encElems [⟨tInt, 0, encodeU32 b⟩]) name vU = b ∧
     readFloatBin fr [name] (encElems [⟨tInt, 0, encodeU32 b⟩]) name vF =
       fr.i2f (toI32 b) ∧
     (readBoolBin [name] (encElems [⟨tInt, 0, encodeU32 b⟩]) name vB = false ↔ b = 0)) ∧
    (readIntBin fr [name] (encElems [⟨tUInt, 0, encodeU32 b⟩]) name vI = toI32 b ∧
     readUIntBin fr [name] (encElems [⟨tUInt, 0, encodeU32 b⟩]) name vU = b ∧
     readFloatBin fr [name] (encElems [⟨tUInt, 0, encodeU32 b⟩]) name vF = fr.i2f b ∧
     (readBoolBin [name] (encElems [⟨tUInt, 0, encodeU32 b⟩]) name vB = false ↔ b = 0)) ∧
    (readIntBin fr [name] (encElems [⟨tFloat, 0, encodeU32 f⟩]) name vI = fr.f2i f ∧
     readUIntBin fr [name] (encElems [⟨tFloat, 0, encodeU32 f⟩]) name vU = fr.f2u f ∧
     readFloatBin fr [name] (encElems [⟨tFloat, 0, encodeU32 f⟩]) name vF = f ∧
     (readBoolBin [name] (encElems [⟨tFloat, 0, encodeU32 f⟩]) name vB = false ↔
       f % 2147483648 = 0)) ∧
    (readIntBin fr [name] (encElems [⟨tBool, 0, [if bo then 1 else 0]⟩]) name vI =
       (if bo then 1 else 0) ∧
     readUIntBin fr [name] (encElems [⟨tBool, 0, [if bo then 1 else 0]⟩]) name vU =
       (if bo then 1 else 0) ∧
     readFloatBin fr [name] (encElems [⟨tBool, 0, [if bo then 1 else 0]⟩]) name vF =
       (if bo then floatOneBits else 0) ∧
     readBoolBin [name] (encElems [⟨tBool, 0, [if bo then 1 else 0]⟩]) name vB = bo) ∧
    (jsonRInt fr (jsonWInt name i .jNull) name vI = toI32 (toU32 i) ∧
     jsonRUInt fr (jsonWInt name i .jNull) name vU = toU32 i ∧
     jsonRFloat fr (jsonWInt name i .jNull) name vF = fr.i2f i ∧
     (jsonRBool (jsonWInt name i .jNull) name vB = true ↔ 0 < i)) ∧
    (jsonRInt fr (jsonWFloat name f .jNull) name vI = fr.f2i f ∧
     jsonRUInt fr (jsonWFloat name f .jNull) name vU = fr.f2u f ∧
     jsonRFloat fr (jsonWFloat name f .jNull) name vF = f ∧
     jsonRBool (jsonWFloat name f .jNull) name vB =
       (f / 2147483648 % 2 == 0 && f % 2147483648 ≠ 0 && !floatIsNaN f)) ∧
    (jsonRInt fr (jsonWBool name bo .jNull) name vI = (if bo then 1 else 0) ∧
     jsonRUInt fr (jsonWBool name bo .jNull) name vU = (if bo then 1 else 0) ∧
     jsonRFloat fr (jsonWBool name bo .jNull) name vF =
       (if bo then floatOneBits else 0) ∧
     jsonRBool (jsonWBool name bo .jNull) name vB = bo) := by
  have hru : readU32 (encodeU32 b) 0 = b := by
    have h := readU32_encode [] [] b
    simpa [Nat.mod_eq_of_lt hb] using h
  have hruf : readU32 (encodeU32 f) 0 = f := by
    have h := readU32_encode [] [] f
    simpa [Nat.mod_eq_of_lt hf] using h
  have hok4 : ∀ t, t < 8 → ∀ x, ElemOk ⟨t, 0, encodeU32 x⟩ := by
    intro t ht x
    exact ⟨ht, by show (0 : Nat) < 8192; decide, by simp [encodeU32]⟩
  have hbl4 : ∀ t x, BodyLenOk ⟨t, 0, encodeU32 x⟩ := by
    intro t x
    exact ⟨fun _ => by simp [encodeU32], fun _ => by simp [encodeU32]⟩
  have hokB : ElemOk ⟨tBool, 0, [if bo then 1 else 0]⟩ := by
    refine ⟨by show tBool < 8; decide, by show (0 : Nat) < 8192; decide, ?_⟩
    show ([if bo then 1 else 0] : List Nat).length < 4294967296
    simp
  have hblB : BodyLenOk ⟨tBool, 0, [if bo then 1 else 0]⟩ := by
    constructor
    · intro h
      have h2 : tBool = tInt ∨ tBool = tUInt ∨ tBool = tFloat ∨ tBool = tString := h
      exact absurd h2 (by decide)
    · intro _
      show 1 ≤ ([if bo then 1 else 0] : List Nat).length
      simp
  refine ⟨⟨?_, ?_, ?_, ?_⟩, ⟨?_, ?_, ?_, ?_⟩, ⟨?_, ?_, ?_, ?_⟩, ⟨?_, ?_, ?_, ?_⟩,
    ⟨?_, ?_, ?_, ?_⟩, ⟨?_, ?_, ?_, ?_⟩, ⟨?_, ?_, ?_, ?_⟩⟩
  · rw [readIntBin_single fr name tInt _ vI (hok4 tInt (by decide) b) (hbl4 tInt b)]
    simp [readNumericAt, numToInt, hru, tInt]
  · rw [readUIntBin_single fr name tInt _ vU (hok4 tInt (by decide) b) (hbl4 tInt b)]
    simp [readNumericAt, numToUInt, hru, tInt, Nat.mod_eq_of_lt hb]
  · rw [readFloatBin_single fr name tInt _ vF (hok4 tInt (by decide) b) (hbl4 tInt b)]
    simp [readNumericAt, numToFloat, hru, tInt]
  · rw [readBoolBin_single name tInt _ vB (hok4 tInt (by decide) b) (hbl4 tInt b)]
    simp [readNumericAt, numToBool, hru, tInt, Nat.mod_eq_of_lt hb]
  · rw [readIntBin_single fr name tUInt _ vI (hok4 tUInt (by decide) b) (hbl4 tUInt b)]
    simp [readNumericAt, numToInt, hru, tUInt, tInt]
  · rw [readUIntBin_single fr name tUInt _ vU (hok4 tUInt (by decide) b) (hbl4 tUInt b)]
    simp [readNumericAt, numToUInt, hru, tUInt, tInt, Nat.mod_eq_of_lt hb]
  · rw [readFloatBin_single fr name tUInt _ vF (hok4 tUInt (by decide) b) (hbl4 tUInt b)]
    simp [readNumericAt, numToFloat, hru, tUInt, tInt]
    congr 1
    omega
  · rw [readBoolBin_single name tUInt _ vB (hok4 tUInt (by decide) b) (hbl4 tUInt b)]
    simp [readNumericAt, numToBool, hru, tUInt, tInt, Nat.mod_eq_of_lt hb]
  · rw [readIntBin_single fr name tFloat _ vI (hok4 tFloat (by decide) f) (hbl4 tFloat f)]
    simp [readNumericAt, numToInt, hruf, tFloat, tUInt, tInt]
  · rw [readUIntBin_single fr name tFloat _ vU (hok4 tFloat (by decide) f) (hbl4 tFloat f)]
    simp [readNumericAt, numToUInt, hruf, tFloat, tUInt, tInt]
  · rw [readFloatBin_single fr name tFloat _ vF (hok4 tFloat (by decide) f) (hbl4 tFloat f)]
    simp [readNumericAt, numToFloat, hruf, tFloat, tUInt, tInt, Nat.mod_eq_of_lt hf]
  · rw [readBoolBin_single name tFloat _ vB (hok4 tFloat (by decide) f) (hbl4 tFloat f)]
    simp [readNumericAt, numToBool, hruf, tFloat, tUInt, tInt]
  · rw [readIntBin_single fr name tBool _ vI hokB hblB]
    cases bo <;> simp [readNumericAt, numToInt, byteGet, tBool, tFloat, tUInt, tInt]
  · rw [readUIntBin_single fr name tBool _ vU hokB hblB]
    cases bo <;> simp [readNumericAt, numToUInt, byteGet, tBool, tFloat, tUInt, tInt]
  · rw [readFloatBin_single fr name tBool _ vF hokB hblB]
    cases bo <;> simp [readNumericAt, numToFloat, byteGet, tBool, tFloat, tUInt, tInt]
  · rw [readBoolBin_single name tBool _ vB hokB hblB]
    cases bo <;> simp [readNumericAt, numToBool, byteGet, tBool, tFloat, tUInt, tInt]
  · simp [jsonRInt, jsonWInt, jsonSet, jsonGet, assocGet, jIsNumeric, jAsInt]
  · simp [jsonRUInt, jsonWInt, jsonSet, jsonGet, assocGet, jIsNumeric, jAsUInt]
  · simp [jsonRFloat, jsonWInt, jsonSet, jsonGet, assocGet, jIsNumeric, jAsFloatBits]
  · simp [jsonRBool, jsonWInt, jsonSet, jsonGet, assocGet, jIsNumeric, jIsBool, jGtZero]
  · simp [jsonRInt, jsonWFloat, jsonSet, jsonGet, assocGet, jIsNumeric, jAsInt]
  · simp [jsonRUInt, jsonWFloat, jsonSet, jsonGet, assocGet, jIsNumeric, jAsUInt]
  · simp [jsonRFloat, jsonWFloat, jsonSet, jsonGet, assocGet, jIsNumeric, jAsFloatBits]
  · simp [jsonRBool, jsonWFloat, jsonSet, jsonGet, assocGet, jIsNumeric, jIsBool, jGtZero]
  · simp [jsonRInt, jsonWBool, jsonSet, jsonGet, assocGet, jIsNumeric, jIsBool, jAsBool]
  · simp [jsonRUInt, jsonWBool, jsonSet, jsonGet, assocGet, jIsNumeric, jIsBool, jAsBool]
  · simp [jsonRFloat, jsonWBool, jsonSet, jsonGet, assocGet, jIsNumeric, jIsBool, jAsBool]
  · simp [jsonRBool, jsonWBool, jsonSet, jsonGet, assocGet, jIsBool, jAsBool]

/-- Witness for `c4_widening_table` at name "x", b = 3, f = 5, bo = true,
i = −2, defaults 0/false, with the trivial float runtime. -/
theorem c4_widening_table_witness :
    (3 : Nat) < 4294967296 ∧ (5 : Nat) < 4294967296 ∧
    (readIntBin trivialFloatRt ["x"] (encElems [⟨tInt, 0, encodeU32 3⟩]) "x" 0 =
      toI32 3 ∧
     readUIntBin trivialFloatRt ["x"] (encElems [⟨tInt, 0, encodeU32 3⟩]) "x" 0 = 3 ∧
     readFloatBin trivialFloatRt ["x"] (encElems [⟨tInt, 0, encodeU32 3⟩]) "x" 0 =
       trivialFloatRt.i2f (toI32 3) ∧
     (readBoolBin ["x"] (encElems [⟨tInt, 0, encodeU32 3⟩]) "x" false = false ↔
       (3 : Nat) = 0)) ∧
    (readIntBin trivialFloatRt ["x"] (encElems [⟨tUInt, 0, encodeU32 3⟩]) "x" 0 =
      toI32 3 ∧
     readUIntBin trivialFloatRt ["x"] (encElems [⟨tUInt, 0, encodeU32 3⟩]) "x" 0 = 3 ∧
     readFloatBin trivialFloatRt ["x"] (encElems [⟨tUInt, 0, encodeU32 3⟩]) "x" 0 =
       trivialFloatRt.i2f 3 ∧
     (readBoolBin ["x"] (encElems [⟨tUInt, 0, encodeU32 3⟩]) "x" false = false ↔
       (3 : Nat) = 0)) ∧
    (readIntBin trivialFloatRt ["x"] (encElems [⟨tFloat, 0, encodeU32 5⟩]) "x" 0 =
      trivialFloatRt.f2i 5 ∧
     readUIntBin trivialFloatRt ["x"] (encElems [⟨tFloat, 0, encodeU32 5⟩]) "x" 0 =
       trivialFloatRt.f2u 5 ∧
     readFloatBin trivialFloatRt ["x"] (encElems [⟨tFloat, 0, encodeU32 5⟩]) "x" 0 = 5 ∧
     (readBoolBin ["x"] (encElems [⟨tFloat, 0, encodeU32 5⟩]) "x" false = false ↔
       (5 : Nat) % 2147483648 = 0)) ∧
    (readIntBin trivialFloatRt ["x"] (encElems [⟨tBool, 0, [if true then 1 else 0]⟩])
       "x" 0 = (if true then 1 else 0) ∧
     readUIntBin trivialFloatRt ["x"] (encElems [⟨tBool, 0, [if true then 1 else 0]⟩])
       "x" 0 = (if true then 1 else 0) ∧
     readFloatBin trivialFloatRt ["x"] (encElems [⟨tBool, 0, [if true then 1 else 0]⟩])
       "x" 0 = (if true then floatOneBits else 0) ∧
     readBoolBin ["x"] (encElems [⟨tBool, 0, [if true then 1 else 0]⟩]) "x" false =
       true) ∧
    (jsonRInt trivialFloatRt (jsonWInt "x" (-2) .jNull) "x" 0 = toI32 (toU32 (-2)) ∧
     jsonRUInt trivialFloatRt (jsonWInt "x" (-2) .jNull) "x" 0 = toU32 (-2) ∧
     jsonRFloat trivialFloatRt (jsonWInt "x" (-2) .jNull) "x" 0 =
       trivialFloatRt.i2f (-2) ∧
     (jsonRBool (jsonWInt "x" (-2) .jNull) "x" false = true ↔ (0 : Int) < -2)) ∧
    (jsonRInt trivialFloatRt (jsonWFloat "x" 5 .jNull) "x" 0 = trivialFloatRt.f2i 5 ∧
     jsonRUInt trivialFloatRt (jsonWFloat "x" 5 .jNull) "x" 0 = trivialFloatRt.f2u 5 ∧
     jsonRFloat trivialFloatRt (jsonWFloat "x" 5 .jNull) "x" 0 = 5 ∧
     jsonRBool (jsonWFloat "x" 5 .jNull) "x" false =
       ((5 : Nat) / 2147483648 % 2 == 0 && (5 : Nat) % 2147483648 ≠ 0 &&
         !floatIsNaN 5)) ∧
    (jsonRInt trivialFloatRt (jsonWBool "x" true .jNull) "x" 0 =
       (if true then 1 else 0) ∧
     jsonRUInt trivialFloatRt (jsonWBool "x" true .jNull) "x" 0 =
       (if true then 1 else 0) ∧
     jsonRFloat trivialFloatRt (jsonWBool "x" true .jNull) "x" 0 =
       (if true then floatOneBits else 0) ∧
     jsonRBool (jsonWBool "x" true .jNull) "x" false = true) :=
  ⟨by decide, by decide,
   c4_widening_table trivialFloatRt "x" 3 5 true (-2) 0 0 0 false
     (by decide) (by decide)⟩

/-- C6 (counterexample): the JSON reader's byte-string read does NOT leave
the slot untouched when the member is an object: it guards only on
`!is_null()` and assigns `value.as_c_string()`.  For the member `{"a": {}}`
the result is independent of the prior slot value (it is `as_c_string` of
the member for every external behavior), so the slot cannot have kept its
prior value. -/
theorem c6_counterexample :
    (∀ ext, jsonRStr ext (.jObj [("a", .jObj [])]) "a" "x" =
      jsonRStr ext (.jObj [("a", .jObj [])]) "a" "y") ∧
    (∀ ext, jsonRStr ext (.jObj [("a", .jObj [])]) "a" "x" = ext (.jObj [])) ∧
    "x" ≠ "y" :=
  ⟨fun _ => rfl, fun _ => rfl, by decide⟩

/-- C6 (amended): a scalar read leaves the caller's slot exactly as it was
when the requested name is absent, or the element (member) found is an
object or an array — for all five slot types on the binary reader, and for
the four numeric/bool slots on the JSON reader.  The JSON byte-string slot
is untouched only for a null (or absent) member; an object/array member is
assigned `as_c_string()` of the member (external behavior `ext`). -/
theorem c6_untouched_slot (ext : JVal → String) (fr : FloatRt)
    (strings : List String) (es : List MElem)
    (name : String) (vI : Int) (vU vF : Nat) (vB : Bool) (vS : String) (root : JVal)
    (hok : ∀ e ∈ es, ElemOk e) (hbody : ∀ e ∈ es, BodyLenOk e) :
    (mFind strings name es 0 = none →
      readIntBin fr strings (encElems es) name vI = vI ∧
      readUIntBin fr strings (encElems es) name vU = vU ∧
      readFloatBin fr strings (encElems es) name vF = vF ∧
      readBoolBin strings (encElems es) name vB = vB ∧
      readStrBin strings (encElems es) name vS = vS) ∧
    (∀ off e, mFind strings name es 0 = some (off, e) →
      e.type = tObject ∨ e.type = tArray →
      readIntBin fr strings (encElems es) name vI = vI ∧
      readUIntBin fr strings (encElems es) name vU = vU ∧
      readFloatBin fr strings (encElems es) name vF = vF ∧
      readBoolBin strings (encElems es) name vB = vB ∧
      readStrBin strings (encElems es) name vS = vS) ∧
    (jsonGet root name = .jNull →
      jsonRInt fr root name vI = vI ∧
      jsonRUInt fr root name vU = vU ∧
      jsonRFloat fr root name vF = vF ∧
      jsonRBool root name vB = vB ∧
      jsonRStr ext root name vS = vS) ∧
    ((∃ m, jsonGet root name = .jObj m) ∨ (∃ l, jsonGet root name = .jArr l) →
      jsonRInt fr root name vI = vI ∧
      jsonRUInt fr root name vU = vU ∧
      jsonRFloat fr root name vF = vF ∧
      jsonRBool root name vB = vB ∧
      jsonRStr ext root name vS = ext (jsonGet root name)) := by
  refine ⟨?_, ?_, ?_, ?_⟩
  · intro h
    refine ⟨?_, ?_, ?_, ?_, ?_⟩
    · rw [readIntBin_spec fr strings es name vI hok hbody, h]
    · rw [readUIntBin_spec fr strings es name vU hok hbody, h]
    · rw [readFloatBin_spec fr strings es name vF hok hbody, h]
    · rw [readBoolBin_spec strings es name vB hok hbody, h]
    · unfold readStrBin
      rw [findElem_spec strings name es hok, h]
      rfl
  · intro off e hm ht
    have hnone : readNumericAt e.body e.type 0 = .nNone := by
      rcases ht with ht | ht <;>
        simp [readNumericAt, ht, tObject, tArray, tInt, tUInt, tFloat, tBool]
    refine ⟨?_, ?_, ?_, ?_, ?_⟩
    · rw [readIntBin_spec fr strings es name vI hok hbody, hm]
      show numToInt fr (readNumericAt e.body e.type 0) vI = vI
      rw [hnone]
      rfl
    · rw [readUIntBin_spec fr strings es name vU hok hbody, hm]
      show numToUInt fr (readNumericAt e.body e.type 0) vU = vU
      rw [hnone]
      rfl
    · rw [readFloatBin_spec fr strings es name vF hok hbody, hm]
      show numToFloat fr (readNumericAt e.body e.type 0) vF = vF
      rw [hnone]
      rfl
    · rw [readBoolBin_spec strings es name vB hok hbody, hm]
      show numToBool (readNumericAt e.body e.type 0) vB = vB
      rw [hnone]
      rfl
    · unfold readStrBin
      rw [findElem_spec strings name es hok, hm]
      simp only [Option.map_some']
      have hd : DecodesTo (encElems es) 0 es := by
        have := decodesTo_encode es [] [] hok
        simpa using this
      have hty := (mFind_decodes hd hm).1
      rw [hty, if_neg (by rcases ht with ht | ht <;>
        simp [ht, tObject, tArray, tString])]
  · intro h
    exact ⟨by simp [jsonRInt, h, jIsNumeric, jIsBool],
      by simp [jsonRUInt, h, jIsNumeric, jIsBool],
      by simp [jsonRFloat, h, jIsNumeric, jIsBool],
      by simp [jsonRBool, h, jIsNumeric, jIsBool],
      by simp [jsonRStr, h]⟩
  · intro h
    rcases h with ⟨m, h⟩ | ⟨l, h⟩ <;>
      exact ⟨by simp [jsonRInt, h, jIsNumeric, jIsBool],
        by simp [jsonRUInt, h, jIsNumeric, jIsBool],
        by simp [jsonRFloat, h, jIsNumeric, jIsBool],
        by simp [jsonRBool, h, jIsNumeric, jIsBool],
        by simp [jsonRStr, h]⟩

/-- Witness for `c6_untouched_slot`: scope [int "b" = 7, object "o"], tree
with members "b" and "o"; the name "a" is missing, "o" is an object; the
JSON string slot for "o" receives the external `as_c_string` result. -/
theorem c6_untouched_slot_witness :
    (∀ e ∈ [(⟨tInt, 0, encodeU32 7⟩ : MElem), ⟨tObject, 1, []⟩], ElemOk e) ∧
    (∀ e ∈ [(⟨tInt, 0, encodeU32 7⟩ : MElem), ⟨tObject, 1, []⟩], BodyLenOk e) ∧
    mFind ["b", "o"] "a" [(⟨tInt, 0, encodeU32 7⟩ : MElem), ⟨tObject, 1, []⟩] 0 =
      none ∧
    mFind ["b", "o"] "o" [(⟨tInt, 0, encodeU32 7⟩ : MElem), ⟨tObject, 1, []⟩] 0 =
      some (10, ⟨tObject, 1, []⟩) ∧
    jsonGet (.jObj [("b", .jInt 7), ("o", .jObj [])]) "a" = .jNull ∧
    jsonGet (.jObj [("b", .jInt 7), ("o", .jObj [])]) "o" = .jObj [] ∧
    (readIntBin trivialFloatRt ["b", "o"]
       (encElems [(⟨tInt, 0, encodeU32 7⟩ : MElem), ⟨tObject, 1, []⟩]) "a" 9 = 9 ∧
     readUIntBin trivialFloatRt ["b", "o"]
       (encElems [(⟨tInt, 0, encodeU32 7⟩ : MElem), ⟨tObject, 1, []⟩]) "a" 9 = 9 ∧
     readFloatBin trivialFloatRt ["b", "o"]
       (encElems [(⟨tInt, 0, encodeU32 7⟩ : MElem), ⟨tObject, 1, []⟩]) "a" 9 = 9 ∧
     readBoolBin ["b", "o"]
       (encElems [(⟨tInt, 0, encodeU32 7⟩ : MElem), ⟨tObject, 1, []⟩]) "a" true = true ∧
     readStrBin ["b", "o"]
       (encElems [(⟨tInt, 0, encodeU32 7⟩ : MElem), ⟨tObject, 1, []⟩]) "a" "d" = "d") ∧
    (readIntBin trivialFloatRt ["b", "o"]
       (encElems [(⟨tInt, 0, encodeU32 7⟩ : MElem), ⟨tObject, 1, []⟩]) "o" 9 = 9 ∧
     readUIntBin trivialFloatRt ["b", "o"]
       (encElems [(⟨tInt, 0, encodeU32 7⟩ : MElem), ⟨tObject, 1, []⟩]) "o" 9 = 9 ∧
     readFloatBin trivialFloatRt ["b", "o"]
       (encElems [(⟨tInt, 0, encodeU32 7⟩ : MElem), ⟨tObject, 1, []⟩]) "o" 9 = 9 ∧
     readBoolBin ["b", "o"]
       (encElems [(⟨tInt, 0, encodeU32 7⟩ : MElem), ⟨tObject, 1, []⟩]) "o" true = true ∧
     readStrBin ["b", "o"]
       (encElems [(⟨tInt, 0, encodeU32 7⟩ : MElem), ⟨tObject, 1, []⟩]) "o" "d" = "d") ∧
    (jsonRInt trivialFloatRt (.jObj [("b", .jInt 7), ("o", .jObj [])]) "a" 9 = 9 ∧
     jsonRUInt trivialFloatRt (.jObj [("b", .jInt 7), ("o", .jObj [])]) "a" 9 = 9 ∧
     jsonRFloat trivialFloatRt (.jObj [("b", .jInt 7), ("o", .jObj [])]) "a" 9 = 9 ∧
     jsonRBool (.jObj [("b", .jInt 7), ("o", .jObj [])]) "a" true = true ∧
     jsonRStr (fun _ => "E") (.jObj [("b", .jInt 7), ("o", .jObj [])]) "a" "d" = "d") ∧
    (jsonRInt trivialFloatRt (.jObj [("b", .jInt 7), ("o", .jObj [])]) "o" 9 = 9 ∧
     jsonRUInt trivialFloatRt (.jObj [("b", .jInt 7), ("o", .jObj [])]) "o" 9 = 9 ∧
     jsonRFloat trivialFloatRt (.jObj [("b", .jInt 7), ("o", .jObj [])]) "o" 9 = 9 ∧
     jsonRBool (.jObj [("b", .jInt 7), ("o", .jObj [])]) "o" true = true ∧
     jsonRStr (fun _ => "E") (.jObj [("b", .jInt 7), ("o", .jObj [])]) "o" "d" =
       "E") := by
  have hok : ∀ e ∈ [(⟨tInt, 0, encodeU32 7⟩ : MElem), ⟨tObject, 1, []⟩], ElemOk e := by
    decide
  have hbody : ∀ e ∈ [(⟨tInt, 0, encodeU32 7⟩ : MElem), ⟨tObject, 1, []⟩],
      BodyLenOk e := by decide
  have hma : mFind ["b", "o"] "a"
      [(⟨tInt, 0, encodeU32 7⟩ : MElem), ⟨tObject, 1, []⟩] 0 = none := by rfl
  have hmo : mFind ["b", "o"] "o"
      [(⟨tInt, 0, encodeU32 7⟩ : MElem), ⟨tObject, 1, []⟩] 0 =
      some (10, ⟨tObject, 1, []⟩) := by rfl
  have hja : jsonGet (.jObj [("b", .jInt 7), ("o", .jObj [])]) "a" = .jNull := by rfl
  have hjo : jsonGet (.jObj [("b", .jInt 7), ("o", .jObj [])]) "o" = .jObj [] := by
    rfl
  obtain ⟨h1a, h2a, h3a, h4a⟩ := c6_untouched_slot (fun _ => "E") trivialFloatRt
    ["b", "o"] [(⟨tInt, 0, encodeU32 7⟩ : MElem), ⟨tObject, 1, []⟩] "a" 9 9 9 true "d"
    (.jObj [("b", .jInt 7), ("o", .jObj [])]) hok hbody
  obtain ⟨h1o, h2o, h3o, h4o⟩ := c6_untouched_slot (fun _ => "E") trivialFloatRt
    ["b", "o"] [(⟨tInt, 0, encodeU32 7⟩ : MElem), ⟨tObject, 1, []⟩] "o" 9 9 9 true "d"
    (.jObj [("b", .jInt 7), ("o", .jObj [])]) hok hbody
  have h4o2 := h4o (Or.inl ⟨[], hjo⟩)
  refine ⟨hok, hbody, hma, hmo, hja, hjo, h1a hma,
    h2o 10 ⟨tObject, 1, []⟩ hmo (Or.inl rfl), h3a hja, ?_⟩
  refine ⟨h4o2.1, h4o2.2.1, h4o2.2.2.1, h4o2.2.2.2.1, ?_⟩
  exact h4o2.2.2.2.2

/-! # Claim C1: the round trip over nested scopes

`FOp` is one write call of an object scope: the five scalar overloads, the
five primitive-array overloads, and `serialize(name, user_data,
SerializeObjFn)` whose callback replays a nested list of writes.  Object
arrays are excluded (`c1_counterexample`). -/

inductive FOp where
  | fInt (name : String) (v : Int)
  | fUInt (name : String) (v : Nat)
  | fFloat (name : String) (bits : Nat)
  | fBool (name : String) (b : Bool)
  | fStr (name : String) (s : String)
  | fArrInt (name : String) (xs : List Int)
  | fArrUInt (name : String) (xs : List Nat)
  | fArrFloat (name : String) (xs : List Nat)
  | fArrBool (name : String) (xs : List Bool)
  | fArrStr (name : String) (xs : List String)
  | fObj (name : String) (fields : List FOp)

def fName : FOp → String
  | .fInt n _ => n
  | .fUInt n _ => n
  | .fFloat n _ => n
  | .fBool n _ => n
  | .fStr n _ => n
  | .fArrInt n _ => n
  | .fArrUInt n _ => n
  | .fArrFloat n _ => n
  | .fArrBool n _ => n
  | .fArrStr n _ => n
  | .fObj n _ => n

mutual
/-- Structure size, for fuelled joint inductions over `FOp`/`List FOp`. -/
def fSize : FOp → Nat
  | .fObj _ fields => 1 + fSizeList fields
  | _ => 1
def fSizeList : List FOp → Nat
  | [] => 0
  | op :: rest => 1 + fSize op + fSizeList rest
end

mutual
/-- The bytes the call's element occupies in the binary stream
(header + body). -/
def fLen : FOp → Nat
  | .fInt _ _ => 10
  | .fUInt _ _ => 10
  | .fFloat _ _ => 10
  | .fBool _ _ => 7
  | .fStr _ _ => 10
  | .fArrInt _ xs => 10 + 4 * xs.length
  | .fArrUInt _ xs => 10 + 4 * xs.length
  | .fArrFloat _ xs => 10 + 4 * xs.length
  | .fArrBool _ xs => 10 + xs.length
  | .fArrStr _ xs => 10 + 4 * xs.length
  | .fObj _ fields => 6 + fLenList fields
def fLenList : List FOp → Nat
  | [] => 0
  | op :: rest => fLen op + fLenList rest
end

mutual
/-- Well-formed write sequences: values within the persisted widths, array
counts within the 29-bit `m_element_num` field, nested objects non-empty
(an empty one is elided, claim C7) with bodies within the 32-bit `m_size`
field, and pairwise-distinct names within each scope. -/
def fGood : FOp → Bool
  | .fInt _ v => decide (-2147483648 ≤ v) && decide (v < 2147483648)
  | .fUInt _ v => decide (v < 4294967296)
  | .fFloat _ bits => decide (bits < 4294967296)
  | .fBool _ _ => true
  | .fStr _ _ => true
  | .fArrInt _ xs => decide (xs.length < 536870912) &&
      xs.all fun v => decide (-2147483648 ≤ v) && decide (v < 2147483648)
  | .fArrUInt _ xs => decide (xs.length < 536870912) &&
      xs.all fun v => decide (v < 4294967296)
  | .fArrFloat _ xs => decide (xs.length < 536870912) &&
      xs.all fun v => decide (v < 4294967296)
  | .fArrBool _ xs => decide (xs.length < 536870912)
  | .fArrStr _ xs => decide (xs.length < 536870912)
  | .fObj _ fields => !fields.isEmpty && decide (fLenList fields < 4294967296) &&
      fGoodList fields
def fGoodList : List FOp → Bool
  | [] => true
  | op :: rest => fGood op && fGoodList rest && decide (fName op ∉ rest.map fName)
end

mutual
/-- The strings a call interns, in interning order (a string-array call
interns its name first, then its values; a nested object interns its fields'
strings first, then its own name). -/
def fStrs : FOp → List String
  | .fInt n _ => [n]
  | .fUInt n _ => [n]
  | .fFloat n _ => [n]
  | .fBool n _ => [n]
  | .fStr n s => [s, n]
  | .fArrInt n _ => [n]
  | .fArrUInt n _ => [n]
  | .fArrFloat n _ => [n]
  | .fArrBool n _ => [n]
  | .fArrStr n xs => n :: xs
  | .fObj n fields => fStrsList fields ++ [n]
def fStrsList : List FOp → List String
  | [] => []
  | op :: rest => fStrs op ++ fStrsList rest
end

mutual
/-- Replay on the binary writer (each call sees the scope start and the
shared container, exactly as a `Serializer&` callback chain does). -/
def applyFOp (start : Nat) (op : FOp) (st : CState) : CState :=
  match op with
  | .fInt n v => serializeIntBin start n v st
  | .fUInt n v => serializeUIntBin start n v st
  | .fFloat n bits => serializeFloatBin start n bits st
  | .fBool n b => serializeBoolBin start n b st
  | .fStr n s => serializeStrBin start n s st
  | .fArrInt n xs => serializeArrIntBin start n xs st
  | .fArrUInt n xs => serializeArrUIntBin start n xs st
  | .fArrFloat n xs => serializeArrFloatBin start n xs st
  | .fArrBool n xs => serializeArrBoolBin start n xs st
  | .fArrStr n xs => serializeArrStrBin start n xs st
  | .fObj n fields => serializeObjectBin start n (fun off st2 => applyFOps fields off st2) st
def applyFOps (ops : List FOp) (start : Nat) (st : CState) : CState :=
  match ops with
  | [] => st
  | op :: rest => applyFOps rest start (applyFOp start op st)
end

mutual
/-- The decoded element a call emits, with the string table it leaves
behind. -/
def fElemOf (tbl : List String) : FOp → MElem × List String
  | .fInt n v =>
    (⟨tInt, (mapStringToInteger tbl n).1, encodeU32 (toU32 v)⟩,
     (mapStringToInteger tbl n).2)
  | .fUInt n v =>
    (⟨tUInt, (mapStringToInteger tbl n).1, encodeU32 (v % 4294967296)⟩,
     (mapStringToInteger tbl n).2)
  | .fFloat n bits =>
    (⟨tFloat, (mapStringToInteger tbl n).1, encodeU32 (bits % 4294967296)⟩,
     (mapStringToInteger tbl n).2)
  | .fBool n b =>
    (⟨tBool, (mapStringToInteger tbl n).1, [if b then 1 else 0]⟩,
     (mapStringToInteger tbl n).2)
  | .fStr n s =>
    (⟨tString, (mapStringToInteger (mapStringToInteger tbl s).2 n).1,
       encodeU32 (mapStringToInteger tbl s).1⟩,
     (mapStringToInteger (mapStringToInteger tbl s).2 n).2)
  | .fArrInt n xs =>
    (⟨tArray, (mapStringToInteger tbl n).1,
       encodeAH tInt xs.length ++ (xs.map fun i => encodeU32 (toU32 i)).flatten⟩,
     (mapStringToInteger tbl n).2)
  | .fArrUInt n xs =>
    (⟨tArray, (mapStringToInteger tbl n).1,
       encodeAH tUInt xs.length ++ (xs.map fun u => encodeU32 (u % 4294967296)).flatten⟩,
     (mapStringToInteger tbl n).2)
  | .fArrFloat n xs =>
    (⟨tArray, (mapStringToInteger tbl n).1,
       encodeAH tFloat xs.length ++ (xs.map fun f => encodeU32 (f % 4294967296)).flatten⟩,
     (mapStringToInteger tbl n).2)
  | .fArrBool n xs =>
    (⟨tArray, (mapStringToInteger tbl n).1,
       encodeAH tBool xs.length ++ xs.map fun b => if b then 1 else 0⟩,
     (mapStringToInteger tbl n).2)
  | .fArrStr n xs =>
    (⟨tArray, (mapStringToInteger tbl n).1,
       encodeAH tString xs.length ++
         ((internMany (mapStringToInteger tbl n).2 xs).1.map encodeU32).flatten⟩,
     (internMany (mapStringToInteger tbl n).2 xs).2)
  | .fObj n fields =>
    (⟨tObject, (mapStringToInteger (fElemsOf tbl fields).2 n).1,
       encElems (fElemsOf tbl fields).1⟩,
     (mapStringToInteger (fElemsOf tbl fields).2 n).2)
def fElemsOf (tbl : List String) : List FOp → List MElem × List String
  | [] => ([], tbl)
  | op :: rest =>
    ((fElemOf tbl op).1 :: (fElemsOf (fElemOf tbl op).2 rest).1,
     (fElemsOf (fElemOf tbl op).2 rest).2)
end

/-- `BinaryReader::serialize(name, user_data, SerializeObjFn)`: on a found
Object-typed element the callback runs on a sub-reader over the element's
body slice; otherwise nothing happens. -/
def readObjectBin (strings : List String) (buf : List Nat) (name : String)
    (fn : List Nat → α → α) (a : α) : α :=
  match findElem strings buf name with
  | none => a
  | some off => if ehType buf off = tObject then fn (subSlice buf off) a else a

mutual
/-- Every call of the sequence reads back from the binary stream: scalars
return the written value for any prior slot value, arrays replay
`set_size`/`set_element` (or `set_all`) calls that rebuild exactly the
written list from any prior adapter state, and a nested object is found,
Object-typed, and its body slice reads back all nested fields. -/
def readsBackF (fr : FloatRt) (strings : List String) (buf : List Nat) : FOp → Prop
  | .fInt n v => ∀ d, readIntBin fr strings buf n d = v
  | .fUInt n v => ∀ d, readUIntBin fr strings buf n d = v
  | .fFloat n bits => ∀ d, readFloatBin fr strings buf n d = bits
  | .fBool n b => ∀ d, readBoolBin strings buf n d = b
  | .fStr n s => ∀ d, readStrBin strings buf n d = s
  | .fArrInt n xs => ∀ bulk prior,
      applyACalls 0 (readArrayElemIntBin fr bulk strings buf n) prior = xs
  | .fArrUInt n xs => ∀ bulk prior,
      applyACalls 0 (readArrayElemUIntBin fr bulk strings buf n) prior = xs
  | .fArrFloat n xs => ∀ bulk prior,
      applyACalls 0 (readArrayElemFloatBin fr bulk strings buf n) prior = xs
  | .fArrBool n xs => ∀ prior,
      applyACalls false (readArrayElemBoolBin strings buf n) prior = xs
  | .fArrStr n xs => ∀ prior,
      applyACalls "" (readArrayElemStrBin strings buf n) prior = xs
  | .fObj n fields =>
      readObjectBin strings buf n (fun sub _ => readsBackFs fr strings sub fields) False
def readsBackFs (fr : FloatRt) (strings : List String) (buf : List Nat) : List FOp → Prop
  | [] => True
  | op :: rest => readsBackF fr strings buf op ∧ readsBackFs fr strings buf rest
end

/-! ### The JSON side -/

mutual
def jFOf : FOp → JVal → JVal
  | .fInt n v => jsonWInt n v
  | .fUInt n v => jsonWUInt n v
  | .fFloat n bits => jsonWFloat n bits
  | .fBool n b => jsonWBool n b
  | .fStr n s => jsonWStr n s
  | .fArrInt n xs => jsonWArrInt n xs
  | .fArrUInt n xs => jsonWArrUInt n xs
  | .fArrFloat n xs => jsonWArrFloat n xs
  | .fArrBool n xs => jsonWArrBool n xs
  | .fArrStr n xs => jsonWArrStr n xs
  | .fObj n fields => jsonWObject n (fun v => applyJFOps fields v)
def applyJFOps : List FOp → JVal → JVal
  | [], v => v
  | op :: rest, v => applyJFOps rest (jFOf op v)
end

/-- The JSON value a call stores under its name. -/
def jStoredF : FOp → JVal
  | .fInt _ v => .jInt v
  | .fUInt _ v => .jInt v
  | .fFloat _ bits => .jReal bits
  | .fBool _ b => .jBool b
  | .fStr _ s => .jStr s
  | .fArrInt _ xs => .jArr (xs.map .jInt)
  | .fArrUInt _ xs => .jArr (xs.map fun u => .jInt (Int.ofNat u))
  | .fArrFloat _ xs => .jArr (xs.map .jReal)
  | .fArrBool _ xs => .jArr (xs.map .jBool)
  | .fArrStr _ xs => .jArr (xs.map .jStr)
  | .fObj _ fields => applyJFOps fields .jNull

mutual
def readsBackJ (fr : FloatRt) (ext : JVal → String) (root : JVal) : FOp → Prop
  | .fInt n v => ∀ d, jsonRInt fr root n d = v
  | .fUInt n v => ∀ d, jsonRUInt fr root n d = v
  | .fFloat n bits => ∀ d, jsonRFloat fr root n d = bits
  | .fBool n b => ∀ d, jsonRBool root n d = b
  | .fStr n s => ∀ d, jsonRStr ext root n d = s
  | .fArrInt n xs => ∀ prior, applyACalls 0 (jsonRArrInt fr root n) prior = xs
  | .fArrUInt n xs => ∀ prior, applyACalls 0 (jsonRArrUInt fr root n) prior = xs
  | .fArrFloat n xs => ∀ prior, applyACalls 0 (jsonRArrFloat fr root n) prior = xs
  | .fArrBool n xs => ∀ prior, applyACalls false (jsonRArrBool root n) prior = xs
  | .fArrStr n xs => ∀ prior, applyACalls "" (jsonRArrStr root n) prior = xs
  | .fObj n fields =>
      jsonRObject root n (fun x _ => readsBackJs fr ext x fields) False
def readsBackJs (fr : FloatRt) (ext : JVal → String) (root : JVal) : List FOp → Prop
  | [] => True
  | op :: rest => readsBackJ fr ext root op ∧ readsBackJs fr ext root rest
end

/-! ### Structural facts about the call list -/

def fTag : FOp → Nat
  | .fInt _ _ => tInt
  | .fUInt _ _ => tUInt
  | .fFloat _ _ => tFloat
  | .fBool _ _ => tBool
  | .fStr _ _ => tString
  | .fArrInt _ _ => tArray
  | .fArrUInt _ _ => tArray
  | .fArrFloat _ _ => tArray
  | .fArrBool _ _ => tArray
  | .fArrStr _ _ => tArray
  | .fObj _ _ => tObject

theorem fTag_ne_null (op : FOp) : fTag op ≠ tNull := by
  cases op <;> simp [fTag, tInt, tUInt, tFloat, tBool, tString, tArray, tObject, tNull]

theorem fTag_lt (op : FOp) : fTag op < 8 := by
  cases op <;> simp [fTag, tInt, tUInt, tFloat, tBool, tString, tArray, tObject]

theorem fLen_ge (op : FOp) : 6 ≤ fLen op := by
  cases op <;> simp [fLen] <;> omega

theorem fElemsOf_nil (tbl : List String) : fElemsOf tbl [] = ([], tbl) := by
  rw [fElemsOf]

theorem fElemsOf_cons (tbl : List String) (op : FOp) (rest : List FOp) :
    fElemsOf tbl (op :: rest) =
      ((fElemOf tbl op).1 :: (fElemsOf (fElemOf tbl op).2 rest).1,
       (fElemsOf (fElemOf tbl op).2 rest).2) := by
  rw [fElemsOf]

theorem applyFOps_nil (start : Nat) (st : CState) : applyFOps [] start st = st := by
  rw [applyFOps]

theorem applyFOps_cons (op : FOp) (rest : List FOp) (start : Nat) (st : CState) :
    applyFOps (op :: rest) start st = applyFOps rest start (applyFOp start op st) := by
  rw [applyFOps]

theorem fElemsOf_length (tbl : List String) (l : List FOp) :
    (fElemsOf tbl l).1.length = l.length := by
  induction l generalizing tbl with
  | nil => rw [fElemsOf_nil]; rfl
  | cons op rest ih => rw [fElemsOf_cons]; simp [ih]

theorem fElemOf_type (tbl : List String) (op : FOp) :
    (fElemOf tbl op).1.type = fTag op := by
  cases op <;> rw [fElemOf] <;> rfl

theorem fGoodList_parts {op : FOp} {rest : List FOp}
    (h : fGoodList (op :: rest) = true) :
    fGood op = true ∧ fGoodList rest = true ∧ fName op ∉ rest.map fName := by
  rw [fGoodList] at h
  simp only [Bool.and_eq_true, decide_eq_true_eq] at h
  exact ⟨h.1.1, h.1.2, h.2⟩

theorem fGoodList_mem {ops : List FOp} (h : fGoodList ops = true) {op : FOp}
    (hop : op ∈ ops) : fGood op = true := by
  induction ops with
  | nil => cases hop
  | cons a rest ih =>
    obtain ⟨h1, h2, _⟩ := fGoodList_parts h
    rcases List.mem_cons.mp hop with rfl | hop1
    · exact h1
    · exact ih h2 hop1

theorem internMany_cons (tbl : List String) (x : String) (rest : List String) :
    internMany tbl (x :: rest) =
      ((mapStringToInteger tbl x).1 :: (internMany (mapStringToInteger tbl x).2 rest).1,
       (internMany (mapStringToInteger tbl x).2 rest).2) := rfl

theorem internMany_length (tbl : List String) (xs : List String) :
    (internMany tbl xs).1.length = xs.length := by
  induction xs generalizing tbl with
  | nil => rfl
  | cons x rest ih => rw [internMany_cons]; simp [ih]

theorem internMany_extends (tbl : List String) (xs : List String) :
    ∃ ext, (internMany tbl xs).2 = tbl ++ ext := by
  induction xs generalizing tbl with
  | nil => exact ⟨[], by simp [internMany]⟩
  | cons x rest ih =>
    rw [internMany_cons]
    obtain ⟨e1, h1⟩ := msi_extends tbl x
    obtain ⟨e2, h2⟩ := ih (mapStringToInteger tbl x).2
    exact ⟨e1 ++ e2, by rw [h2, h1, List.append_assoc]⟩

theorem internMany_ok {tbl : List String} {univ : Finset String} (xs : List String)
    (hnd : tbl.Nodup) (hsub : tbl.toFinset ⊆ univ) (hcard : univ.card ≤ 8192)
    (hxs : ∀ s ∈ xs, s ∈ univ) :
    (internMany tbl xs).2.Nodup ∧ (internMany tbl xs).2.toFinset ⊆ univ ∧
    ∀ i, i < xs.length →
      (internMany tbl xs).1.getD i 0 < 8192 ∧
      (internMany tbl xs).1.getD i 0 < (internMany tbl xs).2.length ∧
      (internMany tbl xs).2.getD ((internMany tbl xs).1.getD i 0) "" = xs.getD i "" := by
  induction xs generalizing tbl with
  | nil => exact ⟨hnd, hsub, fun i hi => absurd hi (by simp)⟩
  | cons x rest ih =>
    obtain ⟨hlt, hnd1, hsub1⟩ := msi_ok hnd hsub (hxs x (by simp)) hcard
    obtain ⟨hnd2, hsub2, hrest⟩ := ih hnd1 hsub1 (fun s hs => hxs s (by simp [hs]))
    rw [internMany_cons]
    refine ⟨hnd2, hsub2, ?_⟩
    intro i hi
    cases i with
    | zero =>
      obtain ⟨ext, hext⟩ := internMany_extends (mapStringToInteger tbl x).2 rest
      have hl := mapString_idx_lt tbl x
      have hg := internFind_getD (mapString_find tbl x)
      refine ⟨by simpa using hlt, ?_, ?_⟩
      · simp only [List.getD_cons_zero, hext, List.length_append]
        omega
      · simp only [List.getD_cons_zero, hext]
        rw [List.getD_append _ _ _ _ hl]
        exact hg
    | succ j =>
      have := hrest j (by simpa using hi)
      simpa using this

theorem fExtends_fuel (N : Nat) :
    (∀ (op : FOp) (tbl : List String), fSize op ≤ N →
      ∃ ext, (fElemOf tbl op).2 = tbl ++ ext) ∧
    (∀ (l : List FOp) (tbl : List String), fSizeList l ≤ N →
      ∃ ext, (fElemsOf tbl l).2 = tbl ++ ext) := by
  induction N with
  | zero =>
    constructor
    · intro op tbl h
      cases op <;> simp [fSize] at h
    · intro l tbl h
      cases l with
      | nil => exact ⟨[], by rw [fElemsOf_nil]; simp⟩
      | cons op rest => rw [fSizeList] at h; omega
  | succ n ih =>
    constructor
    · intro op tbl h
      cases op with
      | fObj nm fields =>
        rw [fSize] at h
        obtain ⟨e1, h1⟩ := ih.2 fields tbl (by omega)
        obtain ⟨e2, h2⟩ := msi_extends (fElemsOf tbl fields).2 nm
        refine ⟨e1 ++ e2, ?_⟩
        simp only [fElemOf]
        rw [h2, h1, List.append_assoc]
      | fStr nm s =>
        obtain ⟨e1, h1⟩ := msi_extends tbl s
        obtain ⟨e2, h2⟩ := msi_extends (mapStringToInteger tbl s).2 nm
        refine ⟨e1 ++ e2, ?_⟩
        simp only [fElemOf]
        rw [h2, h1, List.append_assoc]
      | fArrStr nm xs =>
        obtain ⟨e1, h1⟩ := msi_extends tbl nm
        obtain ⟨e2, h2⟩ := internMany_extends (mapStringToInteger tbl nm).2 xs
        refine ⟨e1 ++ e2, ?_⟩
        simp only [fElemOf]
        rw [h2, h1, List.append_assoc]
      | fInt nm v => simp only [fElemOf]; exact msi_extends tbl nm
      | fUInt nm v => simp only [fElemOf]; exact msi_extends tbl nm
      | fFloat nm bits => simp only [fElemOf]; exact msi_extends tbl nm
      | fBool nm b => simp only [fElemOf]; exact msi_extends tbl nm
      | fArrInt nm xs => simp only [fElemOf]; exact msi_extends tbl nm
      | fArrUInt nm xs => simp only [fElemOf]; exact msi_extends tbl nm
      | fArrFloat nm xs => simp only [fElemOf]; exact msi_extends tbl nm
      | fArrBool nm xs => simp only [fElemOf]; exact msi_extends tbl nm
    · intro l tbl h
      cases l with
      | nil => exact ⟨[], by rw [fElemsOf_nil]; simp⟩
      | cons op rest =>
        rw [fSizeList] at h
        obtain ⟨e1, h1⟩ := ih.1 op tbl (by omega)
        obtain ⟨e2, h2⟩ := ih.2 rest (fElemOf tbl op).2 (by omega)
        refine ⟨e1 ++ e2, ?_⟩
        rw [fElemsOf_cons]
        show (fElemsOf (fElemOf tbl op).2 rest).2 = tbl ++ (e1 ++ e2)
        rw [h2, h1, List.append_assoc]

theorem fElemOf_extends (tbl : List String) (op : FOp) :
    ∃ ext, (fElemOf tbl op).2 = tbl ++ ext :=
  (fExtends_fuel (fSize op)).1 op tbl le_rfl

theorem fElemsOf_extends (tbl : List String) (l : List FOp) :
    ∃ ext, (fElemsOf tbl l).2 = tbl ++ ext :=
  (fExtends_fuel (fSizeList l)).2 l tbl le_rfl

theorem msi_ne_of_getD_ne {tbl : List String} {n : String} {j : Nat}
    (hj : j < tbl.length) (hne : tbl.getD j "" ≠ n) :
    j ≠ (mapStringToInteger tbl n).1 := by
  intro h
  have hg := internFind_getD (mapString_find tbl n)
  obtain ⟨ext, hext⟩ := msi_extends tbl n
  rw [hext] at hg
  rw [h] at hj hne
  rw [List.getD_append _ _ _ _ hj] at hg
  exact hne hg

theorem map_nullIf_id {es : List MElem} {idx : Nat} (h : ∀ e ∈ es, e.name ≠ idx) :
    es.map (nullIf idx) = es := by
  induction es with
  | nil => rfl
  | cons e rest ih =>
    simp only [List.map_cons]
    rw [show nullIf idx e = e by unfold nullIf; rw [if_neg (h e (by simp))]]
    rw [ih fun x hx => h x (by simp [hx])]

theorem flatten4_length (ws : List (List Nat)) (h : ∀ w ∈ ws, w.length = 4) :
    ws.flatten.length = 4 * ws.length := by
  induction ws with
  | nil => rfl
  | cons w rest ih =>
    simp only [List.flatten_cons, List.length_append, List.length_cons]
    rw [h w (by simp), ih fun x hx => h x (by simp [hx])]
    ring

theorem flatten_enc_length {β : Type} (f : β → Nat) (xs : List β) :
    ((xs.map fun x => encodeU32 (f x)).flatten).length = 4 * xs.length := by
  rw [flatten4_length]
  · simp
  · intro w hw
    simp only [List.mem_map] at hw
    obtain ⟨x, _, rfl⟩ := hw
    simp [encodeU32]

/-! ### The primitive-array writes over decoded streams -/

theorem serializeArrIntBin_spec (name : String) (xs : List Int) (strings : List String)
    (pre : List Nat) (es : List MElem) (hok : ∀ e ∈ es, ElemOk e)
    (hidx : (mapStringToInteger strings name).1 < 8192) :
    serializeArrIntBin pre.length name xs ⟨strings, pre ++ encElems es⟩ =
      ⟨(mapStringToInteger strings name).2,
       pre ++ encElems (es.map (nullIf (mapStringToInteger strings name).1) ++
         [⟨tArray, (mapStringToInteger strings name).1,
           encodeAH tInt xs.length ++ (xs.map fun i => encodeU32 (toU32 i)).flatten⟩])⟩ := by
  unfold serializeArrIntBin
  rcases hms : mapStringToInteger strings name with ⟨idx, strs⟩
  show (⟨strs, nullifyLoop (pre ++ encElems es) (idx % 65536) pre.length
      (pre ++ encElems es).length ++ encodeEH tArray (idx % 65536) (4 + 4 * xs.length) ++
        encodeAH tInt xs.length ++ (xs.map fun i => encodeU32 (toU32 i)).flatten⟩ : CState) = _
  rw [hms] at hidx
  have hlen : 4 + 4 * xs.length =
      (encodeAH tInt xs.length ++ (xs.map fun i => encodeU32 (toU32 i)).flatten).length := by
    simp only [List.length_append, flatten_enc_length]
    simp [encodeAH, encodeU32]
  rw [hlen, List.append_assoc,
    nullify_append_buf pre es idx tArray _ hok hidx]

theorem serializeArrUIntBin_spec (name : String) (xs : List Nat) (strings : List String)
    (pre : List Nat) (es : List MElem) (hok : ∀ e ∈ es, ElemOk e)
    (hidx : (mapStringToInteger strings name).1 < 8192) :
    serializeArrUIntBin pre.length name xs ⟨strings, pre ++ encElems es⟩ =
      ⟨(mapStringToInteger strings name).2,
       pre ++ encElems (es.map (nullIf (mapStringToInteger strings name).1) ++
         [⟨tArray, (mapStringToInteger strings name).1,
           encodeAH tUInt xs.length ++ (xs.map fun u => encodeU32 (u % 4294967296)).flatten⟩])⟩ := by
  unfold serializeArrUIntBin
  rcases hms : mapStringToInteger strings name with ⟨idx, strs⟩
  show (⟨strs, nullifyLoop (pre ++ encElems es) (idx % 65536) pre.length
      (pre ++ encElems es).length ++ encodeEH tArray (idx % 65536) (4 + 4 * xs.length) ++
        encodeAH tUInt xs.length ++ (xs.map fun u => encodeU32 (u % 4294967296)).flatten⟩ :
      CState) = _
  rw [hms] at hidx
  have hlen : 4 + 4 * xs.length =
      (encodeAH tUInt xs.length ++
        (xs.map fun u => encodeU32 (u % 4294967296)).flatten).length := by
    simp only [List.length_append, flatten_enc_length]
    simp [encodeAH, encodeU32]
  rw [hlen, List.append_assoc,
    nullify_append_buf pre es idx tArray _ hok hidx]

theorem serializeArrFloatBin_spec (name : String) (xs : List Nat) (strings : List String)
    (pre : List Nat) (es : List MElem) (hok : ∀ e ∈ es, ElemOk e)
    (hidx : (mapStringToInteger strings name).1 < 8192) :
    serializeArrFloatBin pre.length name xs ⟨strings, pre ++ encElems es⟩ =
      ⟨(mapStringToInteger strings name).2,
       pre ++ encElems (es.map (nullIf (mapStringToInteger strings name).1) ++
         [⟨tArray, (mapStringToInteger strings name).1,
           encodeAH tFloat xs.length ++ (xs.map fun f => encodeU32 (f % 4294967296)).flatten⟩])⟩ := by
  unfold serializeArrFloatBin
  rcases hms : mapStringToInteger strings name with ⟨idx, strs⟩
  show (⟨strs, nullifyLoop (pre ++ encElems es) (idx % 65536) pre.length
      (pre ++ encElems es).length ++ encodeEH tArray (idx % 65536) (4 + 4 * xs.length) ++
        encodeAH tFloat xs.length ++ (xs.map fun f => encodeU32 (f % 4294967296)).flatten⟩ :
      CState) = _
  rw [hms] at hidx
  have hlen : 4 + 4 * xs.length =
      (encodeAH tFloat xs.length ++
        (xs.map fun f => encodeU32 (f % 4294967296)).flatten).length := by
    simp only [List.length_append, flatten_enc_length]
    simp [encodeAH, encodeU32]
  rw [hlen, List.append_assoc,
    nullify_append_buf pre es idx tArray _ hok hidx]

theorem serializeArrBoolBin_spec (name : String) (xs : List Bool) (strings : List String)
    (pre : List Nat) (es : List MElem) (hok : ∀ e ∈ es, ElemOk e)
    (hidx : (mapStringToInteger strings name).1 < 8192) :
    serializeArrBoolBin pre.length name xs ⟨strings, pre ++ encElems es⟩ =
      ⟨(mapStringToInteger strings name).2,
       pre ++ encElems (es.map (nullIf (mapStringToInteger strings name).1) ++
         [⟨tArray, (mapStringToInteger strings name).1,
           encodeAH tBool xs.length ++ xs.map fun b => if b then 1 else 0⟩])⟩ := by
  unfold serializeArrBoolBin
  rcases hms : mapStringToInteger strings name with ⟨idx, strs⟩
  show (⟨strs, nullifyLoop (pre ++ encElems es) (idx % 65536) pre.length
      (pre ++ encElems es).length ++ encodeEH tArray (idx % 65536) (4 + xs.length) ++
        encodeAH tBool xs.length ++ (xs.map fun b => if b then 1 else 0)⟩ : CState) = _
  rw [hms] at hidx
  have hlen : 4 + xs.length =
      (encodeAH tBool xs.length ++ (xs.map fun b => if b then (1 : Nat) else 0)).length := by
    simp [encodeAH, encodeU32]
    omega
  rw [hlen, List.append_assoc,
    nullify_append_buf pre es idx tArray _ hok hidx]

theorem serializeArrStrBin_spec (name : String) (xs : List String) (strings : List String)
    (pre : List Nat) (es : List MElem) (hok : ∀ e ∈ es, ElemOk e)
    (hidx : (mapStringToInteger strings name).1 < 8192) :
    serializeArrStrBin pre.length name xs ⟨strings, pre ++ encElems es⟩ =
      ⟨(internMany (mapStringToInteger strings name).2 xs).2,
       pre ++ encElems (es.map (nullIf (mapStringToInteger strings name).1) ++
         [⟨tArray, (mapStringToInteger strings name).1,
           encodeAH tString xs.length ++
             ((internMany (mapStringToInteger strings name).2 xs).1.map encodeU32).flatten⟩])⟩ := by
  unfold serializeArrStrBin
  rcases hms : mapStringToInteger strings name with ⟨idx, strs⟩
  show (⟨(internMany strs xs).2,
      nullifyLoop (pre ++ encElems es) (idx % 65536) pre.length
        (pre ++ encElems es).length ++ encodeEH tArray (idx % 65536) (4 + 4 * xs.length) ++
        encodeAH tString xs.length ++ ((internMany strs xs).1.map encodeU32).flatten⟩ :
      CState) = _
  rw [hms] at hidx
  have hp : (((internMany strs xs).1.map encodeU32).flatten).length = 4 * xs.length := by
    rw [flatten4_length]
    · rw [List.length_map, internMany_length]
    · intro w hw
      simp only [List.mem_map] at hw
      obtain ⟨x, _, rfl⟩ := hw
      simp [encodeU32]
  have hlen : 4 + 4 * xs.length =
      (encodeAH tString xs.length ++
        ((internMany strs xs).1.map encodeU32).flatten).length := by
    simp only [List.length_append, hp]
    simp [encodeAH, encodeU32]
  rw [hlen, List.append_assoc,
    nullify_append_buf pre es idx tArray _ hok hidx]

theorem bodyLenOk_mk4 (t idx : Nat) (body : List Nat) (h : 4 ≤ body.length)
    (hb : t ≠ tBool) : BodyLenOk ⟨t, idx, body⟩ :=
  ⟨fun _ => h, fun hh => absurd hh hb⟩

theorem bodyLenOk_bool (idx : Nat) (body : List Nat) (h : 1 ≤ body.length) :
    BodyLenOk ⟨tBool, idx, body⟩ := by
  constructor
  · intro hh
    have hh2 : tBool = tInt ∨ tBool = tUInt ∨ tBool = tFloat ∨ tBool = tString := hh
    exact absurd hh2 (by decide)
  · exact fun _ => h

/-- Joint shape of the emitted elements and evolved tables: every call of a
well-formed sequence leaves a duplicate-free table inside the string
universe, emits a live element whose name index resolves to the call's name,
whose sizes are in range, and whose encoding occupies exactly `fLen`
bytes. -/
theorem fShape_fuel (univ : Finset String) (hcard : univ.card ≤ 8192) (N : Nat) :
    (∀ (op : FOp) (tbl : List String), fSize op ≤ N →
      fGood op = true → tbl.Nodup → tbl.toFinset ⊆ univ →
      (∀ s ∈ fStrs op, s ∈ univ) →
      (fElemOf tbl op).2.Nodup ∧ (fElemOf tbl op).2.toFinset ⊆ univ ∧
      (fElemOf tbl op).1.type = fTag op ∧
      (fElemOf tbl op).1.name < 8192 ∧
      (fElemOf tbl op).1.name < (fElemOf tbl op).2.length ∧
      (fElemOf tbl op).2.getD (fElemOf tbl op).1.name "" = fName op ∧
      (fElemOf tbl op).1.body.length + 6 = fLen op ∧
      (fElemOf tbl op).1.body.length < 4294967296 ∧
      BodyLenOk (fElemOf tbl op).1) ∧
    (∀ (l : List FOp) (tbl : List String), fSizeList l ≤ N →
      fGoodList l = true → tbl.Nodup → tbl.toFinset ⊆ univ →
      (∀ s ∈ fStrsList l, s ∈ univ) →
      (fElemsOf tbl l).2.Nodup ∧ (fElemsOf tbl l).2.toFinset ⊆ univ ∧
      (encElems (fElemsOf tbl l).1).length = fLenList l ∧
      (∀ e ∈ (fElemsOf tbl l).1, ElemOk e ∧ BodyLenOk e ∧ e.type ≠ tNull ∧
        e.name < (fElemsOf tbl l).2.length ∧
        ∃ op ∈ l, (fElemsOf tbl l).2.getD e.name "" = fName op)) := by
  induction N with
  | zero =>
    constructor
    · intro op tbl h
      cases op <;> simp [fSize] at h
    · intro l tbl h hg hnd hsub hstrs
      cases l with
      | nil =>
        rw [fElemsOf_nil]
        refine ⟨hnd, hsub, ?_, ?_⟩
        · simp [encElems, fLenList]
        · intro e he
          cases he
      | cons op rest => rw [fSizeList] at h; omega
  | succ n ih =>
    constructor
    · intro op tbl h hg hnd hsub hstrs
      cases op with
      | fInt nm v =>
        obtain ⟨h1, h2, h3⟩ := msi_ok hnd hsub (hstrs nm (by simp [fStrs])) hcard
        simp only [fElemOf]
        refine ⟨h2, h3, rfl, h1, mapString_idx_lt tbl nm,
          internFind_getD (mapString_find tbl nm), ?_, ?_, ?_⟩
        · simp [encodeU32, fLen]
        · simp [encodeU32]
        · exact bodyLenOk_mk4 tInt _ _ (by simp [encodeU32]) (by decide)
      | fUInt nm v =>
        obtain ⟨h1, h2, h3⟩ := msi_ok hnd hsub (hstrs nm (by simp [fStrs])) hcard
        simp only [fElemOf]
        refine ⟨h2, h3, rfl, h1, mapString_idx_lt tbl nm,
          internFind_getD (mapString_find tbl nm), ?_, ?_, ?_⟩
        · simp [encodeU32, fLen]
        · simp [encodeU32]
        · exact bodyLenOk_mk4 tUInt _ _ (by simp [encodeU32]) (by decide)
      | fFloat nm bits =>
        obtain ⟨h1, h2, h3⟩ := msi_ok hnd hsub (hstrs nm (by simp [fStrs])) hcard
        simp only [fElemOf]
        refine ⟨h2, h3, rfl, h1, mapString_idx_lt tbl nm,
          internFind_getD (mapString_find tbl nm), ?_, ?_, ?_⟩
        · simp [encodeU32, fLen]
        · simp [encodeU32]
        · exact bodyLenOk_mk4 tFloat _ _ (by simp [encodeU32]) (by decide)
      | fBool nm b =>
        obtain ⟨h1, h2, h3⟩ := msi_ok hnd hsub (hstrs nm (by simp [fStrs])) hcard
        simp only [fElemOf]
        refine ⟨h2, h3, rfl, h1, mapString_idx_lt tbl nm,
          internFind_getD (mapString_find tbl nm), ?_, ?_, ?_⟩
        · simp [fLen]
        · simp
        · exact bodyLenOk_bool _ _ (by simp)
      | fStr nm s =>
        obtain ⟨g1, g2, g3⟩ := msi_ok hnd hsub (hstrs s (by simp [fStrs])) hcard
        obtain ⟨h1, h2, h3⟩ := msi_ok g2 g3 (hstrs nm (by simp [fStrs])) hcard
        simp only [fElemOf]
        refine ⟨h2, h3, rfl, h1, mapString_idx_lt _ nm,
          internFind_getD (mapString_find _ nm), ?_, ?_, ?_⟩
        · simp [encodeU32, fLen]
        · simp [encodeU32]
        · exact bodyLenOk_mk4 tString _ _ (by simp [encodeU32]) (by decide)
      | fArrInt nm xs =>
        obtain ⟨h1, h2, h3⟩ := msi_ok hnd hsub (hstrs nm (by simp [fStrs])) hcard
        have hxl : xs.length < 536870912 := by
          rw [fGood] at hg
          simp only [Bool.and_eq_true, decide_eq_true_eq] at hg
          exact hg.1
        have hbl : (encodeAH tInt xs.length ++
            (xs.map fun i => encodeU32 (toU32 i)).flatten).length = 4 + 4 * xs.length := by
          simp only [List.length_append, flatten_enc_length]
          simp [encodeAH, encodeU32]
        simp only [fElemOf]
        refine ⟨h2, h3, rfl, h1, mapString_idx_lt tbl nm,
          internFind_getD (mapString_find tbl nm), ?_, ?_, ?_⟩
        · rw [hbl, fLen]
          omega
        · rw [hbl]
          omega
        · exact bodyLenOk_mk4 tArray _ _ (by rw [hbl]; omega) (by decide)
      | fArrUInt nm xs =>
        obtain ⟨h1, h2, h3⟩ := msi_ok hnd hsub (hstrs nm (by simp [fStrs])) hcard
        have hxl : xs.length < 536870912 := by
          rw [fGood] at hg
          simp only [Bool.and_eq_true, decide_eq_true_eq] at hg
          exact hg.1
        have hbl : (encodeAH tUInt xs.length ++
            (xs.map fun u => encodeU32 (u % 4294967296)).flatten).length =
            4 + 4 * xs.length := by
          simp only [List.length_append, flatten_enc_length]
          simp [encodeAH, encodeU32]
        simp only [fElemOf]
        refine ⟨h2, h3, rfl, h1, mapString_idx_lt tbl nm,
          internFind_getD (mapString_find tbl nm), ?_, ?_, ?_⟩
        · rw [hbl, fLen]
          omega
        · rw [hbl]
          omega
        · exact bodyLenOk_mk4 tArray _ _ (by rw [hbl]; omega) (by decide)
      | fArrFloat nm xs =>
        obtain ⟨h1, h2, h3⟩ := msi_ok hnd hsub (hstrs nm (by simp [fStrs])) hcard
        have hxl : xs.length < 536870912 := by
          rw [fGood] at hg
          simp only [Bool.and_eq_true, decide_eq_true_eq] at hg
          exact hg.1
        have hbl : (encodeAH tFloat xs.length ++
            (xs.map fun f => encodeU32 (f % 4294967296)).flatten).length =
            4 + 4 * xs.length := by
          simp only [List.length_append, flatten_enc_length]
          simp [encodeAH, encodeU32]
        simp only [fElemOf]
        refine ⟨h2, h3, rfl, h1, mapString_idx_lt tbl nm,
          internFind_getD (mapString_find tbl nm), ?_, ?_, ?_⟩
        · rw [hbl, fLen]
          omega
        · rw [hbl]
          omega
        · exact bodyLenOk_mk4 tArray _ _ (by rw [hbl]; omega) (by decide)
      | fArrBool nm xs =>
        obtain ⟨h1, h2, h3⟩ := msi_ok hnd hsub (hstrs nm (by simp [fStrs])) hcard
        have hxl : xs.length < 536870912 := by
          rw [fGood] at hg
          simp only [decide_eq_true_eq] at hg
          exact hg
        have hbl : (encodeAH tBool xs.length ++
            (xs.map fun b => if b then (1 : Nat) else 0)).length = 4 + xs.length := by
          simp [encodeAH, encodeU32]
          omega
        simp only [fElemOf]
        refine ⟨h2, h3, rfl, h1, mapString_idx_lt tbl nm,
          internFind_getD (mapString_find tbl nm), ?_, ?_, ?_⟩
        · rw [hbl, fLen]
          omega
        · rw [hbl]
          omega
        · exact bodyLenOk_mk4 tArray _ _ (by rw [hbl]; omega) (by decide)
      | fArrStr nm xs =>
        obtain ⟨h1, h2, h3⟩ := msi_ok hnd hsub (hstrs nm (by simp [fStrs])) hcard
        obtain ⟨i1, i2, _⟩ := internMany_ok xs h2 h3 hcard
          (fun s hs => hstrs s (by simp [fStrs, hs]))
        obtain ⟨ext, hext⟩ := internMany_extends (mapStringToInteger tbl nm).2 xs
        have hxl : xs.length < 536870912 := by
          rw [fGood] at hg
          simp only [decide_eq_true_eq] at hg
          exact hg
        have hbl : (encodeAH tString xs.length ++
            ((internMany (mapStringToInteger tbl nm).2 xs).1.map encodeU32).flatten).length =
            4 + 4 * xs.length := by
          simp only [List.length_append]
          rw [flatten4_length]
          · rw [List.length_map, internMany_length]
            simp [encodeAH, encodeU32]
          · intro w hw
            simp only [List.mem_map] at hw
            obtain ⟨x, _, rfl⟩ := hw
            simp [encodeU32]
        simp only [fElemOf]
        refine ⟨i1, i2, rfl, h1, ?_, ?_, ?_, ?_, ?_⟩
        · rw [hext, List.length_append]
          have := mapString_idx_lt tbl nm
          omega
        · rw [hext, List.getD_append _ _ _ _ (mapString_idx_lt tbl nm)]
          exact internFind_getD (mapString_find tbl nm)
        · rw [hbl, fLen]
          omega
        · rw [hbl]
          omega
        · exact bodyLenOk_mk4 tArray _ _ (by rw [hbl]; omega) (by decide)
      | fObj nm fields =>
        rw [fSize] at h
        have hgp : fields.isEmpty = false ∧ fLenList fields < 4294967296 ∧
            fGoodList fields = true := by
          rw [fGood] at hg
          simp only [Bool.and_eq_true, Bool.not_eq_true', decide_eq_true_eq] at hg
          exact ⟨hg.1.1, hg.1.2, hg.2⟩
        obtain ⟨s1, s2, s3, _⟩ := ih.2 fields tbl (by omega) hgp.2.2 hnd hsub
          (fun s hs => hstrs s (by simp [fStrs, hs]))
        obtain ⟨h1, h2, h3⟩ := msi_ok s1 s2 (hstrs nm (by simp [fStrs])) hcard
        have hlen6 : 6 ≤ fLenList fields := by
          cases fields with
          | nil => simp at hgp
          | cons a rest =>
            rw [fLenList]
            have := fLen_ge a
            omega
        simp only [fElemOf]
        refine ⟨h2, h3, rfl, h1, mapString_idx_lt _ nm,
          internFind_getD (mapString_find _ nm), ?_, ?_, ?_⟩
        · rw [s3, fLen]
          omega
        · rw [s3]
          exact hgp.2.1
        · exact bodyLenOk_mk4 tObject _ _ (by rw [s3]; omega) (by decide)
    · intro l tbl h hg hnd hsub hstrs
      cases l with
      | nil =>
        rw [fElemsOf_nil]
        refine ⟨hnd, hsub, ?_, ?_⟩
        · simp [encElems, fLenList]
        · intro e he
          cases he
      | cons op rest =>
        rw [fSizeList] at h
        obtain ⟨hgop, hgrest, hname⟩ := fGoodList_parts hg
        have hstrs1 : ∀ s ∈ fStrs op, s ∈ univ := fun s hs =>
          hstrs s (by rw [fStrsList]; simp [hs])
        have hstrs2 : ∀ s ∈ fStrsList rest, s ∈ univ := fun s hs =>
          hstrs s (by rw [fStrsList]; simp [hs])
        obtain ⟨a1, a2, a3, a4, a5, a6, a7, a8, a9⟩ :=
          ih.1 op tbl (by omega) hgop hnd hsub hstrs1
        obtain ⟨b1, b2, b3, b4⟩ :=
          ih.2 rest (fElemOf tbl op).2 (by omega) hgrest a1 a2 hstrs2
        obtain ⟨ext2, hext2⟩ := fElemsOf_extends (fElemOf tbl op).2 rest
        rw [fElemsOf_cons]
        refine ⟨b1, b2, ?_, ?_⟩
        · show (encElems ((fElemOf tbl op).1 :: (fElemsOf (fElemOf tbl op).2 rest).1)).length =
            fLenList (op :: rest)
          rw [encElems_cons, fLenList]
          simp only [List.length_append, encElem_length, b3]
          omega
        · intro e he
          rcases List.mem_cons.mp he with rfl | he1
          · refine ⟨⟨?_, a4, a8⟩, a9, ?_, ?_, op, by simp, ?_⟩
            · rw [a3]
              exact fTag_lt op
            · rw [a3]
              exact fTag_ne_null op
            · show (fElemOf tbl op).1.name < (fElemsOf (fElemOf tbl op).2 rest).2.length
              rw [hext2, List.length_append]
              omega
            · show (fElemsOf (fElemOf tbl op).2 rest).2.getD
                (fElemOf tbl op).1.name "" = fName op
              rw [hext2, List.getD_append _ _ _ _ a5]
              exact a6
          · obtain ⟨c1, c2, c3, c4, op2, hop2, c5⟩ := b4 e he1
            exact ⟨c1, c2, c3, c4, op2, by simp [hop2], c5⟩

theorem encElems_nil : encElems [] = [] := rfl

theorem encElems_ne_nil {es : List MElem} (h : es ≠ []) :
    0 < (encElems es).length := by
  cases es with
  | nil => exact absurd rfl h
  | cons e rest =>
    rw [encElems_cons_length]
    omega

theorem fShape_op {univ : Finset String} (hcard : univ.card ≤ 8192) (op : FOp)
    (tbl : List String) (hg : fGood op = true) (hnd : tbl.Nodup)
    (hsub : tbl.toFinset ⊆ univ) (hstrs : ∀ s ∈ fStrs op, s ∈ univ) :
    (fElemOf tbl op).2.Nodup ∧ (fElemOf tbl op).2.toFinset ⊆ univ ∧
    (fElemOf tbl op).1.type = fTag op ∧
    (fElemOf tbl op).1.name < 8192 ∧
    (fElemOf tbl op).1.name < (fElemOf tbl op).2.length ∧
    (fElemOf tbl op).2.getD (fElemOf tbl op).1.name "" = fName op ∧
    (fElemOf tbl op).1.body.length + 6 = fLen op ∧
    (fElemOf tbl op).1.body.length < 4294967296 ∧
    BodyLenOk (fElemOf tbl op).1 :=
  (fShape_fuel univ hcard (fSize op)).1 op tbl le_rfl hg hnd hsub hstrs

theorem fShape_list {univ : Finset String} (hcard : univ.card ≤ 8192) (l : List FOp)
    (tbl : List String) (hg : fGoodList l = true) (hnd : tbl.Nodup)
    (hsub : tbl.toFinset ⊆ univ) (hstrs : ∀ s ∈ fStrsList l, s ∈ univ) :
    (fElemsOf tbl l).2.Nodup ∧ (fElemsOf tbl l).2.toFinset ⊆ univ ∧
    (encElems (fElemsOf tbl l).1).length = fLenList l ∧
    (∀ e ∈ (fElemsOf tbl l).1, ElemOk e ∧ BodyLenOk e ∧ e.type ≠ tNull ∧
      e.name < (fElemsOf tbl l).2.length ∧
      ∃ op ∈ l, (fElemsOf tbl l).2.getD e.name "" = fName op) :=
  (fShape_fuel univ hcard (fSizeList l)).2 l tbl le_rfl hg hnd hsub hstrs

/-- `serialize(name, user_data, SerializeObjFn)` with a callback that
appends a non-empty clean scope: the reserved header is filled in and the
element holds exactly the nested scope's bytes. -/
theorem serializeObjectBin_spec (start : Nat) (name : String)
    (fn : Nat → CState → CState) (strings tbl1 : List String) (pre : List Nat)
    (es innerEs : List MElem)
    (hidx : (mapStringToInteger tbl1 name).1 < 8192)
    (hok : ∀ e ∈ innerEs, ElemOk e) (hnn : ∀ e ∈ innerEs, e.type ≠ tNull)
    (hne : innerEs ≠ [])
    (hfn : fn (pre ++ encElems es ++ List.replicate 6 0).length
        ⟨strings, pre ++ encElems es ++ List.replicate 6 0⟩ =
      ⟨tbl1, pre ++ encElems es ++ List.replicate 6 0 ++ encElems innerEs⟩) :
    serializeObjectBin start name fn ⟨strings, pre ++ encElems es⟩ =
      ⟨(mapStringToInteger tbl1 name).2,
       pre ++ encElems (es ++ [⟨tObject, (mapStringToInteger tbl1 name).1,
         encElems innerEs⟩])⟩ := by
  have h6 : (pre ++ encElems es).length + 6 =
      (pre ++ encElems es ++ List.replicate 6 0).length := by
    simp only [List.length_append, List.length_replicate]
  simp only [serializeObjectBin]
  rw [h6, hfn, binDtor_clean tbl1 (pre ++ encElems es ++ List.replicate 6 0)
    innerEs hok hnn]
  have hcond : ¬((⟨tbl1, pre ++ encElems es ++ List.replicate 6 0 ++
      encElems innerEs⟩ : CState).buf.length =
      (pre ++ encElems es ++ List.replicate 6 0).length) := by
    intro hc
    have hp := encElems_ne_nil hne
    have hc2 : (pre ++ encElems es ++ List.replicate 6 0 ++
        encElems innerEs).length =
        (pre ++ encElems es ++ List.replicate 6 0).length := hc
    simp only [List.length_append, List.length_replicate] at hc2
    omega
  rw [if_neg hcond]
  rw [show (⟨tbl1, pre ++ encElems es ++ List.replicate 6 0 ++
      encElems innerEs⟩ : CState).strings = tbl1 from rfl]
  rw [show (⟨tbl1, pre ++ encElems es ++ List.replicate 6 0 ++
      encElems innerEs⟩ : CState).buf =
      pre ++ encElems es ++ List.replicate 6 0 ++ encElems innerEs from rfl]
  have hsz : (pre ++ encElems es ++ List.replicate 6 0 ++ encElems innerEs).length -
      (pre ++ encElems es).length - 6 = (encElems innerEs).length := by
    simp only [List.length_append, List.length_replicate]
    omega
  rw [hsz]
  rw [Nat.mod_eq_of_lt (show (mapStringToInteger tbl1 name).1 < 65536 by omega)]
  have hwa : writeAt (pre ++ encElems es ++ List.replicate 6 0 ++ encElems innerEs)
      (pre ++ encElems es).length
      (encodeEH tObject (mapStringToInteger tbl1 name).1 (encElems innerEs).length) =
      pre ++ encElems es ++
        encodeEH tObject (mapStringToInteger tbl1 name).1 (encElems innerEs).length ++
        encElems innerEs := by
    rw [writeAt_spec _ _ _ (by simp [encodeEH, encodeU16, encodeU32]; omega)]
    have htk : (pre ++ encElems es ++ List.replicate 6 0 ++ encElems innerEs).take
        (pre ++ encElems es).length = pre ++ encElems es := by
      rw [(by simp : pre ++ encElems es ++ List.replicate 6 0 ++ encElems innerEs =
        (pre ++ encElems es) ++ (List.replicate 6 0 ++ encElems innerEs))]
      exact List.take_left _ _
    have hdr : (pre ++ encElems es ++ List.replicate 6 0 ++ encElems innerEs).drop
        ((pre ++ encElems es).length +
          (encodeEH tObject (mapStringToInteger tbl1 name).1
            (encElems innerEs).length).length) = encElems innerEs := by
      rw [(by simp [encodeEH, encodeU16, encodeU32]; omega :
        (pre ++ encElems es).length +
          (encodeEH tObject (mapStringToInteger tbl1 name).1
            (encElems innerEs).length).length =
          (pre ++ encElems es ++ List.replicate 6 0).length)]
      exact List.drop_left _ _
    rw [htk, hdr]
  rw [hwa, encElems_append]
  have hone : encElems [(⟨tObject, (mapStringToInteger tbl1 name).1,
      encElems innerEs⟩ : MElem)] =
      encodeEH tObject (mapStringToInteger tbl1 name).1 (encElems innerEs).length ++
      encElems innerEs := by
    simp [encElems, encElem]
  rw [hone]
  simp

/-- Joint write replay: a well-formed sequence on a clean scope appends
exactly its elements (names are distinct, so every nullification pass is the
identity; nested scopes fill their reserved headers). -/
theorem fWrite_fuel (univ : Finset String) (hcard : univ.card ≤ 8192) (N : Nat) :
    (∀ (op : FOp) (tbl : List String) (pre : List Nat) (es : List MElem),
      fSize op ≤ N →
      fGood op = true → tbl.Nodup → tbl.toFinset ⊆ univ →
      (∀ s ∈ fStrs op, s ∈ univ) →
      (∀ e ∈ es, ElemOk e) → (∀ e ∈ es, e.name < tbl.length) →
      (∀ e ∈ es, tbl.getD e.name "" ≠ fName op) →
      applyFOp pre.length op ⟨tbl, pre ++ encElems es⟩ =
        ⟨(fElemOf tbl op).2, pre ++ encElems (es ++ [(fElemOf tbl op).1])⟩) ∧
    (∀ (l : List FOp) (tbl : List String) (pre : List Nat) (es : List MElem),
      fSizeList l ≤ N →
      fGoodList l = true → tbl.Nodup → tbl.toFinset ⊆ univ →
      (∀ s ∈ fStrsList l, s ∈ univ) →
      (∀ e ∈ es, ElemOk e) → (∀ e ∈ es, e.name < tbl.length) →
      (∀ e ∈ es, ∀ op ∈ l, tbl.getD e.name "" ≠ fName op) →
      applyFOps l pre.length ⟨tbl, pre ++ encElems es⟩ =
        ⟨(fElemsOf tbl l).2, pre ++ encElems (es ++ (fElemsOf tbl l).1)⟩) := by
  induction N with
  | zero =>
    constructor
    · intro op tbl pre es h
      cases op <;> simp [fSize] at h
    · intro l tbl pre es h _ _ _ _ _ _ _
      cases l with
      | nil =>
        rw [applyFOps_nil, fElemsOf_nil]
        simp
      | cons op rest => rw [fSizeList] at h; omega
  | succ n ih =>
    constructor
    · intro op tbl pre es h hg hnd hsub hstrs hok hplt hpne
      cases op with
      | fInt nm v =>
        obtain ⟨hlt, _, _⟩ := msi_ok hnd hsub (hstrs nm (by simp [fStrs])) hcard
        rw [applyFOp, serializeIntBin_spec nm v tbl pre es hok hlt,
          map_nullIf_id (fun e he => msi_ne_of_getD_ne (hplt e he)
            (show tbl.getD e.name "" ≠ nm from hpne e he))]
        simp only [fElemOf]
      | fUInt nm v =>
        obtain ⟨hlt, _, _⟩ := msi_ok hnd hsub (hstrs nm (by simp [fStrs])) hcard
        rw [applyFOp, serializeUIntBin_spec nm v tbl pre es hok hlt,
          map_nullIf_id (fun e he => msi_ne_of_getD_ne (hplt e he)
            (show tbl.getD e.name "" ≠ nm from hpne e he))]
        simp only [fElemOf]
      | fFloat nm bits =>
        obtain ⟨hlt, _, _⟩ := msi_ok hnd hsub (hstrs nm (by simp [fStrs])) hcard
        rw [applyFOp, serializeFloatBin_spec nm bits tbl pre es hok hlt,
          map_nullIf_id (fun e he => msi_ne_of_getD_ne (hplt e he)
            (show tbl.getD e.name "" ≠ nm from hpne e he))]
        simp only [fElemOf]
      | fBool nm b =>
        obtain ⟨hlt, _, _⟩ := msi_ok hnd hsub (hstrs nm (by simp [fStrs])) hcard
        rw [applyFOp, serializeBoolBin_spec nm b tbl pre es hok hlt,
          map_nullIf_id (fun e he => msi_ne_of_getD_ne (hplt e he)
            (show tbl.getD e.name "" ≠ nm from hpne e he))]
        simp only [fElemOf]
      | fStr nm s =>
        obtain ⟨g1, g2, g3⟩ := msi_ok hnd hsub (hstrs s (by simp [fStrs])) hcard
        obtain ⟨hlt, _, _⟩ := msi_ok g2 g3 (hstrs nm (by simp [fStrs])) hcard
        obtain ⟨e1, he1⟩ := msi_extends tbl s
        have hplt2 : ∀ e ∈ es, e.name < (mapStringToInteger tbl s).2.length := by
          intro e he
          rw [he1, List.length_append]
          have := hplt e he
          omega
        have hpne2 : ∀ e ∈ es,
            (mapStringToInteger tbl s).2.getD e.name "" ≠ nm := by
          intro e he
          rw [he1, List.getD_append _ _ _ _ (hplt e he)]
          exact hpne e he
        rw [applyFOp, serializeStrBin_spec nm s tbl pre es hok hlt,
          map_nullIf_id (fun e he => msi_ne_of_getD_ne (hplt2 e he) (hpne2 e he))]
        simp only [fElemOf]
      | fArrInt nm xs =>
        obtain ⟨hlt, _, _⟩ := msi_ok hnd hsub (hstrs nm (by simp [fStrs])) hcard
        rw [applyFOp, serializeArrIntBin_spec nm xs tbl pre es hok hlt,
          map_nullIf_id (fun e he => msi_ne_of_getD_ne (hplt e he)
            (show tbl.getD e.name "" ≠ nm from hpne e he))]
        simp only [fElemOf]
      | fArrUInt nm xs =>
        obtain ⟨hlt, _, _⟩ := msi_ok hnd hsub (hstrs nm (by simp [fStrs])) hcard
        rw [applyFOp, serializeArrUIntBin_spec nm xs tbl pre es hok hlt,
          map_nullIf_id (fun e he => msi_ne_of_getD_ne (hplt e he)
            (show tbl.getD e.name "" ≠ nm from hpne e he))]
        simp only [fElemOf]
      | fArrFloat nm xs =>
        obtain ⟨hlt, _, _⟩ := msi_ok hnd hsub (hstrs nm (by simp [fStrs])) hcard
        rw [applyFOp, serializeArrFloatBin_spec nm xs tbl pre es hok hlt,
          map_nullIf_id (fun e he => msi_ne_of_getD_ne (hplt e he)
            (show tbl.getD e.name "" ≠ nm from hpne e he))]
        simp only [fElemOf]
      | fArrBool nm xs =>
        obtain ⟨hlt, _, _⟩ := msi_ok hnd hsub (hstrs nm (by simp [fStrs])) hcard
        rw [applyFOp, serializeArrBoolBin_spec nm xs tbl pre es hok hlt,
          map_nullIf_id (fun e he => msi_ne_of_getD_ne (hplt e he)
            (show tbl.getD e.name "" ≠ nm from hpne e he))]
        simp only [fElemOf]
      | fArrStr nm xs =>
        obtain ⟨hlt, _, _⟩ := msi_ok hnd hsub (hstrs nm (by simp [fStrs])) hcard
        rw [applyFOp, serializeArrStrBin_spec nm xs tbl pre es hok hlt,
          map_nullIf_id (fun e he => msi_ne_of_getD_ne (hplt e he)
            (show tbl.getD e.name "" ≠ nm from hpne e he))]
        simp only [fElemOf]
      | fObj nm fields =>
        rw [fSize] at h
        have hgp : fields.isEmpty = false ∧ fLenList fields < 4294967296 ∧
            fGoodList fields = true := by
          rw [fGood] at hg
          simp only [Bool.and_eq_true, Bool.not_eq_true', decide_eq_true_eq] at hg
          exact ⟨hg.1.1, hg.1.2, hg.2⟩
        have hstrsf : ∀ s ∈ fStrsList fields, s ∈ univ := fun s hs =>
          hstrs s (by simp [fStrs, hs])
        obtain ⟨s1, s2, _, s4⟩ := fShape_list hcard fields tbl hgp.2.2 hnd hsub hstrsf
        obtain ⟨hlt, _, _⟩ := msi_ok s1 s2 (hstrs nm (by simp [fStrs])) hcard
        have hinne : (fElemsOf tbl fields).1 ≠ [] := by
          intro hc
          have := fElemsOf_length tbl fields
          rw [hc] at this
          cases fields with
          | nil => simp at hgp
          | cons a r => simp at this
        have h0 := ih.2 fields tbl (pre ++ encElems es ++ List.replicate 6 0) []
          (by omega) hgp.2.2 hnd hsub hstrsf
          (by intro e he; cases he) (by intro e he; cases he)
          (by intro e he; cases he)
        rw [encElems_nil, List.append_nil, List.nil_append] at h0
        rw [applyFOp, serializeObjectBin_spec pre.length nm
          (fun off st2 => applyFOps fields off st2) tbl (fElemsOf tbl fields).2
          pre es (fElemsOf tbl fields).1 hlt
          (fun e he => (s4 e he).1) (fun e he => (s4 e he).2.2.1) hinne h0]
        simp only [fElemOf]
    · intro l tbl pre es h hg hnd hsub hstrs hok hplt hpne
      cases l with
      | nil =>
        rw [applyFOps_nil, fElemsOf_nil]
        simp
      | cons op rest =>
        rw [fSizeList] at h
        obtain ⟨hgop, hgrest, hname⟩ := fGoodList_parts hg
        have hstrs1 : ∀ s ∈ fStrs op, s ∈ univ := fun s hs =>
          hstrs s (by rw [fStrsList]; simp [hs])
        have hstrs2 : ∀ s ∈ fStrsList rest, s ∈ univ := fun s hs =>
          hstrs s (by rw [fStrsList]; simp [hs])
        obtain ⟨a1, a2, a3, a4, a5, a6, a7, a8, a9⟩ :=
          fShape_op hcard op tbl hgop hnd hsub hstrs1
        obtain ⟨ext1, hext1⟩ := fElemOf_extends tbl op
        have hok2 : ∀ e ∈ es ++ [(fElemOf tbl op).1], ElemOk e := by
          intro e he
          rcases List.mem_append.mp he with he | he
          · exact hok e he
          · rw [List.mem_singleton] at he
            subst he
            exact ⟨by rw [a3]; exact fTag_lt op, a4, a8⟩
        have hplt2 : ∀ e ∈ es ++ [(fElemOf tbl op).1],
            e.name < (fElemOf tbl op).2.length := by
          intro e he
          rcases List.mem_append.mp he with he | he
          · rw [hext1, List.length_append]
            have := hplt e he
            omega
          · rw [List.mem_singleton] at he
            subst he
            exact a5
        have hpne2 : ∀ e ∈ es ++ [(fElemOf tbl op).1], ∀ op2 ∈ rest,
            (fElemOf tbl op).2.getD e.name "" ≠ fName op2 := by
          intro e he op2 hop2
          rcases List.mem_append.mp he with he | he
          · rw [hext1, List.getD_append _ _ _ _ (hplt e he)]
            exact hpne e he op2 (by simp [hop2])
          · rw [List.mem_singleton] at he
            subst he
            rw [a6]
            intro hc
            exact hname (hc ▸ List.mem_map_of_mem fName hop2)
        rw [applyFOps_cons,
          ih.1 op tbl pre es (by omega) hgop hnd hsub hstrs1 hok hplt
            (fun e he => hpne e he op (by simp)),
          ih.2 rest (fElemOf tbl op).2 pre (es ++ [(fElemOf tbl op).1]) (by omega)
            hgrest a1 a2 hstrs2 hok2 hplt2 hpne2,
          fElemsOf_cons]
        simp

theorem fWrite_top (univ : Finset String) (hcard : univ.card ≤ 8192) (ops : List FOp)
    (hg : fGoodList ops = true) (hstrs : ∀ s ∈ fStrsList ops, s ∈ univ) :
    applyFOps ops 0 ⟨[], []⟩ = ⟨(fElemsOf [] ops).2, encElems (fElemsOf [] ops).1⟩ := by
  have h := (fWrite_fuel univ hcard (fSizeList ops)).2 ops [] [] [] le_rfl hg
    List.nodup_nil (by simp) hstrs (by intro e he; cases he)
    (by intro e he; cases he) (by intro e he _ _; cases he)
  simpa using h

/-! ### Reading the payloads back -/

theorem readU32_append_right (pre l : List Nat) (k : Nat) :
    readU32 (pre ++ l) (pre.length + k) = readU32 l k := by
  unfold readU32
  have h0 := byteGet_append_right pre l k
  have h1 := byteGet_append_right pre l (k + 1)
  have h2 := byteGet_append_right pre l (k + 2)
  have h3 := byteGet_append_right pre l (k + 3)
  rw [show pre.length + k + 1 = pre.length + (k + 1) from by omega,
    show pre.length + k + 2 = pre.length + (k + 2) from by omega,
    show pre.length + k + 3 = pre.length + (k + 3) from by omega, h0, h1, h2, h3]

theorem readU32_of_slice_at {buf : List Nat} {p n : Nat} {body : List Nat}
    (hs : sliceN buf p n = body) {j : Nat} (hj : j + 4 ≤ body.length) :
    readU32 buf (p + j) = readU32 body j := by
  unfold readU32
  have h0 := byteGet_of_slice hs (j := j) (by omega)
  have h1 := byteGet_of_slice hs (j := j + 1) (by omega)
  have h2 := byteGet_of_slice hs (j := j + 2) (by omega)
  have h3 := byteGet_of_slice hs (j := j + 3) (by omega)
  rw [show p + j + 1 = p + (j + 1) from by omega,
    show p + j + 2 = p + (j + 2) from by omega,
    show p + j + 3 = p + (j + 3) from by omega, h0, h1, h2, h3]

theorem readU32_flatten4 (ws : List (List Nat)) (hw : ∀ w ∈ ws, w.length = 4) :
    ∀ i, i < ws.length → readU32 ws.flatten (4 * i) = readU32 (ws.getD i []) 0 := by
  induction ws with
  | nil => intro i hi; simp at hi
  | cons w rest ih =>
    intro i hi
    have h4 : w.length = 4 := hw w (by simp)
    cases i with
    | zero =>
      rw [List.flatten_cons, List.getD_cons_zero]
      unfold readU32
      simp only [Nat.mul_zero, Nat.zero_add]
      rw [byteGet_append_left _ _ 0 (by omega), byteGet_append_left _ _ 1 (by omega),
        byteGet_append_left _ _ 2 (by omega), byteGet_append_left _ _ 3 (by omega)]
    | succ i2 =>
      rw [List.flatten_cons,
        show 4 * (i2 + 1) = w.length + 4 * i2 from by rw [h4]; omega,
        readU32_append_right, List.getD_cons_succ]
      exact ih (fun x hx => hw x (by simp [hx])) i2 (by simpa using hi)

theorem getD_map_lt {α β : Type} (f : α → β) (xs : List α) (i : Nat)
    (hi : i < xs.length) (d : α) (d2 : β) :
    (xs.map f).getD i d2 = f (xs.getD i d) := by
  rw [List.getD_eq_getElem _ _ (by simpa using hi), List.getD_eq_getElem _ _ hi,
    List.getElem_map]

theorem getD_mem {α : Type} (xs : List α) (i : Nat) (hi : i < xs.length) (d : α) :
    xs.getD i d ∈ xs := by
  rw [List.getD_eq_getElem _ _ hi]
  exact List.getElem_mem hi

theorem set_append_len {α : Type} (acc : List α) (r : α) (rest : List α) (v : α) :
    (acc ++ r :: rest).set acc.length v = acc ++ v :: rest := by
  induction acc with
  | nil => rfl
  | cons a t ih =>
    show a :: ((t ++ r :: rest).set t.length v) = a :: (t ++ v :: rest)
    rw [ih]

theorem applyACalls_fill {α : Type} (d : α) (f : Nat → α) :
    ∀ (rest : List α) (j : Nat) (acc : List α), acc.length = j →
    applyACalls d ((List.range' j rest.length).map fun i => ACall.elem i (f i))
        (acc ++ rest) =
      acc ++ (List.range' j rest.length).map f := by
  intro rest
  induction rest with
  | nil =>
    intro j acc hj
    simp [applyACalls]
  | cons r rest2 ih =>
    intro j acc hj
    subst hj
    rw [show (r :: rest2).length = rest2.length + 1 from rfl, List.range'_succ]
    simp only [List.map_cons]
    rw [applyACalls, set_append_len,
      show acc ++ f acc.length :: rest2 = (acc ++ [f acc.length]) ++ rest2 from by simp,
      ih (acc.length + 1) (acc ++ [f acc.length]) (by simp)]
    simp

theorem applyACalls_size_elems {α : Type} (d : α) (f : Nat → α) (n : Nat)
    (prior : List α) :
    applyACalls d (ACall.size n :: (List.range n).map fun i => ACall.elem i (f i))
        prior = (List.range n).map f := by
  rw [applyACalls]
  have hlen : (prior.take n ++ List.replicate (n - prior.length) d).length = n := by
    simp
    omega
  rw [List.range_eq_range']
  have h := applyACalls_fill d f
    (prior.take n ++ List.replicate (n - prior.length) d) 0 [] rfl
  rw [hlen] at h
  simpa using h

theorem applyACalls_all {α : Type} (d : α) (ys : List α) (prior : List α) :
    applyACalls d [ACall.all ys] prior = ys := rfl

theorem range_map_eq {α : Type} (d : α) (n : Nat) (f : Nat → α) (xs : List α)
    (hlen : xs.length = n) (h : ∀ i, i < n → f i = xs.getD i d) :
    (List.range n).map f = xs := by
  apply List.ext_getElem
  · simp [hlen]
  · intro i h1 h2
    simp only [List.getElem_map, List.getElem_range]
    rw [h i (by simpa using h1), List.getD_eq_getElem _ _ h2]

theorem filterMap_eq_map_of {α β : Type} (l : List α) (f : α → Option β) (g : α → β)
    (h : ∀ a ∈ l, f a = some (g a)) : l.filterMap f = l.map g := by
  induction l with
  | nil => rfl
  | cons a t ih =>
    rw [List.filterMap_cons, h a (by simp), List.map_cons,
      ih fun x hx => h x (by simp [hx])]

theorem readArrayIntAt_spec (fr : FloatRt) (bulk : Bool) (buf : List Nat) (off : Nat)
    (xs : List Int)
    (hsl : sliceN buf (off + 6)
        (encodeAH tInt xs.length ++ (xs.map fun x => encodeU32 (toU32 x)).flatten).length =
      encodeAH tInt xs.length ++ (xs.map fun x => encodeU32 (toU32 x)).flatten)
    (hk : xs.length < 536870912)
    (hrange : ∀ x ∈ xs, -2147483648 ≤ x ∧ x < 2147483648) :
    ∀ prior, applyACalls 0 (readArrayIntAt fr bulk buf off) prior = xs := by
  intro prior
  have hlen : (encodeAH tInt xs.length ++
      (xs.map fun x => encodeU32 (toU32 x)).flatten).length = 4 + 4 * xs.length := by
    simp only [List.length_append, flatten_enc_length]
    simp [encodeAH, encodeU32]
  have h8 : tInt % 8 < 8 := Nat.mod_lt _ (by norm_num)
  have h1 : readU32 buf (off + 6) = tInt % 8 + 8 * xs.length := by
    have h0 := readU32_of_slice_at hsl (j := 0) (by rw [hlen]; omega)
    rw [Nat.add_zero] at h0
    rw [h0, show encodeAH tInt xs.length =
      encodeU32 (tInt % 8 + 8 * xs.length) from rfl]
    have hv := readU32_encode [] ((xs.map fun x => encodeU32 (toU32 x)).flatten)
      (tInt % 8 + 8 * xs.length)
    simp only [List.nil_append, List.length_nil] at hv
    rw [hv]
    exact Nat.mod_eq_of_lt (by omega)
  have hinner : ahInner buf (off + 6) = tInt := by
    unfold ahInner
    rw [h1]
    have ht : tInt % 8 = tInt := rfl
    omega
  have hcount : ahCount buf (off + 6) = xs.length := by
    unfold ahCount
    rw [h1]
    omega
  have hval : ∀ i, i < xs.length →
      toI32 (readU32 buf (off + 10 + 4 * i)) = xs.getD i 0 := by
    intro i hi
    rw [show off + 10 + 4 * i = off + 6 + (4 + 4 * i) from by omega,
      readU32_of_slice_at hsl (by rw [hlen]; omega),
      show (4 : Nat) + 4 * i = (encodeAH tInt xs.length).length + 4 * i from by
        simp [encodeAH, encodeU32],
      readU32_append_right,
      readU32_flatten4 _ (by
        intro w hw
        simp only [List.mem_map] at hw
        obtain ⟨x, _, rfl⟩ := hw
        simp [encodeU32]) i (by simpa using hi),
      getD_map_lt _ xs i hi 0 []]
    have hv := readU32_encode [] [] (toU32 (xs.getD i 0))
    simp only [List.nil_append, List.append_nil, List.length_nil] at hv
    rw [hv, Nat.mod_eq_of_lt (toU32_lt _)]
    have hx := hrange (xs.getD i 0) (getD_mem xs i hi 0)
    exact toI32_toU32 _ hx.1 hx.2
  simp only [readArrayIntAt]
  rw [hinner, hcount, if_pos rfl]
  cases bulk with
  | true =>
    rw [if_pos rfl, applyACalls_all]
    exact range_map_eq 0 xs.length _ xs rfl fun i hi => hval i hi
  | false =>
    rw [if_neg (by simp), applyACalls_size_elems]
    exact range_map_eq 0 xs.length _ xs rfl fun i hi => hval i hi

theorem readArrayUIntAt_spec (fr : FloatRt) (bulk : Bool) (buf : List Nat) (off : Nat)
    (xs : List Nat)
    (hsl : sliceN buf (off + 6)
        (encodeAH tUInt xs.length ++
          (xs.map fun x => encodeU32 (x % 4294967296)).flatten).length =
      encodeAH tUInt xs.length ++ (xs.map fun x => encodeU32 (x % 4294967296)).flatten)
    (hk : xs.length < 536870912)
    (hrange : ∀ x ∈ xs, x < 4294967296) :
    ∀ prior, applyACalls 0 (readArrayUIntAt fr bulk buf off) prior = xs := by
  intro prior
  have hlen : (encodeAH tUInt xs.length ++
      (xs.map fun x => encodeU32 (x % 4294967296)).flatten).length =
      4 + 4 * xs.length := by
    simp only [List.length_append, flatten_enc_length]
    simp [encodeAH, encodeU32]
  have h8 : tUInt % 8 < 8 := Nat.mod_lt _ (by norm_num)
  have h1 : readU32 buf (off + 6) = tUInt % 8 + 8 * xs.length := by
    have h0 := readU32_of_slice_at hsl (j := 0) (by rw [hlen]; omega)
    rw [Nat.add_zero] at h0
    rw [h0, show encodeAH tUInt xs.length =
      encodeU32 (tUInt % 8 + 8 * xs.length) from rfl]
    have hv := readU32_encode [] ((xs.map fun x => encodeU32 (x % 4294967296)).flatten)
      (tUInt % 8 + 8 * xs.length)
    simp only [List.nil_append, List.length_nil] at hv
    rw [hv]
    exact Nat.mod_eq_of_lt (by omega)
  have hinner : ahInner buf (off + 6) = tUInt := by
    unfold ahInner
    rw [h1]
    have ht : tUInt % 8 = tUInt := rfl
    omega
  have hcount : ahCount buf (off + 6) = xs.length := by
    unfold ahCount
    rw [h1]
    omega
  have hval : ∀ i, i < xs.length →
      readU32 buf (off + 10 + 4 * i) = xs.getD i 0 := by
    intro i hi
    rw [show off + 10 + 4 * i = off + 6 + (4 + 4 * i) from by omega,
      readU32_of_slice_at hsl (by rw [hlen]; omega),
      show (4 : Nat) + 4 * i = (encodeAH tUInt xs.length).length + 4 * i from by
        simp [encodeAH, encodeU32],
      readU32_append_right,
      readU32_flatten4 _ (by
        intro w hw
        simp only [List.mem_map] at hw
        obtain ⟨x, _, rfl⟩ := hw
        simp [encodeU32]) i (by simpa using hi),
      getD_map_lt _ xs i hi 0 []]
    have hv := readU32_encode [] [] (xs.getD i 0 % 4294967296)
    simp only [List.nil_append, List.append_nil, List.length_nil] at hv
    rw [hv]
    have hx := hrange (xs.getD i 0) (getD_mem xs i hi 0)
    omega
  simp only [readArrayUIntAt]
  rw [hinner, hcount, if_pos rfl]
  cases bulk with
  | true =>
    rw [if_pos rfl, applyACalls_all]
    exact range_map_eq 0 xs.length _ xs rfl fun i hi => hval i hi
  | false =>
    rw [if_neg (by simp), applyACalls_size_elems]
    exact range_map_eq 0 xs.length _ xs rfl fun i hi => hval i hi

theorem readArrayFloatAt_spec (fr : FloatRt) (bulk : Bool) (buf : List Nat) (off : Nat)
    (xs : List Nat)
    (hsl : sliceN buf (off + 6)
        (encodeAH tFloat xs.length ++
          (xs.map fun x => encodeU32 (x % 4294967296)).flatten).length =
      encodeAH tFloat xs.length ++ (xs.map fun x => encodeU32 (x % 4294967296)).flatten)
    (hk : xs.length < 536870912)
    (hrange : ∀ x ∈ xs, x < 4294967296) :
    ∀ prior, applyACalls 0 (readArrayFloatAt fr bulk buf off) prior = xs := by
  intro prior
  have hlen : (encodeAH tFloat xs.length ++
      (xs.map fun x => encodeU32 (x % 4294967296)).flatten).length =
      4 + 4 * xs.length := by
    simp only [List.length_append, flatten_enc_length]
    simp [encodeAH, encodeU32]
  have h8 : tFloat % 8 < 8 := Nat.mod_lt _ (by norm_num)
  have h1 : readU32 buf (off + 6) = tFloat % 8 + 8 * xs.length := by
    have h0 := readU32_of_slice_at hsl (j := 0) (by rw [hlen]; omega)
    rw [Nat.add_zero] at h0
    rw [h0, show encodeAH tFloat xs.length =
      encodeU32 (tFloat % 8 + 8 * xs.length) from rfl]
    have hv := readU32_encode [] ((xs.map fun x => encodeU32 (x % 4294967296)).flatten)
      (tFloat % 8 + 8 * xs.length)
    simp only [List.nil_append, List.length_nil] at hv
    rw [hv]
    exact Nat.mod_eq_of_lt (by omega)
  have hinner : ahInner buf (off + 6) = tFloat := by
    unfold ahInner
    rw [h1]
    have ht : tFloat % 8 = tFloat := rfl
    omega
  have hcount : ahCount buf (off + 6) = xs.length := by
    unfold ahCount
    rw [h1]
    omega
  have hval : ∀ i, i < xs.length →
      readU32 buf (off + 10 + 4 * i) = xs.getD i 0 := by
    intro i hi
    rw [show off + 10 + 4 * i = off + 6 + (4 + 4 * i) from by omega,
      readU32_of_slice_at hsl (by rw [hlen]; omega),
      show (4 : Nat) + 4 * i = (encodeAH tFloat xs.length).length + 4 * i from by
        simp [encodeAH, encodeU32],
      readU32_append_right,
      readU32_flatten4 _ (by
        intro w hw
        simp only [List.mem_map] at hw
        obtain ⟨x, _, rfl⟩ := hw
        simp [encodeU32]) i (by simpa using hi),
      getD_map_lt _ xs i hi 0 []]
    have hv := readU32_encode [] [] (xs.getD i 0 % 4294967296)
    simp only [List.nil_append, List.append_nil, List.length_nil] at hv
    rw [hv]
    have hx := hrange (xs.getD i 0) (getD_mem xs i hi 0)
    omega
  simp only [readArrayFloatAt]
  rw [hinner, hcount, if_pos rfl]
  cases bulk with
  | true =>
    rw [if_pos rfl, applyACalls_all]
    exact range_map_eq 0 xs.length _ xs rfl fun i hi => hval i hi
  | false =>
    rw [if_neg (by simp), applyACalls_size_elems]
    exact range_map_eq 0 xs.length _ xs rfl fun i hi => hval i hi

theorem readArrayBoolAt_spec (buf : List Nat) (off : Nat) (xs : List Bool)
    (hsl : sliceN buf (off + 6)
        (encodeAH tBool xs.length ++
          (xs.map fun b => if b then (1 : Nat) else 0)).length =
      encodeAH tBool xs.length ++ (xs.map fun b => if b then (1 : Nat) else 0))
    (hk : xs.length < 536870912) :
    ∀ prior, applyACalls false (readArrayBoolAt buf off) prior = xs := by
  intro prior
  have hlen : (encodeAH tBool xs.length ++
      (xs.map fun b => if b then (1 : Nat) else 0)).length = 4 + xs.length := by
    simp [encodeAH, encodeU32]
    omega
  have h8 : tBool % 8 < 8 := Nat.mod_lt _ (by norm_num)
  have h1 : readU32 buf (off + 6) = tBool % 8 + 8 * xs.length := by
    have h0 := readU32_of_slice_at hsl (j := 0) (by rw [hlen]; omega)
    rw [Nat.add_zero] at h0
    rw [h0, show encodeAH tBool xs.length =
      encodeU32 (tBool % 8 + 8 * xs.length) from rfl]
    have hv := readU32_encode [] (xs.map fun b => if b then (1 : Nat) else 0)
      (tBool % 8 + 8 * xs.length)
    simp only [List.nil_append, List.length_nil] at hv
    rw [hv]
    exact Nat.mod_eq_of_lt (by omega)
  have hcount : ahCount buf (off + 6) = xs.length := by
    unfold ahCount
    rw [h1]
    omega
  have hval : ∀ i, i < xs.length →
      decide (0 < byteGet buf (off + 10 + i)) = xs.getD i false := by
    intro i hi
    rw [show off + 10 + i = off + 6 + (4 + i) from by omega,
      byteGet_of_slice hsl (by rw [hlen]; omega),
      show (4 : Nat) + i = (encodeAH tBool xs.length).length + i from by
        simp [encodeAH, encodeU32],
      byteGet_append_right]
    unfold byteGet
    rw [getD_map_lt _ xs i hi false 0]
    cases hb : xs.getD i false <;> simp [hb]
  simp only [readArrayBoolAt]
  rw [hcount, applyACalls_size_elems]
  exact range_map_eq false xs.length _ xs rfl fun i hi => hval i hi

theorem readArrStrHeader_spec (buf : List Nat) (off : Nat) (is : List Nat)
    (n : Nat)
    (hsl : sliceN buf (off + 6)
        (encodeAH tString n ++ (is.map fun x => encodeU32 x).flatten).length =
      encodeAH tString n ++ (is.map fun x => encodeU32 x).flatten)
    (hilen : is.length = n) (hk : n < 536870912) :
    ahCount buf (off + 6) = n ∧
    ∀ i, i < n → readU32 buf (off + 10 + 4 * i) = is.getD i 0 % 4294967296 := by
  have hpl : ((is.map fun x => encodeU32 x).flatten).length = 4 * n := by
    rw [flatten4_length]
    · rw [List.length_map, hilen]
    · intro w hw
      simp only [List.mem_map] at hw
      obtain ⟨x, _, rfl⟩ := hw
      simp [encodeU32]
  have hlen : (encodeAH tString n ++ (is.map fun x => encodeU32 x).flatten).length =
      4 + 4 * n := by
    rw [List.length_append, hpl]
    simp [encodeAH, encodeU32]
  have h8 : tString % 8 < 8 := Nat.mod_lt _ (by norm_num)
  have h1 : readU32 buf (off + 6) = tString % 8 + 8 * n := by
    have h0 := readU32_of_slice_at hsl (j := 0) (by rw [hlen]; omega)
    rw [Nat.add_zero] at h0
    rw [h0, show encodeAH tString n = encodeU32 (tString % 8 + 8 * n) from rfl]
    have hv := readU32_encode [] ((is.map fun x => encodeU32 x).flatten)
      (tString % 8 + 8 * n)
    simp only [List.nil_append, List.length_nil] at hv
    rw [hv]
    exact Nat.mod_eq_of_lt (by omega)
  constructor
  · unfold ahCount
    rw [h1]
    omega
  · intro i hi
    rw [show off + 10 + 4 * i = off + 6 + (4 + 4 * i) from by omega,
      readU32_of_slice_at hsl (by rw [hlen]; omega),
      show (4 : Nat) + 4 * i = (encodeAH tString n).length + 4 * i from by
        simp [encodeAH, encodeU32],
      readU32_append_right,
      readU32_flatten4 _ (by
        intro w hw
        simp only [List.mem_map] at hw
        obtain ⟨x, _, rfl⟩ := hw
        simp [encodeU32]) i (by simp [hilen]; omega),
      getD_map_lt _ is i (by omega) 0 []]
    have hv := readU32_encode [] [] (is.getD i 0)
    simp only [List.nil_append, List.append_nil, List.length_nil] at hv
    rw [hv]

/-- Joint read-back: each call of a well-formed sequence reads back from the
compacted scope encoding under any table extending the final one. -/
theorem fReads_fuel (univ : Finset String) (hcard : univ.card ≤ 8192) (fr : FloatRt)
    (N : Nat) :
    (∀ (op : FOp) (tbl : List String) (es : List MElem) (strsF : List String)
      (off : Nat),
      fSize op ≤ N →
      fGood op = true → tbl.Nodup → tbl.toFinset ⊆ univ →
      (∀ s ∈ fStrs op, s ∈ univ) →
      (∀ a ∈ es, ElemOk a) → (∀ a ∈ es, BodyLenOk a) →
      (∃ ext, strsF = (fElemOf tbl op).2 ++ ext) →
      mFind strsF (fName op) es 0 = some (off, (fElemOf tbl op).1) →
      readsBackF fr strsF (encElems es) op) ∧
    (∀ (l : List FOp) (tbl : List String) (esPre : List MElem) (strsF : List String),
      fSizeList l ≤ N →
      fGoodList l = true → tbl.Nodup → tbl.toFinset ⊆ univ →
      (∀ s ∈ fStrsList l, s ∈ univ) →
      (∀ a ∈ esPre, ElemOk a) → (∀ a ∈ esPre, BodyLenOk a) →
      (∃ ext, strsF = (fElemsOf tbl l).2 ++ ext) →
      (∀ a ∈ esPre, ∀ op ∈ l, strsF.getD a.name "" ≠ fName op) →
      readsBackFs fr strsF (encElems (esPre ++ (fElemsOf tbl l).1)) l) := by
  induction N with
  | zero =>
    constructor
    · intro op tbl es strsF off h
      cases op <;> simp [fSize] at h
    · intro l tbl esPre strsF h
      cases l with
      | nil =>
        intro _ _ _ _ _ _ _ _
        rw [readsBackFs]
        trivial
      | cons op rest =>
        rw [fSizeList] at h
        exact fun _ _ _ _ _ _ _ _ => absurd h (by omega)
  | succ n ih =>
    constructor
    · intro op tbl es strsF off h hg hnd hsub hstrs hok hbody hextF hm
      have hd : DecodesTo (encElems es) 0 es := by
        have := decodesTo_encode es [] [] hok
        simpa using this
      cases op with
      | fInt nm v =>
        simp only [fName, fElemOf] at hm
        rw [fGood] at hg
        simp only [Bool.and_eq_true, decide_eq_true_eq] at hg
        rw [readsBackF]
        intro d
        rw [readIntBin_spec fr strsF es nm d hok hbody, hm]
        show numToInt fr (readNumericAt (encodeU32 (toU32 v)) tInt 0) d = v
        have hr : readU32 (encodeU32 (toU32 v)) 0 = toU32 v := by
          have h2 := readU32_encode [] [] (toU32 v)
          simpa [Nat.mod_eq_of_lt (toU32_lt v)] using h2
        simp [readNumericAt, tInt, numToInt, hr, toI32_toU32 v hg.1 hg.2]
      | fUInt nm v =>
        simp only [fName, fElemOf] at hm
        rw [fGood] at hg
        simp only [decide_eq_true_eq] at hg
        rw [readsBackF]
        intro d
        rw [readUIntBin_spec fr strsF es nm d hok hbody, hm]
        show numToUInt fr (readNumericAt (encodeU32 (v % 4294967296)) tUInt 0) d = v
        have hv2 : v % 4294967296 = v := Nat.mod_eq_of_lt hg
        have hr : readU32 (encodeU32 v) 0 = v := by
          have h2 := readU32_encode [] [] v
          simpa [hv2] using h2
        simp [readNumericAt, tUInt, tInt, numToUInt, hr, hv2]
      | fFloat nm bits =>
        simp only [fName, fElemOf] at hm
        rw [fGood] at hg
        simp only [decide_eq_true_eq] at hg
        rw [readsBackF]
        intro d
        rw [readFloatBin_spec fr strsF es nm d hok hbody, hm]
        show numToFloat fr (readNumericAt (encodeU32 (bits % 4294967296)) tFloat 0) d =
          bits
        have hv2 : bits % 4294967296 = bits := Nat.mod_eq_of_lt hg
        have hr : readU32 (encodeU32 bits) 0 = bits := by
          have h2 := readU32_encode [] [] bits
          simpa [hv2] using h2
        simp [readNumericAt, tFloat, tUInt, tInt, numToFloat, hr, hv2]
      | fBool nm b =>
        simp only [fName, fElemOf] at hm
        rw [readsBackF]
        intro d
        rw [readBoolBin_spec strsF es nm d hok hbody, hm]
        show numToBool (readNumericAt [if b then 1 else 0] tBool 0) d = b
        cases b <;>
          simp [readNumericAt, tBool, tFloat, tUInt, tInt, numToBool, byteGet]
      | fStr nm s =>
        simp only [fName, fElemOf] at hm
        obtain ⟨ext, hext⟩ := hextF
        simp only [fElemOf] at hext
        have hvlt : (mapStringToInteger tbl s).1 <
            (mapStringToInteger tbl s).2.length := mapString_idx_lt tbl s
        have hgds : strsF.getD (mapStringToInteger tbl s).1 "" = s := by
          obtain ⟨ey, hey⟩ := msi_extends (mapStringToInteger tbl s).2 nm
          rw [hext, hey, List.append_assoc, List.getD_append _ _ _ _ hvlt]
          exact internFind_getD (mapString_find tbl s)
        obtain ⟨hs8, _, _⟩ := msi_ok hnd hsub (hstrs s (by simp [fStrs])) hcard
        rw [readsBackF]
        intro d
        unfold readStrBin
        rw [findElem_spec strsF nm es hok, hm]
        simp only [Option.map_some']
        obtain ⟨ht, _, _, hsl, _⟩ := mFind_decodes hd hm
        rw [ht, if_pos rfl]
        have h4 : (4 : Nat) ≤
            ((⟨tString, (mapStringToInteger (mapStringToInteger tbl s).2 nm).1,
              encodeU32 (mapStringToInteger tbl s).1⟩ : MElem)).body.length := by
          show (4 : Nat) ≤ (encodeU32 (mapStringToInteger tbl s).1).length
          simp [encodeU32]
        rw [readU32_of_slice hsl h4]
        show strsF.getD (readU32 (encodeU32 (mapStringToInteger tbl s).1) 0) "" = s
        have hr : readU32 (encodeU32 (mapStringToInteger tbl s).1) 0 =
            (mapStringToInteger tbl s).1 := by
          have h2 := readU32_encode [] [] (mapStringToInteger tbl s).1
          simpa [Nat.mod_eq_of_lt
            (show (mapStringToInteger tbl s).1 < 4294967296 by omega)] using h2
        rw [hr, hgds]
      | fArrInt nm xs =>
        simp only [fName, fElemOf] at hm
        rw [fGood] at hg
        simp only [Bool.and_eq_true, decide_eq_true_eq, List.all_eq_true] at hg
        rw [readsBackF]
        intro bulk prior
        simp only [readArrayElemIntBin]
        rw [findElem_spec strsF nm es hok, hm]
        simp only [Option.map_some']
        obtain ⟨ht, _, _, hsl, _⟩ := mFind_decodes hd hm
        rw [ht, if_pos rfl]
        exact readArrayIntAt_spec fr bulk (encElems es) off xs hsl hg.1
          (fun x hx => hg.2 x hx) prior
      | fArrUInt nm xs =>
        simp only [fName, fElemOf] at hm
        rw [fGood] at hg
        simp only [Bool.and_eq_true, decide_eq_true_eq, List.all_eq_true] at hg
        rw [readsBackF]
        intro bulk prior
        simp only [readArrayElemUIntBin]
        rw [findElem_spec strsF nm es hok, hm]
        simp only [Option.map_some']
        obtain ⟨ht, _, _, hsl, _⟩ := mFind_decodes hd hm
        rw [ht, if_pos rfl]
        exact readArrayUIntAt_spec fr bulk (encElems es) off xs hsl hg.1
          (fun x hx => hg.2 x hx) prior
      | fArrFloat nm xs =>
        simp only [fName, fElemOf] at hm
        rw [fGood] at hg
        simp only [Bool.and_eq_true, decide_eq_true_eq, List.all_eq_true] at hg
        rw [readsBackF]
        intro bulk prior
        simp only [readArrayElemFloatBin]
        rw [findElem_spec strsF nm es hok, hm]
        simp only [Option.map_some']
        obtain ⟨ht, _, _, hsl, _⟩ := mFind_decodes hd hm
        rw [ht, if_pos rfl]
        exact readArrayFloatAt_spec fr bulk (encElems es) off xs hsl hg.1
          (fun x hx => hg.2 x hx) prior
      | fArrBool nm xs =>
        simp only [fName, fElemOf] at hm
        rw [fGood] at hg
        simp only [decide_eq_true_eq] at hg
        rw [readsBackF]
        intro prior
        simp only [readArrayElemBoolBin]
        rw [findElem_spec strsF nm es hok, hm]
        simp only [Option.map_some']
        obtain ⟨ht, _, _, hsl, _⟩ := mFind_decodes hd hm
        rw [ht, if_pos rfl]
        exact readArrayBoolAt_spec (encElems es) off xs hsl hg prior
      | fArrStr nm xs =>
        simp only [fName, fElemOf] at hm
        rw [fGood] at hg
        simp only [decide_eq_true_eq] at hg
        obtain ⟨ext, hext⟩ := hextF
        simp only [fElemOf] at hext
        obtain ⟨hn8, hnnd, hnsub⟩ := msi_ok hnd hsub (hstrs nm (by simp [fStrs])) hcard
        obtain ⟨i1, i2, i3⟩ := internMany_ok xs hnnd hnsub hcard
          (fun s hs => hstrs s (by simp [fStrs, hs]))
        rw [readsBackF]
        intro prior
        simp only [readArrayElemStrBin]
        rw [findElem_spec strsF nm es hok, hm]
        simp only [Option.map_some']
        obtain ⟨ht, _, _, hsl, _⟩ := mFind_decodes hd hm
        rw [ht, if_pos rfl]
        have hil : (internMany (mapStringToInteger tbl nm).2 xs).1.length =
            xs.length := internMany_length _ xs
        obtain ⟨hcount, hvals⟩ := readArrStrHeader_spec (encElems es) off
          (internMany (mapStringToInteger tbl nm).2 xs).1 xs.length hsl hil hg
        rw [hcount, applyACalls_size_elems]
        refine range_map_eq "" xs.length _ xs rfl ?_
        intro i hi
        obtain ⟨v8, vlt, vgd⟩ := i3 i hi
        rw [hvals i hi, Nat.mod_eq_of_lt (by omega), hext,
          List.getD_append _ _ _ _ vlt]
        exact vgd
      | fObj nm fields =>
        rw [fSize] at h
        have hgp : fields.isEmpty = false ∧ fLenList fields < 4294967296 ∧
            fGoodList fields = true := by
          rw [fGood] at hg
          simp only [Bool.and_eq_true, Bool.not_eq_true', decide_eq_true_eq] at hg
          exact ⟨hg.1.1, hg.1.2, hg.2⟩
        simp only [fName, fElemOf] at hm
        obtain ⟨ext, hext⟩ := hextF
        simp only [fElemOf] at hext
        rw [readsBackF]
        unfold readObjectBin
        rw [findElem_spec strsF nm es hok, hm]
        simp only [Option.map_some']
        obtain ⟨ht, _, hszf, hsl, _⟩ := mFind_decodes hd hm
        rw [ht, if_pos rfl]
        have hsub2 : subSlice (encElems es) off = encElems (fElemsOf tbl fields).1 := by
          unfold subSlice
          rw [hszf]
          exact hsl
        rw [hsub2]
        show readsBackFs fr strsF
          (encElems (([] : List MElem) ++ (fElemsOf tbl fields).1)) fields
        obtain ⟨ey, hey⟩ := msi_extends (fElemsOf tbl fields).2 nm
        exact ih.2 fields tbl [] strsF (by omega) hgp.2.2 hnd hsub
          (fun s hs => hstrs s (by simp [fStrs, hs]))
          (by intro a ha; cases ha) (by intro a ha; cases ha)
          ⟨ey ++ ext, by rw [hext, hey, List.append_assoc]⟩
          (by intro a ha; cases ha)
    · intro l tbl esPre strsF h hg hnd hsub hstrs hpok hpbody hextF hpne
      cases l with
      | nil =>
        rw [readsBackFs]
        trivial
      | cons op rest =>
        rw [fSizeList] at h
        obtain ⟨hgop, hgrest, hname⟩ := fGoodList_parts hg
        have hstrs1 : ∀ s ∈ fStrs op, s ∈ univ := fun s hs =>
          hstrs s (by rw [fStrsList]; simp [hs])
        have hstrs2 : ∀ s ∈ fStrsList rest, s ∈ univ := fun s hs =>
          hstrs s (by rw [fStrsList]; simp [hs])
        obtain ⟨a1, a2, a3, a4, a5, a6, a7, a8, a9⟩ :=
          fShape_op hcard op tbl hgop hnd hsub hstrs1
        obtain ⟨b1, b2, b3, b4⟩ :=
          fShape_list hcard rest (fElemOf tbl op).2 hgrest a1 a2 hstrs2
        obtain ⟨extR, hextR⟩ := fElemsOf_extends (fElemOf tbl op).2 rest
        simp only [fElemsOf_cons] at hextF ⊢
        obtain ⟨ext, hext⟩ := hextF
        have hlt2 : (fElemOf tbl op).1.name <
            (fElemsOf (fElemOf tbl op).2 rest).2.length := by
          rw [hextR, List.length_append]
          omega
        have hgs : strsF.getD (fElemOf tbl op).1.name "" = fName op := by
          rw [hext, List.getD_append _ _ _ _ hlt2, hextR,
            List.getD_append _ _ _ _ a5]
          exact a6
        have heok : ElemOk (fElemOf tbl op).1 :=
          ⟨by rw [a3]; exact fTag_lt op, a4, a8⟩
        have hokAll : ∀ a ∈ esPre ++ (fElemOf tbl op).1 ::
            (fElemsOf (fElemOf tbl op).2 rest).1, ElemOk a := by
          intro a ha
          rcases List.mem_append.mp ha with ha | ha
          · exact hpok a ha
          · rcases List.mem_cons.mp ha with rfl | ha
            · exact heok
            · exact (b4 a ha).1
        have hbodyAll : ∀ a ∈ esPre ++ (fElemOf tbl op).1 ::
            (fElemsOf (fElemOf tbl op).2 rest).1, BodyLenOk a := by
          intro a ha
          rcases List.mem_append.mp ha with ha | ha
          · exact hpbody a ha
          · rcases List.mem_cons.mp ha with rfl | ha
            · exact a9
            · exact (b4 a ha).2.1
        rw [readsBackFs]
        constructor
        · -- the head call reads back
          have huniq : ∀ a ∈ esPre ++ (fElemOf tbl op).1 ::
              (fElemsOf (fElemOf tbl op).2 rest).1,
              strsF.getD a.name "" = fName op → a = (fElemOf tbl op).1 := by
            intro a ha hga
            rcases List.mem_append.mp ha with ha | ha
            · exact absurd hga (hpne a ha op (by simp))
            · rcases List.mem_cons.mp ha with rfl | ha
              · rfl
              · exfalso
                obtain ⟨_, _, _, hc4, op2, hop2, hc5⟩ := b4 a ha
                have : strsF.getD a.name "" = fName op2 := by
                  rw [hext, List.getD_append _ _ _ _ hc4]
                  exact hc5
                rw [this] at hga
                exact hname (hga ▸ List.mem_map_of_mem fName hop2)
          obtain ⟨off, hoff⟩ := mFind_unique (by simp)
            hgs huniq 0
          exact ih.1 op tbl _ strsF off (by omega) hgop hnd hsub hstrs1 hokAll
            hbodyAll ⟨extR ++ ext, by rw [hext, hextR, List.append_assoc]⟩ hoff
        · -- the tail reads back from the same scope
          rw [show esPre ++ (fElemOf tbl op).1 ::
              (fElemsOf (fElemOf tbl op).2 rest).1 =
              (esPre ++ [(fElemOf tbl op).1]) ++
                (fElemsOf (fElemOf tbl op).2 rest).1 from by simp]
          refine ih.2 rest (fElemOf tbl op).2 (esPre ++ [(fElemOf tbl op).1]) strsF
            (by omega) hgrest a1 a2 hstrs2 ?_ ?_ ⟨ext, hext⟩ ?_
          · intro a ha
            rcases List.mem_append.mp ha with ha | ha
            · exact hpok a ha
            · rw [List.mem_singleton] at ha
              subst ha
              exact heok
          · intro a ha
            rcases List.mem_append.mp ha with ha | ha
            · exact hpbody a ha
            · rw [List.mem_singleton] at ha
              subst ha
              exact a9
          · intro a ha op2 hop2
            rcases List.mem_append.mp ha with ha | ha
            · exact hpne a ha op2 (by simp [hop2])
            · rw [List.mem_singleton] at ha
              subst ha
              rw [hgs]
              intro hc
              exact hname (hc ▸ List.mem_map_of_mem fName hop2)

/-! ### The JSON round trip -/

theorem applyJFOps_nil (v : JVal) : applyJFOps [] v = v := by
  rw [applyJFOps]

theorem applyJFOps_cons (op : FOp) (rest : List FOp) (v : JVal) :
    applyJFOps (op :: rest) v = applyJFOps rest (jFOf op v) := by
  rw [applyJFOps]

theorem jsonSet_obj (v : JVal) (n : String) (x : JVal) :
    ∃ m, jsonSet v n x = .jObj m := by
  cases v <;> exact ⟨_, rfl⟩

/-- A well-formed call always stores something: the value after it is an
object (in particular, a non-empty nested scope is never skipped). -/
theorem jShape_fuel (N : Nat) :
    (∀ (op : FOp), fSize op ≤ N → fGood op = true →
      ∀ v, ∃ m, jFOf op v = .jObj m) ∧
    (∀ (l : List FOp), fSizeList l ≤ N → fGoodList l = true → l ≠ [] →
      ∀ v, ∃ m, applyJFOps l v = .jObj m) := by
  induction N with
  | zero =>
    constructor
    · intro op h
      cases op <;> simp [fSize] at h
    · intro l h _ hne
      cases l with
      | nil => exact absurd rfl hne
      | cons op rest =>
        rw [fSizeList] at h
        exact absurd h (by omega)
  | succ n ih =>
    constructor
    · intro op h hg v
      cases op with
      | fInt nm w => rw [jFOf]; exact jsonSet_obj v nm _
      | fUInt nm w => rw [jFOf]; exact jsonSet_obj v nm _
      | fFloat nm w => rw [jFOf]; exact jsonSet_obj v nm _
      | fBool nm w => rw [jFOf]; exact jsonSet_obj v nm _
      | fStr nm w => rw [jFOf]; exact jsonSet_obj v nm _
      | fArrInt nm w => rw [jFOf]; exact jsonSet_obj v nm _
      | fArrUInt nm w => rw [jFOf]; exact jsonSet_obj v nm _
      | fArrFloat nm w => rw [jFOf]; exact jsonSet_obj v nm _
      | fArrBool nm w => rw [jFOf]; exact jsonSet_obj v nm _
      | fArrStr nm w => rw [jFOf]; exact jsonSet_obj v nm _
      | fObj nm fields =>
        rw [fSize] at h
        have hgp : fields.isEmpty = false ∧ fGoodList fields = true := by
          rw [fGood] at hg
          simp only [Bool.and_eq_true, Bool.not_eq_true', decide_eq_true_eq] at hg
          exact ⟨hg.1.1, hg.2⟩
        have hne : fields ≠ [] := by
          intro hc
          rw [hc] at hgp
          simp at hgp
        obtain ⟨m, hm⟩ := ih.2 fields (by omega) hgp.2 hne JVal.jNull
        simp only [jFOf, jsonWObject]
        rw [hm]
        rw [show jIsNull (JVal.jObj m) = false from rfl,
          if_neg Bool.false_ne_true]
        exact jsonSet_obj v nm _
    · intro l h hg hne v
      cases l with
      | nil => exact absurd rfl hne
      | cons op rest =>
        rw [fSizeList] at h
        obtain ⟨hgop, hgrest, _⟩ := fGoodList_parts hg
        rw [applyJFOps_cons]
        cases rest with
        | nil =>
          rw [applyJFOps_nil]
          exact ih.1 op (by omega) hgop v
        | cons r2 rest2 =>
          refine ih.2 (r2 :: rest2) ?_ hgrest (by simp) (jFOf op v)
          rw [fSizeList] at h ⊢
          omega

theorem jFOf_name_get (op : FOp) (hg : fGood op = true) (v : JVal) :
    jsonGet (jFOf op v) (fName op) = jStoredF op := by
  cases op with
  | fObj nm fields =>
    have hgp : fields.isEmpty = false ∧ fGoodList fields = true := by
      rw [fGood] at hg
      simp only [Bool.and_eq_true, Bool.not_eq_true', decide_eq_true_eq] at hg
      exact ⟨hg.1.1, hg.2⟩
    have hne : fields ≠ [] := by
      intro hc
      rw [hc] at hgp
      simp at hgp
    obtain ⟨m, hm⟩ :=
      (jShape_fuel (fSizeList fields)).2 fields le_rfl hgp.2 hne JVal.jNull
    simp only [jFOf, jsonWObject, fName]
    rw [hm, show jIsNull (JVal.jObj m) = false from rfl,
      if_neg Bool.false_ne_true, jsonGet_set_self]
    exact hm.symm
  | fInt nm w =>
    simp [jFOf, fName, jStoredF, jsonWInt, jsonGet_set_self]
  | fUInt nm w =>
    simp [jFOf, fName, jStoredF, jsonWUInt, jsonGet_set_self]
  | fFloat nm w =>
    simp [jFOf, fName, jStoredF, jsonWFloat, jsonGet_set_self]
  | fBool nm w =>
    simp [jFOf, fName, jStoredF, jsonWBool, jsonGet_set_self]
  | fStr nm w =>
    simp [jFOf, fName, jStoredF, jsonWStr, jsonGet_set_self]
  | fArrInt nm w =>
    simp [jFOf, fName, jStoredF, jsonWArrInt, jsonGet_set_self]
  | fArrUInt nm w =>
    simp [jFOf, fName, jStoredF, jsonWArrUInt, jsonGet_set_self]
  | fArrFloat nm w =>
    simp [jFOf, fName, jStoredF, jsonWArrFloat, jsonGet_set_self]
  | fArrBool nm w =>
    simp [jFOf, fName, jStoredF, jsonWArrBool, jsonGet_set_self]
  | fArrStr nm w =>
    simp [jFOf, fName, jStoredF, jsonWArrStr, jsonGet_set_self]

theorem jFOf_other_get (op : FOp) (v : JVal) (n2 : String) (h : fName op ≠ n2) :
    jsonGet (jFOf op v) n2 = jsonGet v n2 := by
  cases op with
  | fObj nm fields =>
    simp only [jFOf, jsonWObject]
    split
    · rfl
    · exact jsonGet_set_other v _ n2 _ (by simpa [fName] using h)
  | fInt nm w =>
    simp only [jFOf, jsonWInt]
    exact jsonGet_set_other v _ n2 _ (by simpa [fName] using h)
  | fUInt nm w =>
    simp only [jFOf, jsonWUInt]
    exact jsonGet_set_other v _ n2 _ (by simpa [fName] using h)
  | fFloat nm w =>
    simp only [jFOf, jsonWFloat]
    exact jsonGet_set_other v _ n2 _ (by simpa [fName] using h)
  | fBool nm w =>
    simp only [jFOf, jsonWBool]
    exact jsonGet_set_other v _ n2 _ (by simpa [fName] using h)
  | fStr nm w =>
    simp only [jFOf, jsonWStr]
    exact jsonGet_set_other v _ n2 _ (by simpa [fName] using h)
  | fArrInt nm w =>
    simp only [jFOf, jsonWArrInt]
    exact jsonGet_set_other v _ n2 _ (by simpa [fName] using h)
  | fArrUInt nm w =>
    simp only [jFOf, jsonWArrUInt]
    exact jsonGet_set_other v _ n2 _ (by simpa [fName] using h)
  | fArrFloat nm w =>
    simp only [jFOf, jsonWArrFloat]
    exact jsonGet_set_other v _ n2 _ (by simpa [fName] using h)
  | fArrBool nm w =>
    simp only [jFOf, jsonWArrBool]
    exact jsonGet_set_other v _ n2 _ (by simpa [fName] using h)
  | fArrStr nm w =>
    simp only [jFOf, jsonWArrStr]
    exact jsonGet_set_other v _ n2 _ (by simpa [fName] using h)

theorem applyJFOps_get_other (l : List FOp) (v : JVal) (n2 : String)
    (h : n2 ∉ l.map fName) : jsonGet (applyJFOps l v) n2 = jsonGet v n2 := by
  induction l generalizing v with
  | nil => rw [applyJFOps_nil]
  | cons op rest ih =>
    have h1 : fName op ≠ n2 := by
      intro hc
      exact h (by simp [hc])
    have h2 : n2 ∉ rest.map fName := by
      intro hc
      exact h (by simp [hc])
    rw [applyJFOps_cons, ih (jFOf op v) h2, jFOf_other_get op v n2 h1]

theorem jsonRArrStr_arr (root : JVal) (name : String) (ys : List JVal)
    (h : jsonGet root name = .jArr ys) :
    jsonRArrStr root name = .size ys.length ::
      (List.range ys.length).filterMap fun i =>
        match ys.getD i .jNull with
        | .jStr s => some (.elem i s)
        | _ => none := by
  unfold jsonRArrStr
  rw [h]

/-- Joint JSON read-back: a stored member reads back, and a replayed
sequence reads back every one of its calls. -/
theorem jReads_fuel (fr : FloatRt) (ext : JVal → String) (N : Nat) :
    (∀ (op : FOp) (root : JVal), fSize op ≤ N → fGood op = true →
      jsonGet root (fName op) = jStoredF op → readsBackJ fr ext root op) ∧
    (∀ (l : List FOp) (v0 : JVal), fSizeList l ≤ N → fGoodList l = true →
      readsBackJs fr ext (applyJFOps l v0) l) := by
  induction N with
  | zero =>
    constructor
    · intro op root h
      cases op <;> simp [fSize] at h
    · intro l v0 h
      cases l with
      | nil =>
        intro _
        rw [readsBackJs]
        trivial
      | cons op rest =>
        rw [fSizeList] at h
        exact fun _ => absurd h (by omega)
  | succ n ih =>
    constructor
    · intro op root h hg hget
      cases op with
      | fInt nm v =>
        rw [fGood] at hg
        simp only [Bool.and_eq_true, decide_eq_true_eq] at hg
        simp only [fName, jStoredF] at hget
        rw [readsBackJ]
        intro d
        simp [jsonRInt, hget, jIsNumeric, jAsInt, toI32_toU32 v hg.1 hg.2]
      | fUInt nm v =>
        rw [fGood] at hg
        simp only [decide_eq_true_eq] at hg
        simp only [fName, jStoredF] at hget
        rw [readsBackJ]
        intro d
        simp [jsonRUInt, hget, jIsNumeric, jAsUInt, toU32_natCast v hg]
      | fFloat nm bits =>
        simp only [fName, jStoredF] at hget
        rw [readsBackJ]
        intro d
        simp [jsonRFloat, hget, jIsNumeric, jAsFloatBits]
      | fBool nm b =>
        simp only [fName, jStoredF] at hget
        rw [readsBackJ]
        intro d
        simp [jsonRBool, hget, jIsBool, jAsBool]
      | fStr nm s =>
        simp only [fName, jStoredF] at hget
        rw [readsBackJ]
        intro d
        simp [jsonRStr, hget]
      | fArrInt nm xs =>
        rw [fGood] at hg
        simp only [Bool.and_eq_true, decide_eq_true_eq, List.all_eq_true] at hg
        simp only [fName, jStoredF] at hget
        rw [readsBackJ]
        intro prior
        unfold jsonRArrInt
        rw [hget]
        rw [jsonRArrTrace]
        rw [List.length_map, applyACalls_size_elems]
        refine range_map_eq 0 xs.length _ xs rfl ?_
        intro i hi
        rw [getD_map_lt JVal.jInt xs i hi 0 JVal.jNull, jAsInt]
        have hx := hg.2 (xs.getD i 0) (getD_mem xs i hi 0)
        exact toI32_toU32 _ hx.1 hx.2
      | fArrUInt nm xs =>
        rw [fGood] at hg
        simp only [Bool.and_eq_true, decide_eq_true_eq, List.all_eq_true] at hg
        simp only [fName, jStoredF] at hget
        rw [readsBackJ]
        intro prior
        unfold jsonRArrUInt
        rw [hget]
        rw [jsonRArrTrace]
        rw [List.length_map, applyACalls_size_elems]
        refine range_map_eq 0 xs.length _ xs rfl ?_
        intro i hi
        rw [getD_map_lt (fun u : Nat => JVal.jInt (Int.ofNat u)) xs i hi 0
          JVal.jNull, jAsUInt]
        have hx := hg.2 (xs.getD i 0) (getD_mem xs i hi 0)
        exact toU32_natCast _ hx
      | fArrFloat nm xs =>
        simp only [fName, jStoredF] at hget
        rw [readsBackJ]
        intro prior
        unfold jsonRArrFloat
        rw [hget]
        rw [jsonRArrTrace]
        rw [List.length_map, applyACalls_size_elems]
        refine range_map_eq 0 xs.length _ xs rfl ?_
        intro i hi
        rw [getD_map_lt JVal.jReal xs i hi 0 JVal.jNull, jAsFloatBits]
      | fArrBool nm xs =>
        simp only [fName, jStoredF] at hget
        rw [readsBackJ]
        intro prior
        unfold jsonRArrBool
        rw [hget]
        rw [jsonRArrTrace]
        rw [List.length_map, applyACalls_size_elems]
        refine range_map_eq false xs.length _ xs rfl ?_
        intro i hi
        rw [getD_map_lt JVal.jBool xs i hi false JVal.jNull, jAsBool]
      | fArrStr nm xs =>
        simp only [fName, jStoredF] at hget
        rw [readsBackJ]
        intro prior
        rw [jsonRArrStr_arr root nm _ hget]
        rw [filterMap_eq_map_of _ _
          (fun i => ACall.elem i (xs.getD i "")) ?hmap]
        case hmap =>
          intro i hi
          rw [List.mem_range, List.length_map] at hi
          rw [getD_map_lt JVal.jStr xs i hi "" JVal.jNull]
        rw [List.length_map, applyACalls_size_elems]
        exact range_map_eq "" xs.length _ xs rfl fun i hi => rfl
      | fObj nm fields =>
        rw [fSize] at h
        have hgp : fields.isEmpty = false ∧ fGoodList fields = true := by
          rw [fGood] at hg
          simp only [Bool.and_eq_true, Bool.not_eq_true', decide_eq_true_eq] at hg
          exact ⟨hg.1.1, hg.2⟩
        have hne : fields ≠ [] := by
          intro hc
          rw [hc] at hgp
          simp at hgp
        simp only [fName, jStoredF] at hget
        rw [readsBackJ]
        simp only [jsonRObject]
        rw [hget]
        obtain ⟨m, hm⟩ :=
          (jShape_fuel (fSizeList fields)).2 fields le_rfl hgp.2 hne JVal.jNull
        have hnull : jIsNull (applyJFOps fields JVal.jNull) = false := by
          rw [hm]
          rfl
        rw [hnull, if_neg Bool.false_ne_true]
        show readsBackJs fr ext (applyJFOps fields JVal.jNull) fields
        exact ih.2 fields JVal.jNull (by omega) hgp.2
    · intro l v0 h hg
      cases l with
      | nil =>
        rw [readsBackJs]
        trivial
      | cons op rest =>
        rw [fSizeList] at h
        obtain ⟨hgop, hgrest, hname⟩ := fGoodList_parts hg
        rw [applyJFOps_cons, readsBackJs]
        constructor
        · refine ih.1 op _ (by omega) hgop ?_
          rw [applyJFOps_get_other rest (jFOf op v0) (fName op) hname]
          exact jFOf_name_get op hgop v0
        · exact ih.2 rest (jFOf op v0) (by omega) hgrest

/-- C1 (amended): the round trip holds on both encoders for objects of
scalar, byte-string and primitive-array fields and non-empty nested object
scopes, to any depth.  For any call sequence with pairwise-distinct names in
each scope, values within the persisted widths (i32/u32/f32, array counts in
29 bits, nested bodies in 32 bits) and at most 8192 distinct strings, every
field read back from the finalized binary stream — and from the JSON tree —
returns exactly the written value: scalars for any prior slot value, arrays
rebuilding exactly the written list from any prior adapter state, nested
objects found and replayed on their body slice.  Object arrays are excluded
(`c1_counterexample`). -/
theorem c1_round_trip (fr : FloatRt) (ext : JVal → String) (ops : List FOp)
    (univ : Finset String)
    (hstrs : ∀ s ∈ fStrsList ops, s ∈ univ) (hcard : univ.card ≤ 8192)
    (hgood : fGoodList ops = true) :
    readsBackFs fr (binDtor 0 (applyFOps ops 0 ⟨[], []⟩)).strings
      (binDtor 0 (applyFOps ops 0 ⟨[], []⟩)).buf ops ∧
    readsBackJs fr ext (applyJFOps ops .jNull) ops := by
  constructor
  · obtain ⟨s1, s2, s3, s4⟩ := fShape_list hcard ops [] hgood List.nodup_nil
      (by simp) hstrs
    rw [fWrite_top univ hcard ops hgood hstrs]
    have hbd : binDtor 0 ⟨(fElemsOf [] ops).2, encElems (fElemsOf [] ops).1⟩ =
        ⟨(fElemsOf [] ops).2, encElems (fElemsOf [] ops).1⟩ := by
      have h2 := binDtor_clean (fElemsOf [] ops).2 [] (fElemsOf [] ops).1
        (fun e he => (s4 e he).1) (fun e he => (s4 e he).2.2.1)
      simpa using h2
    rw [hbd]
    have h := (fReads_fuel univ hcard fr (fSizeList ops)).2 ops [] []
      (fElemsOf [] ops).2 le_rfl hgood List.nodup_nil (by simp) hstrs
      (by intro a ha; cases ha) (by intro a ha; cases ha)
      ⟨[], by simp⟩ (by intro a ha; cases ha)
    simpa using h
  · exact (jReads_fuel fr ext (fSizeList ops)).2 ops .jNull le_rfl hgood

/-- Witness for `c1_round_trip`: one scope exercising every call kind —
all five scalars, all five primitive arrays, and a nested object holding a
scalar and a second nesting level. -/
theorem c1_round_trip_witness :
    (∀ s ∈ fStrsList [FOp.fInt "i" (-5), FOp.fUInt "u" 7,
        FOp.fFloat "f" 1065353216, FOp.fBool "b" true, FOp.fStr "s" "hi",
        FOp.fArrInt "ai" [1, -2], FOp.fArrUInt "au" [3],
        FOp.fArrFloat "af" [1065353216], FOp.fArrBool "ab" [true, false],
        FOp.fArrStr "as" ["x", "y"],
        FOp.fObj "o" [FOp.fInt "n" 1, FOp.fObj "p" [FOp.fBool "q" false]]],
      s ∈ ({"i", "u", "f", "b", "s", "hi", "ai", "au", "af", "ab", "as", "x",
        "y", "o", "n", "p", "q"} : Finset String)) ∧
    ({"i", "u", "f", "b", "s", "hi", "ai", "au", "af", "ab", "as", "x",
      "y", "o", "n", "p", "q"} : Finset String).card ≤ 8192 ∧
    fGoodList [FOp.fInt "i" (-5), FOp.fUInt "u" 7,
      FOp.fFloat "f" 1065353216, FOp.fBool "b" true, FOp.fStr "s" "hi",
      FOp.fArrInt "ai" [1, -2], FOp.fArrUInt "au" [3],
      FOp.fArrFloat "af" [1065353216], FOp.fArrBool "ab" [true, false],
      FOp.fArrStr "as" ["x", "y"],
      FOp.fObj "o" [FOp.fInt "n" 1, FOp.fObj "p" [FOp.fBool "q" false]]] = true ∧
    (readsBackFs trivialFloatRt
      (binDtor 0 (applyFOps [FOp.fInt "i" (-5), FOp.fUInt "u" 7,
        FOp.fFloat "f" 1065353216, FOp.fBool "b" true, FOp.fStr "s" "hi",
        FOp.fArrInt "ai" [1, -2], FOp.fArrUInt "au" [3],
        FOp.fArrFloat "af" [1065353216], FOp.fArrBool "ab" [true, false],
        FOp.fArrStr "as" ["x", "y"],
        FOp.fObj "o" [FOp.fInt "n" 1, FOp.fObj "p" [FOp.fBool "q" false]]]
        0 ⟨[], []⟩)).strings
      (binDtor 0 (applyFOps [FOp.fInt "i" (-5), FOp.fUInt "u" 7,
        FOp.fFloat "f" 1065353216, FOp.fBool "b" true, FOp.fStr "s" "hi",
        FOp.fArrInt "ai" [1, -2], FOp.fArrUInt "au" [3],
        FOp.fArrFloat "af" [1065353216], FOp.fArrBool "ab" [true, false],
        FOp.fArrStr "as" ["x", "y"],
        FOp.fObj "o" [FOp.fInt "n" 1, FOp.fObj "p" [FOp.fBool "q" false]]]
        0 ⟨[], []⟩)).buf
      [FOp.fInt "i" (-5), FOp.fUInt "u" 7,
        FOp.fFloat "f" 1065353216, FOp.fBool "b" true, FOp.fStr "s" "hi",
        FOp.fArrInt "ai" [1, -2], FOp.fArrUInt "au" [3],
        FOp.fArrFloat "af" [1065353216], FOp.fArrBool "ab" [true, false],
        FOp.fArrStr "as" ["x", "y"],
        FOp.fObj "o" [FOp.fInt "n" 1, FOp.fObj "p" [FOp.fBool "q" false]]] ∧
     readsBackJs trivialFloatRt (fun _ => "")
      (applyJFOps [FOp.fInt "i" (-5), FOp.fUInt "u" 7,
        FOp.fFloat "f" 1065353216, FOp.fBool "b" true, FOp.fStr "s" "hi",
        FOp.fArrInt "ai" [1, -2], FOp.fArrUInt "au" [3],
        FOp.fArrFloat "af" [1065353216], FOp.fArrBool "ab" [true, false],
        FOp.fArrStr "as" ["x", "y"],
        FOp.fObj "o" [FOp.fInt "n" 1, FOp.fObj "p" [FOp.fBool "q" false]]]
        .jNull)
      [FOp.fInt "i" (-5), FOp.fUInt "u" 7,
        FOp.fFloat "f" 1065353216, FOp.fBool "b" true, FOp.fStr "s" "hi",
        FOp.fArrInt "ai" [1, -2], FOp.fArrUInt "au" [3],
        FOp.fArrFloat "af" [1065353216], FOp.fArrBool "ab" [true, false],
        FOp.fArrStr "as" ["x", "y"],
        FOp.fObj "o" [FOp.fInt "n" 1, FOp.fObj "p" [FOp.fBool "q" false]]]) :=
  ⟨by decide, by decide, by decide,
   c1_round_trip trivialFloatRt (fun _ => "")
     [FOp.fInt "i" (-5), FOp.fUInt "u" 7,
      FOp.fFloat "f" 1065353216, FOp.fBool "b" true, FOp.fStr "s" "hi",
      FOp.fArrInt "ai" [1, -2], FOp.fArrUInt "au" [3],
      FOp.fArrFloat "af" [1065353216], FOp.fArrBool "ab" [true, false],
      FOp.fArrStr "as" ["x", "y"],
      FOp.fObj "o" [FOp.fInt "n" 1, FOp.fObj "p" [FOp.fBool "q" false]]]
     {"i", "u", "f", "b", "s", "hi", "ai", "au", "af", "ab", "as", "x",
      "y", "o", "n", "p", "q"} (by decide) (by decide) (by decide)⟩

end Ser





